import Mathlib

/-!
# Verification of the kube-vip cloud provider IPAM core

This file is a shallow embedding, in Lean 4, of the IP-address-management
core of the kube-vip cloud provider: the `ipam` package (address-set
construction from CIDR and range declarations, free-address search, the
process-wide allocator registry) and the `provider` package (pool
resolution from the configuration document, shared-VIP selection,
single- and dual-stack VIP discovery, and the service reconciler
`syncLoadBalancer`).

Modelling conventions:

* Go strings are modelled as `List Char` (abbreviated `Str`); `strings.Split`
  with a one-character separator is `splitOnChar`, `strings.Contains` on a
  one-character needle is `List.contains`, and `strings.Join` is
  `joinComma`/`interpose`.  All model functions operate on `Str` so that the
  exact splitting/joining behaviour of the source is preserved and provable.
* IP addresses (`net/netip.Addr`) are modelled as a family tag plus a `Nat`
  value (`Addr`); IPv4 addresses carry values below `2^32`, IPv6 below
  `2^128`.  `netip.Addr` ordering (IPv4 sorts before IPv6, then by value)
  is `Addr.key`.
* `go4.org/netipx.IPSet` is modelled as its normalized list of ranges
  (sorted, disjoint, non-adjacent, single-family per range), and
  `netipx.IPSetBuilder` as the pending range list plus the accumulated-error
  flag.  Modelled from the library `go4.org/netipx`: builder methods ignore
  invalid inputs (an `IPRange` whose endpoints are of different families or
  mis-ordered) but record an error for them, and `IPSetBuilder.IPSet`
  reports the accumulated errors; `IPSet.Prefixes` returns the minimal
  prefix decomposition of the normalized ranges in ascending order.
* `netip.ParseAddr` / `netip.ParsePrefix` and the `String()` renderings are
  implemented over `Str`: dotted-quad IPv4 (leading zeros rejected, as in
  `net/netip`) and RFC 5952 IPv6 (lower-case hex, leftmost longest zero run
  of length at least two compressed).  IPv6 zones and the embedded
  dotted-quad form (`::ffff:1.2.3.4`) are not modelled; no claim depends on
  them.
* The Kubernetes store is modelled as a list of services plus a list of
  configuration documents; one reconciliation (`syncLoadBalancer`) is a
  function from a world and a service to a result and a new world.  The
  conflict-retry loop around each write is collapsed to its single
  successful iteration, and the process-wide `ipam.Manager` slice is passed
  in and out explicitly.

Source: kube-vip-cloud-provider, `pkg/ipam/ipam.go` (netipx edition),
`pkg/ipam/addressbuilder.go`, `pkg/config/config.go`,
`pkg/provider/loadBalancer.go`.
-/

set_option linter.unusedVariables false

namespace KubeVip

/-- Go strings, modelled as lists of characters. -/
abbrev Str := List Char

/-- Coerce a Lean string literal to the model's string type. -/
def str (s : String) : Str := s.data

/-- `strings.Split(s, sep)` for a one-character separator `sep`.
Like Go's `strings.Split`, the result is never empty and splitting the
empty string yields `[[]]`. -/
def splitOnChar (c : Char) : Str → List Str
  | [] => [[]]
  | x :: xs =>
    if x = c then [] :: splitOnChar c xs
    else
      match splitOnChar c xs with
      | h :: t => (x :: h) :: t
      | [] => [[x]]

/-- `strings.Join(parts, sep)` for a one-character separator. -/
def interpose (c : Char) : List Str → Str
  | [] => []
  | [p] => p
  | p :: ps => p ++ c :: interpose c ps

theorem splitOnChar_ne_nil (c : Char) (s : Str) : splitOnChar c s ≠ [] := by
  cases s with
  | nil => simp [splitOnChar]
  | cons x xs =>
    simp only [splitOnChar]
    split
    · simp
    · split <;> simp_all

theorem splitOnChar_append_cons (c : Char) (a b : Str) (ha : c ∉ a) :
    splitOnChar c (a ++ c :: b) = a :: splitOnChar c b := by
  induction a with
  | nil => simp [splitOnChar]
  | cons x xs ih =>
    simp only [List.mem_cons, not_or] at ha
    simp only [List.cons_append, splitOnChar]
    rw [if_neg (fun h => ha.1 h.symm)]
    have := ih ha.2
    simp only [List.append_eq] at this ⊢
    rw [this]

theorem splitOnChar_no_sep (c : Char) (a : Str) (ha : c ∉ a) :
    splitOnChar c a = [a] := by
  induction a with
  | nil => simp [splitOnChar]
  | cons x xs ih =>
    simp only [List.mem_cons, not_or] at ha
    simp only [splitOnChar]
    rw [if_neg (fun h => ha.1 h.symm)]
    rw [ih ha.2]

/-- Splitting an interposed list recovers the list, provided no part
contains the separator. -/
theorem splitOnChar_interpose (c : Char) (ps : List Str) (hps : ps ≠ [])
    (h : ∀ p ∈ ps, c ∉ p) :
    splitOnChar c (interpose c ps) = ps := by
  induction ps with
  | nil => exact absurd rfl hps
  | cons p ps ih =>
    cases ps with
    | nil => exact splitOnChar_no_sep c p (h p (by simp))
    | cons q qs =>
      have h1 : c ∉ p := h p (by simp)
      simp only [interpose]
      rw [splitOnChar_append_cons c p _ h1]
      rw [ih (by simp) (fun x hx => h x (List.mem_cons_of_mem _ hx))]

/-! ## Decimal and hexadecimal digits -/

/-- The decimal digit character for `n < 10`. -/
def digitChar (n : Nat) : Char := Char.ofNat (48 + n)

/-- The lower-case hexadecimal digit character for `n < 16`
(`net/netip` renders IPv6 groups in lower case). -/
def hexChar (n : Nat) : Char :=
  if n < 10 then Char.ofNat (48 + n) else Char.ofNat (87 + n)

/-- Decimal digit value of a character, `none` for non-digits. -/
def decDigit? (c : Char) : Option Nat :=
  if '0' ≤ c ∧ c ≤ '9' then some (c.toNat - 48) else none

/-- Hexadecimal digit value of a character (Go accepts both cases). -/
def hexDigit? (c : Char) : Option Nat :=
  if '0' ≤ c ∧ c ≤ '9' then some (c.toNat - 48)
  else if 'a' ≤ c ∧ c ≤ 'f' then some (c.toNat - 87)
  else if 'A' ≤ c ∧ c ≤ 'F' then some (c.toNat - 55)
  else none

/-- Decimal rendering, fuel-structured so the kernel can evaluate it
(the fuel strictly bounds the number). -/
def natToCharsGo : Nat → Nat → Str
  | 0, _ => []
  | fuel + 1, n =>
    if n < 10 then [digitChar n]
    else natToCharsGo fuel (n / 10) ++ [digitChar (n % 10)]

/-- Decimal rendering of a natural number, most significant digit first
(the `%d` rendering used by `net/netip` for IPv4 octets and prefix bits). -/
def natToChars (n : Nat) : Str := natToCharsGo (n + 1) n

theorem natToCharsGo_congr : ∀ (n f1 f2 : Nat), n < f1 → n < f2 →
    natToCharsGo f1 n = natToCharsGo f2 n := by
  intro n
  induction n using Nat.strong_induction_on with
  | _ n ih =>
    intro f1 f2 h1 h2
    obtain ⟨g1, rfl⟩ : ∃ g, f1 = g + 1 := ⟨f1 - 1, by omega⟩
    obtain ⟨g2, rfl⟩ : ∃ g, f2 = g + 1 := ⟨f2 - 1, by omega⟩
    by_cases h : n < 10
    · simp only [natToCharsGo, if_pos h]
    · simp only [natToCharsGo, if_neg h]
      have hd : n / 10 < n := Nat.div_lt_self (by omega) (by omega)
      rw [ih (n / 10) hd g1 g2 (by omega) (by omega)]

/-- The recursion equation of `natToChars`. -/
theorem natToChars_eq (n : Nat) :
    natToChars n =
      if n < 10 then [digitChar n]
      else natToChars (n / 10) ++ [digitChar (n % 10)] := by
  by_cases h : n < 10
  · rw [if_pos h]
    show natToCharsGo (n + 1) n = [digitChar n]
    simp only [natToCharsGo, if_pos h]
  · rw [if_neg h]
    show natToCharsGo (n + 1) n = natToChars (n / 10) ++ [digitChar (n % 10)]
    simp only [natToCharsGo, if_neg h]
    have hd : n / 10 < n := Nat.div_lt_self (by omega) (by omega)
    rw [natToCharsGo_congr (n / 10) n (n / 10 + 1) hd (by omega)]
    rfl

/-- Hexadecimal rendering, fuel-structured. -/
def hexToCharsGo : Nat → Nat → Str
  | 0, _ => []
  | fuel + 1, n =>
    if n < 16 then [hexChar n]
    else hexToCharsGo fuel (n / 16) ++ [hexChar (n % 16)]

/-- Lower-case hexadecimal rendering, most significant digit first
(the `%x` rendering used by `net/netip` for IPv6 groups). -/
def hexToChars (n : Nat) : Str := hexToCharsGo (n + 1) n

theorem hexToCharsGo_congr : ∀ (n f1 f2 : Nat), n < f1 → n < f2 →
    hexToCharsGo f1 n = hexToCharsGo f2 n := by
  intro n
  induction n using Nat.strong_induction_on with
  | _ n ih =>
    intro f1 f2 h1 h2
    obtain ⟨g1, rfl⟩ : ∃ g, f1 = g + 1 := ⟨f1 - 1, by omega⟩
    obtain ⟨g2, rfl⟩ : ∃ g, f2 = g + 1 := ⟨f2 - 1, by omega⟩
    by_cases h : n < 16
    · simp only [hexToCharsGo, if_pos h]
    · simp only [hexToCharsGo, if_neg h]
      have hd : n / 16 < n := Nat.div_lt_self (by omega) (by omega)
      rw [ih (n / 16) hd g1 g2 (by omega) (by omega)]

/-- The recursion equation of `hexToChars`. -/
theorem hexToChars_eq (n : Nat) :
    hexToChars n =
      if n < 16 then [hexChar n]
      else hexToChars (n / 16) ++ [hexChar (n % 16)] := by
  by_cases h : n < 16
  · rw [if_pos h]
    show hexToCharsGo (n + 1) n = [hexChar n]
    simp only [hexToCharsGo, if_pos h]
  · rw [if_neg h]
    show hexToCharsGo (n + 1) n = hexToChars (n / 16) ++ [hexChar (n % 16)]
    simp only [hexToCharsGo, if_neg h]
    have hd : n / 16 < n := Nat.div_lt_self (by omega) (by omega)
    rw [hexToCharsGo_congr (n / 16) n (n / 16 + 1) hd (by omega)]
    rfl

/-- Accumulate decimal digits left to right; `none` on a non-digit.
The empty string accumulates to `some 0`; callers require non-emptiness. -/
def decValue (s : Str) : Option Nat :=
  s.foldl (fun acc c =>
    match acc, decDigit? c with
    | some a, some d => some (a * 10 + d)
    | _, _ => none) (some 0)

/-- Accumulate hexadecimal digits left to right; `none` on a non-digit. -/
def hexValue (s : Str) : Option Nat :=
  s.foldl (fun acc c =>
    match acc, hexDigit? c with
    | some a, some d => some (a * 16 + d)
    | _, _ => none) (some 0)

theorem decDigit?_digitChar {d : Nat} (h : d < 10) :
    decDigit? (digitChar d) = some d := by
  interval_cases d <;> decide

theorem hexDigit?_hexChar {d : Nat} (h : d < 16) :
    hexDigit? (hexChar d) = some d := by
  interval_cases d <;> decide

theorem natToChars_ne_nil (n : Nat) : natToChars n ≠ [] := by
  rw [natToChars_eq]
  split <;> simp

theorem hexToChars_ne_nil (n : Nat) : hexToChars n ≠ [] := by
  rw [hexToChars_eq]
  split <;> simp

theorem decValue_append_digit (a : Str) (v : Nat) (hv : decValue a = some v)
    {d : Nat} (hd : d < 10) :
    decValue (a ++ [digitChar d]) = some (v * 10 + d) := by
  simp only [decValue, List.foldl_append] at *
  rw [hv, List.foldl_cons, decDigit?_digitChar hd]
  simp

theorem hexValue_append_digit (a : Str) (v : Nat) (hv : hexValue a = some v)
    {d : Nat} (hd : d < 16) :
    hexValue (a ++ [hexChar d]) = some (v * 16 + d) := by
  simp only [hexValue, List.foldl_append] at *
  rw [hv, List.foldl_cons, hexDigit?_hexChar hd]
  simp

/-- Parsing inverts decimal rendering. -/
theorem decValue_natToChars (n : Nat) : decValue (natToChars n) = some n := by
  induction n using Nat.strong_induction_on with
  | _ n ih =>
    rw [natToChars_eq]
    split
    · next h =>
      simp only [decValue, List.foldl_cons, List.foldl_nil,
        decDigit?_digitChar h]
      simp
    · next h =>
      have hdiv : n / 10 < n := Nat.div_lt_self (by omega) (by omega)
      have hmod : n % 10 < 10 := Nat.mod_lt _ (by omega)
      have hstep := decValue_append_digit (natToChars (n / 10)) (n / 10)
        (ih _ hdiv) hmod
      rw [hstep]
      congr 1
      omega

/-- Parsing inverts hexadecimal rendering. -/
theorem hexValue_hexToChars (n : Nat) : hexValue (hexToChars n) = some n := by
  induction n using Nat.strong_induction_on with
  | _ n ih =>
    rw [hexToChars_eq]
    split
    · next h =>
      simp only [hexValue, List.foldl_cons, List.foldl_nil,
        hexDigit?_hexChar h]
      simp
    · next h =>
      have hdiv : n / 16 < n := Nat.div_lt_self (by omega) (by omega)
      have hmod : n % 16 < 16 := Nat.mod_lt _ (by omega)
      have hstep := hexValue_append_digit (hexToChars (n / 16)) (n / 16)
        (ih _ hdiv) hmod
      rw [hstep]
      congr 1
      omega

/-- Every character of a decimal rendering is a decimal digit. -/
theorem natToChars_digits (n : Nat) :
    ∀ c ∈ natToChars n, '0' ≤ c ∧ c ≤ '9' := by
  induction n using Nat.strong_induction_on with
  | _ n ih =>
    rw [natToChars_eq]
    split
    · next h =>
      intro c hc
      simp only [List.mem_singleton] at hc
      subst hc
      interval_cases n <;> decide
    · next h =>
      intro c hc
      rcases List.mem_append.mp hc with h1 | h2
      · exact ih _ (Nat.div_lt_self (by omega) (by omega)) c h1
      · simp only [List.mem_singleton] at h2
        subst h2
        have : n % 10 < 10 := Nat.mod_lt _ (by omega)
        interval_cases h : (n % 10) <;> decide

/-- Every character of a hexadecimal rendering is a digit or a lower-case
letter between `a` and `f`. -/
theorem hexToChars_chars (n : Nat) :
    ∀ c ∈ hexToChars n, ('0' ≤ c ∧ c ≤ '9') ∨ ('a' ≤ c ∧ c ≤ 'f') := by
  induction n using Nat.strong_induction_on with
  | _ n ih =>
    rw [hexToChars_eq]
    split
    · next h =>
      intro c hc
      simp only [List.mem_singleton] at hc
      subst hc
      interval_cases n <;> decide
    · next h =>
      intro c hc
      rcases List.mem_append.mp hc with h1 | h2
      · exact ih _ (Nat.div_lt_self (by omega) (by omega)) c h1
      · simp only [List.mem_singleton] at h2
        subst h2
        have : n % 16 < 16 := Nat.mod_lt _ (by omega)
        interval_cases h : (n % 16) <;> decide

/-- Non-zero numbers never render with a leading zero. -/
theorem natToChars_head_ne_zero {n : Nat} (h : n ≠ 0) :
    ∀ c, (natToChars n).head? = some c → c ≠ '0' := by
  induction n using Nat.strong_induction_on with
  | _ n ih =>
    rw [natToChars_eq]
    split
    · next hlt =>
      intro c hc
      simp only [List.head?_cons, Option.some.injEq] at hc
      subst hc
      interval_cases n
      · omega
      all_goals decide
    · next hlt =>
      intro c hc
      have hne := natToChars_ne_nil (n / 10)
      rw [List.head?_append_of_ne_nil _ hne] at hc
      exact ih _ (Nat.div_lt_self (by omega) (by omega))
        (by omega) c hc

/-- A number below `10^k` renders in at most `k` digits (`1 ≤ k`). -/
theorem natToChars_length_le {k n : Nat} (hk : 1 ≤ k) (h : n < 10 ^ k) :
    (natToChars n).length ≤ k := by
  induction k generalizing n with
  | zero => omega
  | succ k ih =>
    rw [natToChars_eq]
    split
    · simp only [List.length_singleton]
      omega
    · next hge =>
      have hk1 : 1 ≤ k := by
        by_contra hk0
        have : k = 0 := by omega
        subst this
        norm_num at h
        omega
      have hdiv : n / 10 < 10 ^ k := by
        rw [Nat.div_lt_iff_lt_mul (by omega)]
        calc n < 10 ^ (k + 1) := h
        _ = 10 ^ k * 10 := by ring
      have := ih hk1 hdiv
      simp only [List.length_append, List.length_cons, List.length_nil]
      omega

/-- A number below `16^k` renders in at most `k` hex digits (`1 ≤ k`). -/
theorem hexToChars_length_le {k n : Nat} (hk : 1 ≤ k) (h : n < 16 ^ k) :
    (hexToChars n).length ≤ k := by
  induction k generalizing n with
  | zero => omega
  | succ k ih =>
    rw [hexToChars_eq]
    split
    · simp only [List.length_singleton]
      omega
    · next hge =>
      have hk1 : 1 ≤ k := by
        by_contra hk0
        have : k = 0 := by omega
        subst this
        norm_num at h
        omega
      have hdiv : n / 16 < 16 ^ k := by
        rw [Nat.div_lt_iff_lt_mul (by omega)]
        calc n < 16 ^ (k + 1) := h
        _ = 16 ^ k * 16 := by ring
      have := ih hk1 hdiv
      simp only [List.length_append, List.length_cons, List.length_nil]
      omega

/-! ## Big-endian digit sequences -/

/-- The `k` big-endian base-`B` digits of `n` (most significant first). -/
def natDigitsBE (B : Nat) : Nat → Nat → List Nat
  | 0, _ => []
  | k + 1, n => natDigitsBE B k (n / B) ++ [n % B]

/-- Recombine big-endian base-`B` digits into a number. -/
def ofDigitsBE (B : Nat) (l : List Nat) : Nat :=
  l.foldl (fun acc d => acc * B + d) 0

theorem natDigitsBE_length (B k n : Nat) : (natDigitsBE B k n).length = k := by
  induction k generalizing n with
  | zero => rfl
  | succ k ih => simp [natDigitsBE, ih]

theorem natDigitsBE_lt (B k n : Nat) (hB : 0 < B) :
    ∀ d ∈ natDigitsBE B k n, d < B := by
  induction k generalizing n with
  | zero => simp [natDigitsBE]
  | succ k ih =>
    intro d hd
    simp only [natDigitsBE, List.mem_append, List.mem_singleton] at hd
    rcases hd with h | h
    · exact ih _ d h
    · subst h
      exact Nat.mod_lt _ hB

theorem ofDigitsBE_append_last (B : Nat) (l : List Nat) (d : Nat) :
    ofDigitsBE B (l ++ [d]) = ofDigitsBE B l * B + d := by
  simp [ofDigitsBE, List.foldl_append]

/-- For `n < B^k`, the digits recombine to exactly `n`. -/
theorem ofDigitsBE_natDigitsBE (B k n : Nat) (hB : 0 < B) (h : n < B ^ k) :
    ofDigitsBE B (natDigitsBE B k n) = n := by
  induction k generalizing n with
  | zero =>
    simp only [pow_zero] at h
    interval_cases n
    rfl
  | succ k ih =>
    have hdiv : n / B < B ^ k := by
      rw [Nat.div_lt_iff_lt_mul hB]
      calc n < B ^ (k + 1) := h
      _ = B ^ k * B := by ring
    simp only [natDigitsBE, ofDigitsBE_append_last, ih _ hdiv]
    exact Nat.div_add_mod' n B

/-! ## Addresses (`net/netip.Addr`) -/

/-- A `netip.Addr`: a family tag (IPv4 or IPv6) and a numeric value.
Well-formed values are below `2^32` (IPv4) or `2^128` (IPv6). -/
structure Addr where
  is4 : Bool
  val : Nat
deriving DecidableEq, Repr

/-- Bit width of the address family. -/
def Addr.width (a : Addr) : Nat := if a.is4 then 32 else 128

/-- Well-formedness: the value fits the family's width. -/
def Addr.wf (a : Addr) : Prop := a.val < 2 ^ a.width

instance (a : Addr) : Decidable a.wf := by
  unfold Addr.wf
  infer_instance

/-- `netip.Addr` comparison key: IPv4 addresses sort before IPv6 ones,
then by numeric value (this is `netip.Addr.Compare`). -/
def Addr.key (a : Addr) : Nat := (if a.is4 then 0 else 2 ^ 128) + a.val

/-- Strict `netip.Addr` order. -/
def Addr.ltB (a b : Addr) : Bool := a.key < b.key

/-- The last octet of the four-byte form of an IPv4 value
(`addr.As4()[3]`). -/
def Addr.lastOctet (a : Addr) : Nat := a.val % 256

/-- Apply a fallible function to every element, failing if any fails. -/
def mapOption (f : α → Option β) : List α → Option (List β)
  | [] => some []
  | x :: xs =>
    match f x, mapOption f xs with
    | some y, some ys => some (y :: ys)
    | _, _ => none

/-! ## IPv4 rendering and parsing -/

/-- `netip.Addr.String()` for IPv4: dotted quad. -/
def renderV4 (n : Nat) : Str :=
  interpose '.' ((natDigitsBE 256 4 n).map natToChars)

/-- One dotted-quad field, with `net/netip` strictness: non-empty, decimal,
no leading zero, at most 255. -/
def parseOctet (s : Str) : Option Nat :=
  if s = [] then none
  else if s.head? = some '0' ∧ s.length > 1 then none
  else
    match decValue s with
    | some v => if v ≤ 255 then some v else none
    | none => none

/-- `netip.ParseAddr` for dotted-quad IPv4. -/
def parseV4 (s : Str) : Option Addr :=
  match mapOption parseOctet (splitOnChar '.' s) with
  | some gs => if gs.length = 4 then some ⟨true, ofDigitsBE 256 gs⟩ else none
  | none => none

/-! ## IPv6 rendering and parsing -/

/-- The eight 16-bit groups of an IPv6 value, most significant first. -/
def v6groups (n : Nat) : List Nat := natDigitsBE 65536 8 n

/-- Number of leading zero groups. -/
def leadZeros : List Nat → Nat
  | [] => 0
  | g :: t => if g = 0 then leadZeros t + 1 else 0

/-- One step of the zero-run search: keep the incumbent unless the run
starting at `i` is strictly longer (so ties keep the leftmost run). -/
def bzrStep (gs : List Nat) (acc : Nat × Nat) (i : Nat) : Nat × Nat :=
  if leadZeros (gs.drop i) > acc.2 then (i, leadZeros (gs.drop i)) else acc

/-- The leftmost longest run of zero groups of length at least two, as
`(start, length)` — the run `netip.Addr.String()` elides as `::`. -/
def bestZeroRun (gs : List Nat) : Option (Nat × Nat) :=
  let best := (List.range gs.length).foldl (bzrStep gs) (0, 0)
  if best.2 ≥ 2 then some best else none

/-- `netip.Addr.String()` for IPv6 (RFC 5952): lower-case hex groups,
with the leftmost longest zero run of length at least two compressed. -/
def renderV6 (n : Nat) : Str :=
  let gs := v6groups n
  match bestZeroRun gs with
  | none => interpose ':' (gs.map hexToChars)
  | some (i, l) =>
    interpose ':' ((gs.take i).map hexToChars) ++
      ':' :: ':' :: interpose ':' ((gs.drop (i + l)).map hexToChars)

/-- Split a string at the first `::`, when present. -/
def findDoubleColon : Str → Option (Str × Str)
  | [] => none
  | c :: rest =>
    if c = ':' ∧ rest.head? = some ':' then some ([], rest.tail)
    else (findDoubleColon rest).map (fun p => (c :: p.1, p.2))

/-- One IPv6 group: one to four hex digits (leading zeros allowed). -/
def parseGroup (s : Str) : Option Nat :=
  if s = [] then none
  else if s.length > 4 then none
  else hexValue s

/-- `netip.ParseAddr` for IPv6 in hex-group form.  Zones and the embedded
dotted-quad tail are not modelled. -/
def parseV6 (s : Str) : Option Addr :=
  match findDoubleColon s with
  | none =>
    match mapOption parseGroup (splitOnChar ':' s) with
    | some gs => if gs.length = 8 then some ⟨false, ofDigitsBE 65536 gs⟩ else none
    | none => none
  | some (l, r) =>
    if findDoubleColon r ≠ none then none
    else
      let lparts := if l = [] then ([] : List Str) else splitOnChar ':' l
      let rparts := if r = [] then ([] : List Str) else splitOnChar ':' r
      match mapOption parseGroup lparts, mapOption parseGroup rparts with
      | some lg, some rg =>
        if lg.length + rg.length < 8 then
          some ⟨false,
            ofDigitsBE 65536
              (lg ++ List.replicate (8 - lg.length - rg.length) 0 ++ rg)⟩
        else none
      | _, _ => none


/-- `netip.Addr.String()`. -/
def Addr.render (a : Addr) : Str :=
  if a.is4 then renderV4 a.val else renderV6 a.val

/-- `strings.Contains` for a one-character needle. -/
def containsChar (s : Str) (c : Char) : Bool := s.any (· == c)

/-- `netip.ParseAddr`: the first `.` or `:` decides the family. -/
def parseAddr (s : Str) : Option Addr :=
  if containsChar s ':' then parseV6 s
  else if containsChar s '.' then parseV4 s
  else none

/-! ## Round-trip lemmas: parsing inverts rendering -/

theorem mapOption_congr_some {α β : Type} {g : α → Option β} {f : α → β}
    {l : List α} (h : ∀ x ∈ l, g x = some (f x)) :
    mapOption g l = some (l.map f) := by
  induction l with
  | nil => rfl
  | cons x xs ih =>
    simp only [mapOption, h x (by simp), ih (fun y hy => h y (by simp [hy])),
      List.map_cons]

theorem digit_ne_sep {c : Char} (h : '0' ≤ c ∧ c ≤ '9') :
    c ≠ '.' ∧ c ≠ ':' ∧ c ≠ '/' ∧ c ≠ '-' := by
  refine ⟨?_, ?_, ?_, ?_⟩ <;> (rintro rfl; exact absurd h (by decide))

theorem hexchar_ne_sep {c : Char}
    (h : ('0' ≤ c ∧ c ≤ '9') ∨ ('a' ≤ c ∧ c ≤ 'f')) :
    c ≠ '.' ∧ c ≠ ':' ∧ c ≠ '/' ∧ c ≠ '-' := by
  rcases h with h | h <;>
    (refine ⟨?_, ?_, ?_, ?_⟩ <;> (rintro rfl; exact absurd h (by decide)))

theorem mem_interpose {c : Char} {x : Char} {ps : List Str}
    (h : x ∈ interpose c ps) : (∃ p ∈ ps, x ∈ p) ∨ x = c := by
  induction ps with
  | nil => simp [interpose] at h
  | cons p ps ih =>
    cases ps with
    | nil =>
      simp only [interpose] at h
      exact Or.inl ⟨p, by simp, h⟩
    | cons q qs =>
      simp only [interpose, List.mem_append, List.mem_cons] at h
      rcases h with h | h | h
      · exact Or.inl ⟨p, by simp, h⟩
      · exact Or.inr h
      · rcases ih h with ⟨r, hr, hxr⟩ | h
        · exact Or.inl ⟨r, by simp [hr], hxr⟩
        · exact Or.inr h

theorem interpose_ne_nil {c : Char} {p : Str} {ps : List Str}
    (hp : p ≠ []) : interpose c (p :: ps) ≠ [] := by
  cases ps <;> simp [interpose, hp]

theorem sep_mem_interpose (c : Char) (p q : Str) (ps : List Str) :
    c ∈ interpose c (p :: q :: ps) := by
  simp [interpose]

/-- Parsing inverts octet rendering for octet values. -/
theorem parseOctet_natToChars {d : Nat} (h : d ≤ 255) :
    parseOctet (natToChars d) = some d := by
  unfold parseOctet
  rw [if_neg (natToChars_ne_nil d)]
  have hlead : ¬((natToChars d).head? = some '0' ∧ (natToChars d).length > 1) := by
    rintro ⟨h0, hlen⟩
    by_cases hd0 : d = 0
    · subst hd0
      have : natToChars 0 = [digitChar 0] := by rw [natToChars_eq]; simp
      rw [this] at hlen
      simp at hlen
    · exact natToChars_head_ne_zero hd0 _ h0 rfl
  rw [if_neg hlead, decValue_natToChars]
  simp [h]

/-- Parsing inverts group rendering for 16-bit group values. -/
theorem parseGroup_hexToChars {g : Nat} (h : g < 65536) :
    parseGroup (hexToChars g) = some g := by
  unfold parseGroup
  rw [if_neg (hexToChars_ne_nil g)]
  have hlen : ¬(hexToChars g).length > 4 := by
    have : (hexToChars g).length ≤ 4 :=
      hexToChars_length_le (by omega) (by norm_num; omega)
    omega
  rw [if_neg hlen, hexValue_hexToChars]

/-- Parsing inverts IPv4 rendering. -/
theorem mapOption_map_roundtrip {α β : Type} {g : β → Option α} {f : α → β}
    {l : List α} (h : ∀ x ∈ l, g (f x) = some x) :
    mapOption g (l.map f) = some l := by
  induction l with
  | nil => rfl
  | cons x xs ih =>
    simp only [List.map_cons, mapOption, h x (by simp),
      ih (fun y hy => h y (by simp [hy]))]

theorem natDigitsBE_ne_nil {B k n : Nat} (hk : 0 < k) :
    natDigitsBE B k n ≠ [] := by
  intro hnil
  have := natDigitsBE_length B k n
  rw [hnil] at this
  simp at this
  omega

theorem parseV4_renderV4 {n : Nat} (h : n < 2 ^ 32) :
    parseV4 (renderV4 n) = some ⟨true, n⟩ := by
  unfold parseV4 renderV4
  have hsplit : splitOnChar '.' (interpose '.' ((natDigitsBE 256 4 n).map natToChars)) =
      (natDigitsBE 256 4 n).map natToChars := by
    apply splitOnChar_interpose
    · simp only [ne_eq, List.map_eq_nil_iff]
      exact natDigitsBE_ne_nil (by omega)
    · intro p hp
      rcases List.mem_map.mp hp with ⟨d, hd, rfl⟩
      intro hc
      exact (digit_ne_sep (natToChars_digits d _ hc)).1 rfl
  rw [hsplit]
  rw [mapOption_map_roundtrip (fun d hd => by
    have hd255 : d ≤ 255 := by
      have := natDigitsBE_lt 256 4 n (by omega) d hd
      omega
    exact parseOctet_natToChars hd255)]
  simp only [natDigitsBE_length, if_pos]
  rw [ofDigitsBE_natDigitsBE 256 4 n (by omega) (by norm_num at h ⊢; omega)]

theorem leadZeros_le_length (l : List Nat) : leadZeros l ≤ l.length := by
  induction l with
  | nil => simp [leadZeros]
  | cons g t ih =>
    simp only [leadZeros]
    split
    · simp only [List.length_cons]; omega
    · simp

theorem leadZeros_decomp (l : List Nat) :
    l = List.replicate (leadZeros l) 0 ++ l.drop (leadZeros l) := by
  induction l with
  | nil => rfl
  | cons g t ih =>
    simp only [leadZeros]
    split
    · next hg =>
      subst hg
      simp only [List.replicate_succ, List.cons_append, List.drop_succ_cons]
      exact congrArg _ ih
    · simp

/-- Invariant of the zero-run search fold. -/
theorem bzrFold_spec (gs : List Nat) (idxs : List Nat) (acc : Nat × Nat)
    (hidx : ∀ j ∈ idxs, j < gs.length)
    (hacc : acc = (0, 0) ∨
      (acc.2 = leadZeros (gs.drop acc.1) ∧ acc.1 + acc.2 ≤ gs.length)) :
    idxs.foldl (bzrStep gs) acc = (0, 0) ∨
      ((idxs.foldl (bzrStep gs) acc).2 =
          leadZeros (gs.drop (idxs.foldl (bzrStep gs) acc).1) ∧
        (idxs.foldl (bzrStep gs) acc).1 + (idxs.foldl (bzrStep gs) acc).2 ≤
          gs.length) := by
  induction idxs generalizing acc with
  | nil => exact hacc
  | cons j js ih =>
    simp only [List.foldl_cons]
    apply ih
    · intro x hx
      exact hidx x (by simp [hx])
    · unfold bzrStep
      split
      · right
        refine ⟨rfl, ?_⟩
        have hj : j < gs.length := hidx j (by simp)
        have := leadZeros_le_length (gs.drop j)
        simp only [List.length_drop] at this
        omega
      · exact hacc

/-- `bestZeroRun` returns a genuine zero run: its length is the number of
leading zero groups at its start index, it is at least two, and it fits. -/
theorem bestZeroRun_spec {gs : List Nat} {i l : Nat}
    (h : bestZeroRun gs = some (i, l)) :
    l = leadZeros (gs.drop i) ∧ 2 ≤ l ∧ i + l ≤ gs.length := by
  unfold bestZeroRun at h
  simp only at h
  split at h
  · next hge =>
    injection h with h
    have := bzrFold_spec gs (List.range gs.length) (0, 0)
      (fun j hj => List.mem_range.mp hj) (Or.inl rfl)
    rw [h] at this hge
    rcases this with h00 | ⟨h1, h2⟩
    · rw [h00] at hge
      simp at hge
    · exact ⟨h1.symm ▸ h1, by omega⟩
  · exact absurd h (by simp)


theorem containsChar_iff {s : Str} {c : Char} :
    containsChar s c = true ↔ c ∈ s := by
  simp only [containsChar, List.any_eq_true, beq_iff_eq]
  constructor
  · rintro ⟨x, hx, rfl⟩; exact hx
  · intro h; exact ⟨c, h, rfl⟩

theorem fdc_no_colon {s : Str} (h : ':' ∉ s) : findDoubleColon s = none := by
  induction s with
  | nil => rfl
  | cons c cs ih =>
    simp only [List.mem_cons, not_or] at h
    simp only [findDoubleColon]
    rw [if_neg (fun hc => h.1 hc.1.symm), ih h.2]
    rfl

theorem fdc_append_no_colon {a : Str} (ha : ':' ∉ a) (b : Str) :
    findDoubleColon (a ++ b) =
      (findDoubleColon b).map (fun p => (a ++ p.1, p.2)) := by
  induction a with
  | nil =>
    simp only [List.nil_append]
    cases findDoubleColon b <;> simp
  | cons x xs ih =>
    simp only [List.mem_cons, not_or] at ha
    simp only [List.cons_append, findDoubleColon]
    rw [if_neg (fun hc => ha.1 hc.1.symm)]
    simp only [List.append_eq] at ih ⊢
    rw [ih ha.2]
    cases findDoubleColon b <;> simp

theorem fdc_colon_cons {b : Str} (hb : b.head? ≠ some ':') :
    findDoubleColon (':' :: b) =
      (findDoubleColon b).map (fun p => (':' :: p.1, p.2)) := by
  simp only [findDoubleColon]
  rw [if_neg (fun hc => hb hc.2)]

theorem head?_interpose {c : Char} {p : Str} {ps : List Str} (hp : p ≠ []) :
    (interpose c (p :: ps)).head? = p.head? := by
  cases ps with
  | nil => rfl
  | cons q qs =>
    simp only [interpose]
    exact List.head?_append_of_ne_nil _ hp

theorem head?_mem {s : Str} {c : Char} (h : s.head? = some c) : c ∈ s := by
  cases s with
  | nil => simp at h
  | cons x xs =>
    simp only [List.head?_cons, Option.some.injEq] at h
    simp [h]

theorem fdc_interpose_none {ps : List Str} (hne : ∀ p ∈ ps, p ≠ [])
    (hcol : ∀ p ∈ ps, ':' ∉ p) :
    findDoubleColon (interpose ':' ps) = none := by
  induction ps with
  | nil => rfl
  | cons p ps ih =>
    cases ps with
    | nil => exact fdc_no_colon (hcol p (by simp))
    | cons q qs =>
      simp only [interpose]
      rw [fdc_append_no_colon (hcol p (by simp))]
      have hq : (interpose ':' (q :: qs)).head? ≠ some ':' := by
        rw [head?_interpose (hne q (by simp))]
        intro hh
        exact hcol q (by simp) (head?_mem hh)
      rw [fdc_colon_cons hq]
      rw [ih (fun x hx => hne x (by simp [hx])) (fun x hx => hcol x (by simp [hx]))]
      rfl

theorem fdc_junction {ps : List Str} (hne : ∀ p ∈ ps, p ≠ [])
    (hcol : ∀ p ∈ ps, ':' ∉ p) (B : Str) :
    findDoubleColon (interpose ':' ps ++ ':' :: ':' :: B) =
      some (interpose ':' ps, B) := by
  induction ps with
  | nil =>
    simp only [interpose, List.nil_append, findDoubleColon]
    rw [if_pos (by simp)]
    rfl
  | cons p ps ih =>
    cases ps with
    | nil =>
      simp only [interpose]
      rw [fdc_append_no_colon (hcol p (by simp))]
      simp only [findDoubleColon]
      rw [if_pos (by simp)]
      simp
    | cons q qs =>
      simp only [interpose, List.append_assoc, List.cons_append]
      rw [fdc_append_no_colon (hcol p (by simp))]
      have hq : ((interpose ':' (q :: qs) ++ ':' :: ':' :: B)).head? ≠ some ':' := by
        rw [List.head?_append_of_ne_nil _
          (interpose_ne_nil (hne q (by simp)))]
        rw [head?_interpose (hne q (by simp))]
        intro hh
        exact hcol q (by simp) (head?_mem hh)
      rw [fdc_colon_cons hq]
      have := ih (fun x hx => hne x (by simp [hx])) (fun x hx => hcol x (by simp [hx]))
      simp only [interpose] at this
      rw [this]
      rfl

theorem hexparts_ne_nil {xs : List Nat} : ∀ p ∈ xs.map hexToChars, p ≠ [] := by
  intro p hp
  rcases List.mem_map.mp hp with ⟨g, hg, rfl⟩
  exact hexToChars_ne_nil g

theorem hexparts_no_colon {xs : List Nat} : ∀ p ∈ xs.map hexToChars, ':' ∉ p := by
  intro p hp
  rcases List.mem_map.mp hp with ⟨g, hg, rfl⟩
  intro hc
  exact (hexchar_ne_sep (hexToChars_chars g _ hc)).2.1 rfl

/-- Parse one side of a `::`, as `parseV6` does. -/
theorem parse_v6_side (xs : List Nat) (hx : ∀ g ∈ xs, g < 65536) :
    mapOption parseGroup
      (if interpose ':' (xs.map hexToChars) = [] then ([] : List Str)
       else splitOnChar ':' (interpose ':' (xs.map hexToChars))) = some xs := by
  cases xs with
  | nil => rfl
  | cons g gs =>
    simp only [List.map_cons]
    rw [if_neg (interpose_ne_nil (hexToChars_ne_nil g))]
    rw [show hexToChars g :: List.map hexToChars gs =
      List.map hexToChars (g :: gs) from by simp]
    rw [splitOnChar_interpose _ _ (by simp) hexparts_no_colon]
    exact mapOption_map_roundtrip
      (fun x hxm => parseGroup_hexToChars (hx x hxm))

theorem renderV6_eq_none {n : Nat} (hb : bestZeroRun (v6groups n) = none) :
    renderV6 n = interpose ':' ((v6groups n).map hexToChars) := by
  unfold renderV6
  simp only [hb]

theorem renderV6_eq_some {n i l : Nat}
    (hb : bestZeroRun (v6groups n) = some (i, l)) :
    renderV6 n =
      interpose ':' (((v6groups n).take i).map hexToChars) ++
        ':' :: ':' :: interpose ':' (((v6groups n).drop (i + l)).map hexToChars) := by
  unfold renderV6
  simp only [hb]

/-- Parsing inverts IPv6 rendering. -/
theorem parseV6_renderV6 {n : Nat} (h : n < 2 ^ 128) :
    parseV6 (renderV6 n) = some ⟨false, n⟩ := by
  have hlen : (v6groups n).length = 8 := natDigitsBE_length _ _ _
  have hlt : ∀ g ∈ v6groups n, g < 65536 :=
    natDigitsBE_lt _ _ _ (by omega)
  have hval : ofDigitsBE 65536 (v6groups n) = n :=
    ofDigitsBE_natDigitsBE _ _ _ (by omega) (by norm_num at h ⊢; omega)
  cases hbzr : bestZeroRun (v6groups n) with
  | none =>
    rw [renderV6_eq_none hbzr]
    unfold parseV6
    rw [fdc_interpose_none hexparts_ne_nil hexparts_no_colon]
    rw [splitOnChar_interpose _ _
      (by
        simp only [ne_eq, List.map_eq_nil_iff]
        intro hq
        rw [hq] at hlen
        simp at hlen)
      hexparts_no_colon]
    rw [mapOption_map_roundtrip (fun g hg => parseGroup_hexToChars (hlt g hg))]
    simp only [hlen, if_pos, hval]
  | some il =>
    obtain ⟨i, l⟩ := il
    obtain ⟨hl, hl2, hfit⟩ := bestZeroRun_spec hbzr
    rw [hlen] at hfit
    rw [renderV6_eq_some hbzr]
    unfold parseV6
    rw [fdc_junction (fun p hp => hexparts_ne_nil p hp)
      (fun p hp => hexparts_no_colon p hp)]
    simp only
    rw [fdc_interpose_none hexparts_ne_nil hexparts_no_colon]
    simp only [ne_eq, not_true_eq_false, reduceIte]
    rw [parse_v6_side _ (fun g hg => hlt g (List.mem_of_mem_take hg))]
    rw [parse_v6_side _ (fun g hg => hlt g (List.mem_of_mem_drop hg))]
    have hilen : ((v6groups n).take i).length = i := by
      rw [List.length_take, hlen]
      omega
    have hrlen : ((v6groups n).drop (i + l)).length = 8 - (i + l) := by
      rw [List.length_drop, hlen]
    simp only [hilen, hrlen]
    rw [if_pos (by omega)]
    have hdecomp : (v6groups n).take i ++ List.replicate (8 - i - (8 - (i + l))) 0 ++
        (v6groups n).drop (i + l) = v6groups n := by
      have hrepl : 8 - i - (8 - (i + l)) = l := by omega
      rw [hrepl]
      have hdrop : (v6groups n).drop i =
          List.replicate l 0 ++ (v6groups n).drop (i + l) := by
        have hd := leadZeros_decomp ((v6groups n).drop i)
        rw [← hl] at hd
        rw [List.drop_drop] at hd
        exact hd
      calc (v6groups n).take i ++ List.replicate l 0 ++ (v6groups n).drop (i + l)
          = (v6groups n).take i ++ ((v6groups n).drop i) := by
            rw [List.append_assoc, ← hdrop]
      _ = v6groups n := List.take_append_drop i _
    rw [hdecomp, hval]


theorem digit_ne_comma {c : Char} (h : '0' ≤ c ∧ c ≤ '9') : c ≠ ',' := by
  rintro rfl; exact absurd h (by decide)

theorem hexchar_ne_comma {c : Char}
    (h : ('0' ≤ c ∧ c ≤ '9') ∨ ('a' ≤ c ∧ c ≤ 'f')) : c ≠ ',' := by
  rcases h with h | h <;> (rintro rfl; exact absurd h (by decide))

theorem sep_mem_interpose_of_len {c : Char} {ps : List Str}
    (h : 2 ≤ ps.length) : c ∈ interpose c ps := by
  cases ps with
  | nil => simp at h
  | cons p ps =>
    cases ps with
    | nil => simp at h
    | cons q qs => exact sep_mem_interpose c p q qs

/-- Characters of an IPv4 rendering: decimal digits and dots. -/
theorem renderV4_chars {n : Nat} :
    ∀ c ∈ renderV4 n, ('0' ≤ c ∧ c ≤ '9') ∨ c = '.' := by
  intro c hc
  rcases mem_interpose hc with ⟨p, hp, hcp⟩ | h
  · rcases List.mem_map.mp hp with ⟨d, hd, rfl⟩
    exact Or.inl (natToChars_digits d _ hcp)
  · exact Or.inr h

/-- Characters of an IPv6 rendering: hex digits and colons. -/
theorem renderV6_chars {n : Nat} :
    ∀ c ∈ renderV6 n,
      (('0' ≤ c ∧ c ≤ '9') ∨ ('a' ≤ c ∧ c ≤ 'f')) ∨ c = ':' := by
  intro c hc
  rcases hb : bestZeroRun (v6groups n) with _ | ⟨i, l⟩
  · rw [renderV6_eq_none hb] at hc
    rcases mem_interpose hc with ⟨p, hp, hcp⟩ | h
    · rcases List.mem_map.mp hp with ⟨g, hg, rfl⟩
      exact Or.inl (hexToChars_chars g _ hcp)
    · exact Or.inr h
  · rw [renderV6_eq_some hb] at hc
    simp only [List.mem_append, List.mem_cons] at hc
    rcases hc with hc | hc | hc | hc
    · rcases mem_interpose hc with ⟨p, hp, hcp⟩ | h
      · rcases List.mem_map.mp hp with ⟨g, hg, rfl⟩
        exact Or.inl (hexToChars_chars g _ hcp)
      · exact Or.inr h
    · exact Or.inr hc
    · exact Or.inr hc
    · rcases mem_interpose hc with ⟨p, hp, hcp⟩ | h
      · rcases List.mem_map.mp hp with ⟨g, hg, rfl⟩
        exact Or.inl (hexToChars_chars g _ hcp)
      · exact Or.inr h

theorem renderV4_no_colon (n : Nat) : ':' ∉ renderV4 n := by
  intro hc
  rcases renderV4_chars _ hc with h | h
  · exact (digit_ne_sep h).2.1 rfl
  · exact absurd h (by decide)

theorem renderV4_has_dot (n : Nat) : '.' ∈ renderV4 n := by
  simp only [renderV4]
  apply sep_mem_interpose_of_len
  simp [natDigitsBE_length]

theorem renderV6_has_colon (n : Nat) : ':' ∈ renderV6 n := by
  rcases hb : bestZeroRun (v6groups n) with _ | ⟨i, l⟩
  · rw [renderV6_eq_none hb]
    apply sep_mem_interpose_of_len
    simp [v6groups, natDigitsBE_length]
  · rw [renderV6_eq_some hb]
    simp

/-- Parsing inverts rendering for well-formed addresses. -/
theorem parseAddr_render {a : Addr} (ha : a.wf) : parseAddr a.render = some a := by
  obtain ⟨is4, val⟩ := a
  cases is4
  · have hv : val < 2 ^ 128 := by
      simpa [Addr.wf, Addr.width] using ha
    simp only [Addr.render, parseAddr, Bool.false_eq_true, if_false]
    rw [if_pos (containsChar_iff.mpr (renderV6_has_colon val))]
    exact parseV6_renderV6 hv
  · have hv : val < 2 ^ 32 := by
      simpa [Addr.wf, Addr.width] using ha
    simp only [Addr.render, if_true]
    unfold parseAddr
    rw [if_neg (fun h => renderV4_no_colon val (containsChar_iff.mp h))]
    rw [if_pos (containsChar_iff.mpr (renderV4_has_dot val))]
    exact parseV4_renderV4 hv

/-- No rendered address contains a comma, slash or dash (so joined address
lists split back apart, and range/prefix renderings parse back). -/
theorem addrRender_sep_free {a : Addr} :
    ',' ∉ a.render ∧ '/' ∉ a.render ∧ '-' ∉ a.render := by
  obtain ⟨is4, val⟩ := a
  cases is4 <;> simp only [Addr.render, if_true, Bool.false_eq_true, if_false]
  · refine ⟨?_, ?_, ?_⟩ <;> intro hc <;> rcases renderV6_chars _ hc with h | h
    · exact hexchar_ne_comma h rfl
    · exact absurd h (by decide)
    · exact (hexchar_ne_sep h).2.2.1 rfl
    · exact absurd h (by decide)
    · exact (hexchar_ne_sep h).2.2.2 rfl
    · exact absurd h (by decide)
  · refine ⟨?_, ?_, ?_⟩ <;> intro hc <;> rcases renderV4_chars _ hc with h | h
    · exact digit_ne_comma h rfl
    · exact absurd h (by decide)
    · exact (digit_ne_sep h).2.2.1 rfl
    · exact absurd h (by decide)
    · exact (digit_ne_sep h).2.2.2 rfl
    · exact absurd h (by decide)


/-! ## Ranges and sets (`go4.org/netipx`) -/

/-- `netipx.IPRange` (fields `From`, `To`; named `lo`, `hi` here since
`from` is a Lean keyword). -/
structure IPRange where
  lo : Addr
  hi : Addr
deriving DecidableEq, Repr

/-- `netipx.IPRangeFrom`. -/
def IPRangeFrom (a b : Addr) : IPRange := ⟨a, b⟩

/-- `IPRange.IsValid`: both endpoints well formed, same family, ordered. -/
def IPRange.isValid (r : IPRange) : Bool :=
  r.lo.is4 == r.hi.is4 && decide r.lo.wf && decide r.hi.wf &&
    decide (r.lo.val ≤ r.hi.val)

/-- Membership of an address in a range. -/
def IPRange.containsA (r : IPRange) (a : Addr) : Bool :=
  r.lo.is4 == a.is4 && decide (r.lo.val ≤ a.val) && decide (a.val ≤ r.hi.val)

/-- A `netipx.IPSet`: its normalized list of ranges. -/
abbrev IPSet := List IPRange

/-- `IPSet.Contains`. -/
def IPSet.containsA (s : IPSet) (a : Addr) : Bool := s.any (·.containsA a)

/-- Go `error` values the model distinguishes: `ipam.OutOfIPsError`
(carrying namespace, pool and cidr-ness) versus everything else. -/
inductive GoErr
| outOfIPs (ns pool : Str) (isCidr : Bool)
| msg (s : Str)
deriving DecidableEq, Repr

/-- The largest value of the address family (`To.Next()` of a range ending
here is the invalid address, which blocks merging in `mergeIPRanges`). -/
def Addr.maxVal (a : Addr) : Nat := 2 ^ a.width - 1

/-- The merge sweep of `netipx.mergeIPRanges` over the sorted ranges:
merge a following range into the current one when it starts no later than
just past the current end (same family, and the current end is not the
family maximum, where `Next()` would be invalid). -/
def mergeGo (cur : IPRange) : List IPRange → List IPRange
  | [] => [cur]
  | r :: rest =>
    if cur.hi.is4 == r.lo.is4 && decide (cur.hi.val ≠ cur.hi.maxVal) &&
        decide (r.lo.val ≤ cur.hi.val + 1) then
      mergeGo ⟨cur.lo, if cur.hi.val < r.hi.val then r.hi else cur.hi⟩ rest
    else
      cur :: mergeGo r rest

def mergeRanges : List IPRange → List IPRange
  | [] => []
  | r :: rest => mergeGo r rest

/-- Sorting key of `netipx` range sorting: the `From` address. -/
def rangeLE (a b : IPRange) : Prop := a.lo.key ≤ b.lo.key

instance : DecidableRel rangeLE := fun a b => by
  unfold rangeLE
  infer_instance

/-- `netipx.mergeIPRanges`: sort by `From`, then merge the sweep. -/
def normalizeRanges (l : List IPRange) : IPSet :=
  mergeRanges (l.insertionSort rangeLE)

/-- `netipx.IPSetBuilder`: pending ranges plus the accumulated-error flag
(`errs`); invalid inputs are ignored but recorded. -/
structure IPSetBuilder where
  ins : List IPRange
  errs : Bool
deriving DecidableEq, Repr

def IPSetBuilder.empty : IPSetBuilder := ⟨[], false⟩

/-- `IPSetBuilder.AddRange`: ignore (but record) an invalid range. -/
def IPSetBuilder.addRange (b : IPSetBuilder) (r : IPRange) : IPSetBuilder :=
  if r.isValid then { b with ins := b.ins ++ [r] } else { b with errs := true }

/-- `IPSetBuilder.Add`. -/
def IPSetBuilder.add (b : IPSetBuilder) (a : Addr) : IPSetBuilder :=
  b.addRange (IPRangeFrom a a)

/-- `IPSetBuilder.IPSet`: the normalized set, or the accumulated error. -/
def IPSetBuilder.toIPSet (b : IPSetBuilder) : Except GoErr IPSet :=
  if b.errs then .error (.msg (str "set builder saw invalid input"))
  else .ok (normalizeRanges b.ins)

/-! ## Prefixes (`netip.Prefix`; named `Pfx` here for lexical reasons) -/

structure Pfx where
  addr : Addr
  bits : Nat
deriving DecidableEq, Repr

/-- `netipx.RangeOfPrefix`: the masked range covered by a prefix. -/
def pfxRange (p : Pfx) : IPRange :=
  let k := p.addr.width - p.bits
  let lo := p.addr.val / 2 ^ k * 2 ^ k
  ⟨⟨p.addr.is4, lo⟩, ⟨p.addr.is4, lo + (2 ^ k - 1)⟩⟩

/-- `IPSetBuilder.AddPrefix`. -/
def IPSetBuilder.addPfx (b : IPSetBuilder) (p : Pfx) : IPSetBuilder :=
  b.addRange (pfxRange p)

/-- `netip.Prefix.String()`. -/
def Pfx.render (p : Pfx) : Str := p.addr.render ++ '/' :: natToChars p.bits

/-- `netipx.IPRange.String()` (`from-to`). -/
def IPRange.render (r : IPRange) : Str := r.lo.render ++ '-' :: r.hi.render

/-- The exponent of the largest aligned block starting at `lo` that fits
below `hi`, trying the widest first (`0` always fits). -/
def blockExpGo (lo hi : Nat) : Nat → Nat
  | 0 => 0
  | k + 1 =>
    if lo % 2 ^ (k + 1) = 0 ∧ lo + (2 ^ (k + 1) - 1) ≤ hi then k + 1
    else blockExpGo lo hi k

/-- The fuel-structured body of the range-to-prefix decomposition (the
fuel strictly bounds the remaining number of addresses). -/
def rangePfxsGo (fam : Bool) (w : Nat) : Nat → Nat → Nat → List Pfx
  | 0, _, _ => []
  | fuel + 1, lo, hi =>
    if hi < lo then []
    else
      ⟨⟨fam, lo⟩, w - blockExpGo lo hi w⟩ ::
        rangePfxsGo fam w fuel (lo + 2 ^ blockExpGo lo hi w) hi

/-- `netipx` range-to-prefix decomposition (`IPRange.Prefixes`): the unique
minimal list of aligned blocks covering `[lo, hi]`, in ascending order. -/
def rangePfxs (fam : Bool) (w lo hi : Nat) : List Pfx :=
  rangePfxsGo fam w (hi + 1 - lo) lo hi

theorem rangePfxsGo_congr (fam : Bool) (w : Nat) : ∀ (m : Nat), ∀ f1 f2 lo hi,
    hi + 1 - lo ≤ f1 → hi + 1 - lo ≤ f2 → hi + 1 - lo ≤ m →
      rangePfxsGo fam w f1 lo hi = rangePfxsGo fam w f2 lo hi := by
  intro m
  induction m with
  | zero =>
    intro f1 f2 lo hi h1 h2 hm
    have hlt : hi < lo := by omega
    match f1, f2 with
    | 0, 0 => rfl
    | 0, g + 1 => simp [rangePfxsGo, hlt]
    | g + 1, 0 => simp [rangePfxsGo, hlt]
    | g1 + 1, g2 + 1 => simp [rangePfxsGo, hlt]
  | succ m ih =>
    intro f1 f2 lo hi h1 h2 hm
    by_cases hlt : hi < lo
    · match f1, f2 with
      | 0, 0 => rfl
      | 0, g + 1 => simp [rangePfxsGo, hlt]
      | g + 1, 0 => simp [rangePfxsGo, hlt]
      | g1 + 1, g2 + 1 => simp [rangePfxsGo, hlt]
    · obtain ⟨g1, rfl⟩ : ∃ g, f1 = g + 1 := ⟨f1 - 1, by omega⟩
      obtain ⟨g2, rfl⟩ : ∃ g, f2 = g + 1 := ⟨f2 - 1, by omega⟩
      simp only [rangePfxsGo, if_neg hlt]
      congr 1
      have hpow : 1 ≤ 2 ^ blockExpGo lo hi w := Nat.one_le_two_pow
      exact ih g1 g2 (lo + 2 ^ blockExpGo lo hi w) hi (by omega) (by omega)
        (by omega)

/-- The recursion equation of `rangePfxs`. -/
theorem rangePfxs_eq (fam : Bool) (w lo hi : Nat) :
    rangePfxs fam w lo hi =
      if hi < lo then []
      else
        ⟨⟨fam, lo⟩, w - blockExpGo lo hi w⟩ ::
          rangePfxs fam w (lo + 2 ^ blockExpGo lo hi w) hi := by
  by_cases hlt : hi < lo
  · rw [if_pos hlt]
    show rangePfxsGo fam w (hi + 1 - lo) lo hi = []
    have h0 : hi + 1 - lo = 0 := by omega
    rw [h0]
    rfl
  · rw [if_neg hlt]
    show rangePfxsGo fam w (hi + 1 - lo) lo hi = _
    obtain ⟨g, hg⟩ : ∃ g, hi + 1 - lo = g + 1 := ⟨hi - lo, by omega⟩
    rw [hg]
    simp only [rangePfxsGo, if_neg hlt]
    congr 1
    have hpow : 1 ≤ 2 ^ blockExpGo lo hi w := Nat.one_le_two_pow
    rw [rangePfxsGo_congr fam w (g + 1) g
      (hi + 1 - (lo + 2 ^ blockExpGo lo hi w))
      (lo + 2 ^ blockExpGo lo hi w) hi (by omega) (by omega) (by omega)]
    rfl

/-- `IPSet.Prefixes`. -/
def IPSet.pfxs (s : IPSet) : List Pfx :=
  s.flatMap (fun r => rangePfxs r.lo.is4 r.lo.width r.lo.val r.hi.val)

/-! ## Errors and configuration -/

instance {ε α : Type} [DecidableEq ε] [DecidableEq α] :
    DecidableEq (Except ε α)
  | .ok a, .ok b =>
    if h : a = b then .isTrue (by rw [h])
    else .isFalse fun hc => h (Except.ok.inj hc)
  | .ok _, .error _ => .isFalse fun hc => Except.noConfusion hc
  | .error _, .ok _ => .isFalse fun hc => Except.noConfusion hc
  | .error e1, .error e2 =>
    if h : e1 = e2 then .isTrue (by rw [h])
    else .isFalse fun hc => h (Except.error.inj hc)

/-- `config.KubevipLBConfig`. -/
structure KubevipLBConfig where
  ReturnIPInDescOrder : Bool
  SkipEndIPsInCIDR : Bool
deriving DecidableEq, Repr

/-- The descending-order flag test of `FindFreeAddress`
(`kubevipLBConfig != nil && kubevipLBConfig.ReturnIPInDescOrder`). -/
def descFlag : Option KubevipLBConfig → Bool
  | some c => c.ReturnIPInDescOrder
  | none => false

/-- The edge-skip flag test of `buildHostsFromCidr`
(`kubevipLBConfig != nil && kubevipLBConfig.SkipEndIPsInCIDR`). -/
def skipFlag : Option KubevipLBConfig → Bool
  | some c => c.SkipEndIPsInCIDR
  | none => false


/-! ## `pkg/ipam/addressbuilder.go` -/

/-- The bit count after the slash (`net/netip` rejects signs and leading
zeros). -/
def parseBits (s : Str) : Option Nat :=
  if s = [] then none
  else if s.head? = some '0' ∧ s.length > 1 then none
  else decValue s

/-- `netip.ParsePrefix`: split at the slash, parse the address (no zone)
and the bit count, which must not exceed the family width. -/
def parsePfx (s : Str) : Option Pfx :=
  match splitOnChar '/' s with
  | [a, b] =>
    match parseAddr a, parseBits b with
    | some ad, some bits => if bits ≤ ad.width then some ⟨ad, bits⟩ else none
    | _, _ => none
  | _ => none

/-- `parseCidrs`: split the comma-separated declaration, parse every
prefix (any parse failure is returned), and build the set. -/
def parseCidrs (cidr : Str) : Except GoErr IPSet :=
  let cidrs := splitOnChar ',' cidr
  if cidrs.length = 0 then .error (.msg (str "unable to parse IP cidrs"))
  else
    match mapOption parsePfx cidrs with
    | none => .error (.msg (str "ParsePrefix error"))
    | some ps => (ps.foldl IPSetBuilder.addPfx IPSetBuilder.empty).toIPSet

/-- The loop body of `buildHostsFromCidr`, for one prefix of the
normalized unfiltered set. -/
def buildHostsStep (cfg : Option KubevipLBConfig) (bld : IPSetBuilder)
    (p : Pfx) : IPSetBuilder :=
  if !p.addr.is4 then bld.addPfx p
  else if p.bits = p.addr.width ∧ skipFlag cfg then bld.add p.addr
  else
    let r := pfxRange p
    if r.isValid then
      if p.bits = 31 then bld.addRange (IPRangeFrom r.lo r.hi)
      else
        if skipFlag cfg then
          bld.addRange (IPRangeFrom ⟨r.lo.is4, r.lo.val + 1⟩ ⟨r.hi.is4, r.hi.val - 1⟩)
        else bld.addRange (IPRangeFrom r.lo r.hi)
    else bld

/-- `buildHostsFromCidr`: parse the declaration, then for each prefix of
the canonicalized set keep IPv6 whole, keep `/31` and single IPs, and—
when `skip-end-ips-in-cidr` is set—drop the ends of wider IPv4 prefixes. -/
def buildHostsFromCidr (cidr : Str) (cfg : Option KubevipLBConfig) :
    Except GoErr IPSet :=
  match parseCidrs cidr with
  | .error e => .error e
  | .ok unfilteredSet =>
    (unfilteredSet.pfxs.foldl (buildHostsStep cfg) IPSetBuilder.empty).toIPSet

/-- The ranges one prefix of the canonical set contributes in
`buildHostsFromCidr` (the builder drops nothing else): IPv6 whole, a
single IP under the skip flag, `/31` whole, otherwise the full masked
range with the ends trimmed when the skip flag is set — and nothing when
the masked range is invalid. -/
def hostsKept (cfg : Option KubevipLBConfig) (p : Pfx) : List IPRange :=
  if !p.addr.is4 then [pfxRange p]
  else if p.bits = p.addr.width ∧ skipFlag cfg then [IPRangeFrom p.addr p.addr]
  else if (pfxRange p).isValid then
    if p.bits = 31 then [IPRangeFrom (pfxRange p).lo (pfxRange p).hi]
    else if skipFlag cfg then
      [IPRangeFrom ⟨(pfxRange p).lo.is4, (pfxRange p).lo.val + 1⟩
        ⟨(pfxRange p).hi.is4, (pfxRange p).hi.val - 1⟩]
    else [IPRangeFrom (pfxRange p).lo (pfxRange p).hi]
  else []

/-- The per-entry loop of `buildAddressesFromRange`: split each entry at
the dash, parse both endpoints, and hand the (possibly invalid) range to
the builder. -/
def buildRangesGo (b : IPSetBuilder) : List Str → Except GoErr IPSetBuilder
  | [] => .ok b
  | rng :: rest =>
    match splitOnChar '-' rng with
    | [s1, s2] =>
      match parseAddr s1, parseAddr s2 with
      | some a1, some a2 => buildRangesGo (b.addRange (IPRangeFrom a1 a2)) rest
      | _, _ => .error (.msg (str "ParseAddr error"))
    | _ => .error (.msg (str "unable to parse IP range"))

/-- `buildAddressesFromRange`. -/
def buildAddressesFromRange (ipRangeString : Str) : Except GoErr IPSet :=
  let ranges := splitOnChar ',' ipRangeString
  if ranges.length = 0 then .error (.msg (str "unable to parse IP ranges"))
  else
    match buildRangesGo IPSetBuilder.empty ranges with
    | .error e => .error e
    | .ok b => b.toIPSet

/-- `SplitCIDRsByIPFamily`: re-render the canonical prefixes of the pool,
comma-joined per family. -/
def SplitCIDRsByIPFamily (cidrs : Str) : Except GoErr (Str × Str) :=
  match parseCidrs cidrs with
  | .error e => .error e
  | .ok ipPools =>
    .ok (interpose ',' ((ipPools.pfxs.filter (·.addr.is4)).map Pfx.render),
      interpose ',' ((ipPools.pfxs.filter (!·.addr.is4)).map Pfx.render))

/-- `SplitRangesByIPFamily`: re-render the canonical ranges of the pool,
comma-joined per family. -/
def SplitRangesByIPFamily (ipRangeString : Str) : Except GoErr (Str × Str) :=
  match buildAddressesFromRange ipRangeString with
  | .error e => .error e
  | .ok ipPools =>
    .ok (interpose ',' ((ipPools.filter (·.lo.is4)).map IPRange.render),
      interpose ',' ((ipPools.filter (!·.lo.is4)).map IPRange.render))

/-! ## `pkg/ipam/ipam.go` -/

/-- `isNetworkIDOrBroadcastIP` (on the last byte of the IPv4 form). -/
def isNetworkIDOrBroadcastIP (a : Addr) : Bool :=
  a.lastOctet == 0 || a.lastOctet == 255

/-- The availability test of `FindFreeAddress`: not in use, and for IPv4
not a `.0`/`.255` address. -/
def freePred (inUseIPSet : IPSet) (a : Addr) : Bool :=
  !inUseIPSet.containsA a && (!a.is4 || !isNetworkIDOrBroadcastIP a)

/-- The ascending inner loop of `FindFreeAddress` over one range: test the
current address and stop at the range end (`fuel` counts the remaining
steps to the end). -/
def scanAsc (fam : Bool) (pred : Addr → Bool) : Nat → Nat → Option Addr
  | v, 0 => if pred ⟨fam, v⟩ then some ⟨fam, v⟩ else none
  | v, fuel + 1 =>
    if pred ⟨fam, v⟩ then some ⟨fam, v⟩ else scanAsc fam pred (v + 1) fuel

/-- The descending inner loop of `FindFreeAddress`. -/
def scanDesc (fam : Bool) (pred : Addr → Bool) : Nat → Nat → Option Addr
  | v, 0 => if pred ⟨fam, v⟩ then some ⟨fam, v⟩ else none
  | v, fuel + 1 =>
    if pred ⟨fam, v⟩ then some ⟨fam, v⟩ else scanDesc fam pred (v - 1) fuel

/-- `FindFreeAddress`: walk the pool ranges in order (reversed, each from
its top, when descending) and return the first address that is free and
not an IPv4 `.0`/`.255`; `none` models the `no address available` error. -/
def FindFreeAddress (poolIPSet inUseIPSet : IPSet)
    (kubevipLBConfig : Option KubevipLBConfig) : Option Addr :=
  if descFlag kubevipLBConfig then
    poolIPSet.reverse.findSome? fun r =>
      scanDesc r.hi.is4 (freePred inUseIPSet) r.hi.val (r.hi.val - r.lo.val)
  else
    poolIPSet.findSome? fun r =>
      scanAsc r.lo.is4 (freePred inUseIPSet) r.lo.val (r.hi.val - r.lo.val)

/-- `ipam.ipManager` (the source field `namespace` is a Lean keyword, so
it is `ns` here). -/
structure IpManager where
  ns : Str
  cidr : Str
  ipRange : Str
  poolIPSet : IPSet
deriving DecidableEq, Repr

/-- Wrap a `FindFreeAddress` result the way both lookup functions do:
render the address, or return `OutOfIPsError`. -/
def findFreeResult (ns pool : Str) (isCidr : Bool) (poolIPSet inUse : IPSet)
    (cfg : Option KubevipLBConfig) : Except GoErr Str :=
  match FindFreeAddress poolIPSet inUse cfg with
  | some addr => .ok addr.render
  | none => .error (.outOfIPs ns pool isCidr)

/-- The `Manager` loop of `FindAvailableHostFromRange`: find the first
entry for the namespace, rebuilding its pool if the range declaration
changed; `none` when no entry matches. -/
def famrGo (ns ipRange : Str) (inUse : IPSet) (cfg : Option KubevipLBConfig) :
    List IpManager → Option (Except GoErr Str × List IpManager)
  | [] => none
  | e :: rest =>
    if e.ns = ns then
      if e.ipRange ≠ ipRange then
        match buildAddressesFromRange ipRange with
        | .error err => some (.error err, e :: rest)
        | .ok pool =>
          some (findFreeResult ns ipRange false pool inUse cfg,
            { e with poolIPSet := pool, ipRange := ipRange } :: rest)
      else
        some (findFreeResult ns ipRange false e.poolIPSet inUse cfg, e :: rest)
    else
      (famrGo ns ipRange inUse cfg rest).map (fun p => (p.1, e :: p.2))

/-- `FindAvailableHostFromRange`, with the process-wide `Manager` slice
passed explicitly. -/
def FindAvailableHostFromRange (ns ipRange : Str) (inUseIPSet : IPSet)
    (kubevipLBConfig : Option KubevipLBConfig) (mgr : List IpManager) :
    Except GoErr Str × List IpManager :=
  match famrGo ns ipRange inUseIPSet kubevipLBConfig mgr with
  | some res => res
  | none =>
    match buildAddressesFromRange ipRange with
    | .error e => (.error e, mgr)
    | .ok pool =>
      (findFreeResult ns ipRange false pool inUseIPSet kubevipLBConfig,
        mgr ++ [⟨ns, [], ipRange, pool⟩])

/-- The `Manager` loop of `FindAvailableHostFromCidr`. -/
def famcGo (ns cidr : Str) (inUse : IPSet) (cfg : Option KubevipLBConfig) :
    List IpManager → Option (Except GoErr Str × List IpManager)
  | [] => none
  | e :: rest =>
    if e.ns = ns then
      if e.cidr ≠ cidr then
        match buildHostsFromCidr cidr cfg with
        | .error err => some (.error err, e :: rest)
        | .ok pool =>
          some (findFreeResult ns cidr true pool inUse cfg,
            { e with poolIPSet := pool, cidr := cidr } :: rest)
      else
        some (findFreeResult ns cidr true e.poolIPSet inUse cfg, e :: rest)
    else
      (famcGo ns cidr inUse cfg rest).map (fun p => (p.1, e :: p.2))

/-- `FindAvailableHostFromCidr`, with the process-wide `Manager` slice
passed explicitly. -/
def FindAvailableHostFromCidr (ns cidr : Str) (inUseIPSet : IPSet)
    (kubevipLBConfig : Option KubevipLBConfig) (mgr : List IpManager) :
    Except GoErr Str × List IpManager :=
  match famcGo ns cidr inUseIPSet kubevipLBConfig mgr with
  | some res => res
  | none =>
    match buildHostsFromCidr cidr kubevipLBConfig with
    | .error e => (.error e, mgr)
    | .ok pool =>
      (findFreeResult ns cidr true pool inUseIPSet kubevipLBConfig,
        mgr ++ [⟨ns, cidr, [], pool⟩])


/-! ## Configuration document (`pkg/config/config.go`, provider `getConfig`) -/

/-- A `ConfigMap.Data` mapping, as an association list with unique keys. -/
abbrev ConfigData := List (Str × Str)

/-- Go map lookup over an association list. -/
def lookupA {α : Type} (m : List (Str × α)) (k : Str) : Option α :=
  (m.find? fun p => decide (p.1 = k)).map (·.2)

/-- Go map assignment: overwrite the binding in place, or append. -/
def setA {α : Type} (m : List (Str × α)) (k : Str) (v : α) : List (Str × α) :=
  if (m.find? fun p => decide (p.1 = k)).isSome then
    m.map fun p => if p.1 = k then (k, v) else p
  else m ++ [(k, v)]

/-- Go map `delete`. -/
def eraseA {α : Type} (m : List (Str × α)) (k : Str) : List (Str × α) :=
  m.filter fun p => decide (p.1 ≠ k)

/-- `config.GetKubevipLBConfig`. -/
def GetKubevipLBConfig (cm : ConfigData) : KubevipLBConfig :=
  { ReturnIPInDescOrder := lookupA cm (str "search-order") = some (str "desc")
    SkipEndIPsInCIDR := lookupA cm (str "skip-end-ips-in-cidr") = some (str "true") }

/-- `discoverInterface`. -/
def discoverInterface (cm : ConfigData) (svcNS : Str) : Str :=
  match lookupA cm (str "interface-" ++ svcNS) with
  | some i => i
  | none =>
    match lookupA cm (str "interface-global") with
    | some i => i
    | none => []

/-- `strconv.ParseBool`. -/
def parseBoolGo (s : Str) : Option Bool :=
  if s = str "1" ∨ s = str "t" ∨ s = str "T" ∨ s = str "TRUE" ∨
      s = str "true" ∨ s = str "True" then some true
  else if s = str "0" ∨ s = str "f" ∨ s = str "F" ∨ s = str "FALSE" ∨
      s = str "false" ∨ s = str "False" then some false
  else none

/-- `getConfigWithNamespace`: the value under `name-namespace`, and the key. -/
def getConfigWithNamespace (cm : ConfigData) (ns name : Str) :
    Option Str × Str :=
  (lookupA cm (name ++ '-' :: ns), name ++ '-' :: ns)

/-- `getConfig`: namespace-scoped key first, then the `-global` fallback
(`global = true` exactly when the fallback produced the value). -/
def getConfig (cm : ConfigData) (ns configMapName name configType : Str) :
    Except GoErr (Str × Bool) :=
  match (getConfigWithNamespace cm ns name).1 with
  | some value => .ok (value, false)
  | none =>
    match (getConfigWithNamespace cm (str "global") name).1 with
    | some value => .ok (value, true)
    | none => .error (.msg ((str "no config for ") ++ name))

/-- `discoverPool`: resolve `allow-share`, then `cidr`, then `range`;
the sentinel error when no pool key exists. -/
def discoverPool (cm : ConfigData) (ns configMapName : Str) :
    Except GoErr (Str × Bool × Bool) :=
  let allowShare :=
    match getConfig cm ns configMapName (str "allow-share") (str "config") with
    | .ok (v, _) => (parseBoolGo v).getD false
    | .error _ => false
  match getConfig cm ns configMapName (str "cidr") (str "address") with
  | .ok (cidr, global) => .ok (cidr, global, allowShare)
  | .error _ =>
    match getConfig cm ns configMapName (str "range") (str "address") with
    | .ok (ipRange, global) => .ok (ipRange, global, allowShare)
    | .error _ => .error (.msg (str "no address pools could be found"))

/-! ## Services and the store -/

inductive IPFamily
| v4
| v6
deriving DecidableEq, Repr

inductive IPFamilyPolicy
| SingleStack
| PreferDualStack
| RequireDualStack
deriving DecidableEq, Repr

/-- The observable fields of a `v1.Service` used by the reconciler. -/
structure Service where
  ns : Str
  name : Str
  labels : List (Str × Str)
  anns : List (Str × Str)
  specLoadBalancerIP : Str
  ports : List Int
  ipFamilyPolicy : Option IPFamilyPolicy
  ipFamilies : List IPFamily
  statusLB : List Str
deriving DecidableEq, Repr

/-- Annotation and label keys written by the provider. -/
def lbIPsKey : Str := str "kube-vip.io/loadbalancerIPs"

def implKey : Str := str "implementation"

def implValue : Str := str "kube-vip"

def legacyIpamKey : Str := str "ipam-address"

def svcInterfaceKey : Str := str "kube-vip.io/serviceInterface"

/-- `parseAddrList`. -/
def parseAddrList (inputString : Str) : Except GoErr (List Addr) :=
  match mapOption parseAddr (splitOnChar ',' inputString) with
  | some l => .ok l
  | none => .error (.msg (str "ParseAddr error"))

/-- `k8s.io/utils/set` insertion (sets are modelled as duplicate-free
lists; only membership and emptiness of intersections are observed). -/
def setInsert (l : List Int) (p : Int) : List Int :=
  if l.contains p then l else l ++ [p]

/-- `servicePorts.Intersection(portSet).Len() == 0`. -/
def intersectEmpty (a b : List Int) : Bool := a.all fun p => !b.contains p

/-- The per-service step of `mapImplementedServices`: parse the service's
`loadbalancerIPs` annotation, record each address as in use, and (when
sharing) extend the per-IP port sets — a service without ports binds the
sentinel `{0}`. -/
def mapSvcStep (allowShare : Bool)
    (acc : IPSetBuilder × List (Str × List Int)) (svc : Service) :
    Except GoErr (IPSetBuilder × List (Str × List Int)) :=
  match lookupA svc.anns lbIPsKey with
  | none => .ok acc
  | some ips =>
    match parseAddrList ips with
    | .error e => .error e
    | .ok addrs =>
      .ok (addrs.foldl
        (fun acc2 addr =>
          let ip := addr.render
          let m :=
            if allowShare && addr.is4 then
              if svc.ports ≠ [] then
                svc.ports.foldl
                  (fun m port =>
                    match lookupA m ip with
                    | some portSet => setA m ip (setInsert portSet port)
                    | none => setA m ip (setInsert [] port)) acc2.2
              else setA acc2.2 ip [0]
            else acc2.2
          (acc2.1.add addr, m)) acc)

def mapSvcsGo (allowShare : Bool) :
    List Service → IPSetBuilder × List (Str × List Int) →
      Except GoErr (IPSetBuilder × List (Str × List Int))
  | [], acc => .ok acc
  | svc :: rest, acc =>
    match mapSvcStep allowShare acc svc with
    | .error e => .error e
    | .ok next => mapSvcsGo allowShare rest next

/-- `mapImplementedServices`. -/
def mapImplementedServices (svcs : List Service) (allowShare : Bool) :
    Except GoErr (IPSet × List (Str × List Int)) :=
  match mapSvcsGo allowShare svcs (IPSetBuilder.empty, []) with
  | .error e => .error e
  | .ok (b, m) =>
    match b.toIPSet with
    | .error e => .error e
    | .ok inUseSet => .ok (inUseSet, m)

/-! ## Shared-VIP selection and VIP discovery (`loadBalancer.go`) -/

/-- The map walk of `discoverSharedVIPs` (the Go `range` over the map is
modelled as the association list's order — Go randomizes it). -/
def dsvGo (servicePorts : List Int) : List (Str × List Int) → Str
  | [] => []
  | (ip, portSet) :: rest =>
    if portSet.contains 0 then dsvGo servicePorts rest
    else if intersectEmpty servicePorts portSet then ip
    else dsvGo servicePorts rest

/-- `discoverSharedVIPs`. -/
def discoverSharedVIPs (service : Service)
    (servicePortMap : List (Str × List Int)) : Str :=
  dsvGo (service.ports.foldl setInsert []) servicePortMap

/-- An entry of the port map that `discoverSharedVIPs` would accept: no
sentinel port `0`, and no overlap with the requested ports. -/
def qualB (sp : List Int) (p : Str × List Int) : Bool :=
  !p.2.contains 0 && intersectEmpty sp p.2

/-- `discoverAddress` (the DHCP sentinel, then cidr versus range). -/
def discoverAddress (ns pool : Str) (inUseIPSet : IPSet)
    (cfg : Option KubevipLBConfig) (mgr : List IpManager) :
    Except GoErr Str × List IpManager :=
  if pool = str "0.0.0.0/32" then (.ok (str "0.0.0.0"), mgr)
  else if containsChar pool '/' then
    FindAvailableHostFromCidr ns pool inUseIPSet cfg mgr
  else
    FindAvailableHostFromRange ns pool inUseIPSet cfg mgr

/-- `discoverVIPsSingleStack`. -/
def discoverVIPsSingleStack (ns ipv4Pool ipv6Pool preferredIpv4ServiceIP : Str)
    (inUseIPSet : IPSet) (cfg : Option KubevipLBConfig)
    (ipFamilies : List IPFamily) (mgr : List IpManager) :
    Except GoErr Str × List IpManager :=
  let ipPool :=
    if ipFamilies = [] then (if ipv4Pool = [] then ipv6Pool else ipv4Pool)
    else if ipFamilies.head? = some .v6 then ipv6Pool
    else ipv4Pool
  if ipPool = [] then
    (.error (.msg (str "could not find suitable pool for the IP family of the service")), mgr)
  else if ipPool = ipv4Pool ∧ preferredIpv4ServiceIP.length > 0 then
    (.ok preferredIpv4ServiceIP, mgr)
  else
    discoverAddress ns ipPool inUseIPSet cfg mgr

/-- `discoverFromPool`: on success append the VIP; an `OutOfIPsError`
becomes the non-fatal `poolError`, anything else is fatal. -/
def discoverFromPool (ns pool preferredIpv4ServiceIP ipv4Pool : Str)
    (inUseIPSet : IPSet) (cfg : Option KubevipLBConfig) (vipList : List Str)
    (mgr : List IpManager) :
    Except GoErr (Option GoErr × List Str) × List IpManager :=
  if pool.length = 0 then (.ok (none, vipList), mgr)
  else if pool = ipv4Pool ∧ preferredIpv4ServiceIP.length > 0 then
    (.ok (none, vipList ++ [preferredIpv4ServiceIP]), mgr)
  else
    match discoverAddress ns pool inUseIPSet cfg mgr with
    | (.ok vip, mgr') => (.ok (none, vipList ++ [vip]), mgr')
    | (.error (.outOfIPs a b c), mgr') =>
      (.ok (some (.outOfIPs a b c), vipList), mgr')
    | (.error e, mgr') => (.error e, mgr')

/-- `discoverVIPsDualStack`. -/
def discoverVIPsDualStack (ns ipv4Pool ipv6Pool preferredIpv4ServiceIP : Str)
    (inUseIPSet : IPSet) (cfg : Option KubevipLBConfig)
    (ipFamilyPolicy : IPFamilyPolicy) (ipFamilies : List IPFamily)
    (mgr : List IpManager) : Except GoErr Str × List IpManager :=
  if ipFamilyPolicy = .RequireDualStack ∧
      (ipv4Pool.length = 0 ∨ ipv6Pool.length = 0) then
    (.error (.msg (str "service requires dual-stack, but the configuration does not have both IPv4 and IPv6 pools listed for the namespace")), mgr)
  else
    let primaryPool :=
      if ipFamilies.head? = some .v6 then ipv6Pool else ipv4Pool
    let secondaryPool :=
      if ipFamilies.head? = some .v6 then ipv4Pool else ipv6Pool
    match (if primaryPool.length > 0 then
        discoverFromPool ns primaryPool preferredIpv4ServiceIP ipv4Pool
          inUseIPSet cfg [] mgr
      else (.ok (none, []), mgr)) with
    | (.error e, mgr1) => (.error e, mgr1)
    | (.ok (primaryPoolErr, vips1), mgr1) =>
      match (if secondaryPool.length > 0 then
          discoverFromPool ns secondaryPool preferredIpv4ServiceIP ipv4Pool
            inUseIPSet cfg vips1 mgr1
        else (.ok (none, vips1), mgr1)) with
      | (.error e, mgr2) => (.error e, mgr2)
      | (.ok (secondaryPoolErr, vips2), mgr2) =>
        if ipFamilyPolicy = .PreferDualStack then
          if primaryPoolErr.isSome ∧ secondaryPoolErr.isSome then
            (.error (.msg (str "could not allocate any IP address for PreferDualStack service")), mgr2)
          else (.ok (interpose ',' vips2), mgr2)
        else if ipFamilyPolicy = .RequireDualStack then
          if primaryPoolErr.isSome ∨ secondaryPoolErr.isSome then
            (.error (.msg (str "could not allocate required IP addresses for RequireDualStack service")), mgr2)
          else (.ok (interpose ',' vips2), mgr2)
        else (.ok (interpose ',' vips2), mgr2)

/-- `discoverVIPs`. -/
def discoverVIPs (ns pool preferredIpv4ServiceIP : Str) (inUseIPSet : IPSet)
    (cfg : Option KubevipLBConfig) (ipFamilyPolicy : Option IPFamilyPolicy)
    (ipFamilies : List IPFamily) (mgr : List IpManager) :
    Except GoErr Str × List IpManager :=
  if pool = str "0.0.0.0/32" then (.ok (str "0.0.0.0"), mgr)
  else if pool.length = 0 then
    (.error (.msg (str "could not discover address: pool is not specified")), mgr)
  else
    match (if containsChar pool '/' then SplitCIDRsByIPFamily pool
      else SplitRangesByIPFamily pool) with
    | .error e => (.error e, mgr)
    | .ok (ipv4Pool, ipv6Pool) =>
      match ipFamilyPolicy with
      | none =>
        discoverVIPsSingleStack ns ipv4Pool ipv6Pool preferredIpv4ServiceIP
          inUseIPSet cfg ipFamilies mgr
      | some .SingleStack =>
        discoverVIPsSingleStack ns ipv4Pool ipv6Pool preferredIpv4ServiceIP
          inUseIPSet cfg ipFamilies mgr
      | some p =>
        discoverVIPsDualStack ns ipv4Pool ipv6Pool preferredIpv4ServiceIP
          inUseIPSet cfg p ipFamilies mgr

/-! ## The reconciler (`syncLoadBalancer`) -/

/-- The store: services, configuration documents (keyed by name and
namespace) and the process-wide allocator registry. -/
structure World where
  store : List Service
  cms : List (Str × Str × ConfigData)
  mgr : List IpManager
deriving DecidableEq, Repr

def getService (w : World) (ns name : Str) : Option Service :=
  w.store.find? fun s => decide (s.ns = ns ∧ s.name = name)

def updateService (w : World) (s' : Service) : World :=
  { w with store := w.store.map fun t =>
      if t.ns = s'.ns ∧ t.name = s'.name then s' else t }

def getCM (w : World) (name nsp : Str) : Option ConfigData :=
  (w.cms.find? fun c => decide (c.1 = name ∧ c.2.1 = nsp)).map (·.2.2)

/-- `checkLegacyLoadBalancerIPAnnotation`: a service with a legacy
`spec.loadBalancerIP` gets the annotation copied over (and the legacy
label removed) once, and always short-circuits the sync with its current
status. -/
def checkLegacyLoadBalancerIPAnn (w : World) (service : Service) :
    Option (List Str) × Option GoErr × World :=
  if service.specLoadBalancerIP = [] then (none, none, w)
  else
    let needsWrite :=
      match lookupA service.anns lbIPsKey with
      | none => true
      | some v => v.length = 0
    if needsWrite then
      match getService w service.ns service.name with
      | none => (none, some (.msg (str "error updating Service Spec")), w)
      | some recent =>
        (some service.statusLB, none,
          updateService w
            { recent with
              anns := setA recent.anns lbIPsKey service.specLoadBalancerIP
              labels := eraseA recent.labels legacyIpamKey })
    else (some service.statusLB, none, w)

/-- Steps 3–11 of `syncLoadBalancer`: read (or create) the configuration
document, resolve the pool, list the implemented services in scope, build
the in-use set and port map, pick a shared VIP when allowed, allocate,
and write the labels, annotations and legacy field back. -/
def syncAllocate (w : World) (service : Service) (cmName cmNamespace : Str) :
    Except GoErr (List Str) × World :=
  let cmw :=
    match getCM w cmName cmNamespace with
    | some cm => (cm, w)
    | none => ([], { w with cms := w.cms ++ [(cmName, cmNamespace, [])] })
  let controllerCM := cmw.1
  let w1 := cmw.2
  match discoverPool controllerCM service.ns cmName with
  | .error e => (.error e, w1)
  | .ok (pool, global, allowShare) =>
    let svcs := w1.store.filter fun s =>
      (global || decide (s.ns = service.ns)) &&
        decide (lookupA s.labels implKey = some implValue)
    match mapImplementedServices svcs allowShare with
    | .error e => (.error e, w1)
    | .ok (inUseSet, servicePortMap) =>
      let kubevipLBConfig := some (GetKubevipLBConfig controllerCM)
      let preferredIpv4ServiceIP :=
        if allowShare then discoverSharedVIPs service servicePortMap else []
      match discoverVIPs service.ns pool preferredIpv4ServiceIP inUseSet
          kubevipLBConfig service.ipFamilyPolicy service.ipFamilies w1.mgr with
      | (.error e, mgr') => (.error e, { w1 with mgr := mgr' })
      | (.ok loadBalancerIPs, mgr') =>
        let w2 := { w1 with mgr := mgr' }
        let loadbalancerInterface :=
          if loadBalancerIPs.length > 0 then
            discoverInterface controllerCM service.ns
          else []
        match getService w2 service.ns service.name with
        | none => (.error (.msg (str "error updating Service Spec")), w2)
        | some recent =>
          let recent1 :=
            { recent with
              labels := setA recent.labels implKey implValue
              anns := setA recent.anns lbIPsKey loadBalancerIPs
              specLoadBalancerIP := (splitOnChar ',' loadBalancerIPs).headD [] }
          let recent2 :=
            if loadbalancerInterface.length > 0 then
              { recent1 with
                anns := setA recent1.anns svcInterfaceKey loadbalancerInterface }
            else recent1
          (.ok service.statusLB, updateService w2 recent2)

/-- `syncLoadBalancer`: the legacy shortcut, the pre-assigned shortcut
(setting the implementation label when missing), then allocation. -/
def syncLoadBalancer (w : World) (service : Service)
    (cmName cmNamespace : Str) : Except GoErr (List Str) × World :=
  match checkLegacyLoadBalancerIPAnn w service with
  | (some st, _, w') => (.ok st, w')
  | (none, some e, w') => (.error e, w')
  | (none, none, _) =>
    match lookupA service.anns lbIPsKey with
    | some v =>
      if v.length ≠ 0 then
        if lookupA service.labels implKey ≠ some implValue then
          match getService w service.ns service.name with
          | none => (.error (.msg (str "error updating Service Spec")), w)
          | some recent =>
            (.ok service.statusLB,
              updateService w
                { recent with labels := setA recent.labels implKey implValue })
        else (.ok service.statusLB, w)
      else syncAllocate w service cmName cmNamespace
    | none => syncAllocate w service cmName cmNamespace


/-! ## Characterizing `FindFreeAddress` as a first-fit search -/

/-- The addresses of one valid range, in ascending order. -/
def segAsc (fam : Bool) (v fuel : Nat) : List Addr :=
  (List.range (fuel + 1)).map fun i => ⟨fam, v + i⟩

/-- All addresses of a set, in range order, each range ascending. -/
def IPSet.elemsAsc (s : IPSet) : List Addr :=
  s.flatMap fun r => segAsc r.lo.is4 r.lo.val (r.hi.val - r.lo.val)

/-- The normal form `netipx.IPSet` guarantees: every range valid, and
ranges strictly separated in ascending key order. -/
def IPSet.Normalized (s : IPSet) : Prop :=
  (∀ r ∈ s, r.isValid = true) ∧
    s.Pairwise fun r1 r2 => r1.hi.key < r2.lo.key

instance (s : IPSet) : Decidable s.Normalized := by
  unfold IPSet.Normalized
  infer_instance

theorem isValid_parts {r : IPRange} (h : r.isValid = true) :
    r.lo.is4 = r.hi.is4 ∧ r.lo.wf ∧ r.hi.wf ∧ r.lo.val ≤ r.hi.val := by
  simp only [IPRange.isValid, Bool.and_eq_true, beq_iff_eq,
    decide_eq_true_eq] at h
  exact ⟨h.1.1.1, h.1.1.2, h.1.2, h.2⟩

theorem segAsc_zero (fam : Bool) (v : Nat) : segAsc fam v 0 = [⟨fam, v⟩] := by
  simp [segAsc, List.range_succ]

theorem segAsc_cons (fam : Bool) (v fuel : Nat) :
    segAsc fam v (fuel + 1) = ⟨fam, v⟩ :: segAsc fam (v + 1) fuel := by
  unfold segAsc
  rw [List.range_succ_eq_map]
  simp only [List.map_cons, List.map_map, Nat.add_zero]
  congr 1
  apply List.map_congr_left
  intro i hi
  simp only [Function.comp_apply, Nat.succ_eq_add_one]
  congr 1
  omega

theorem scanAsc_eq_find? (fam : Bool) (pred : Addr → Bool) (v fuel : Nat) :
    scanAsc fam pred v fuel = (segAsc fam v fuel).find? pred := by
  induction fuel generalizing v with
  | zero =>
    rw [segAsc_zero]
    cases hp : pred ⟨fam, v⟩ <;> simp [scanAsc, List.find?_cons, hp]
  | succ fuel ih =>
    rw [segAsc_cons, List.find?_cons]
    cases hp : pred ⟨fam, v⟩
    · simp only [scanAsc, hp, Bool.false_eq_true, if_false]
      rw [ih]
    · simp [scanAsc, hp]

/-- The addresses of one valid range, in descending order. -/
def segDesc (fam : Bool) (v fuel : Nat) : List Addr :=
  (List.range (fuel + 1)).map fun i => ⟨fam, v - i⟩

theorem segDesc_zero (fam : Bool) (v : Nat) : segDesc fam v 0 = [⟨fam, v⟩] := by
  simp [segDesc, List.range_succ]

theorem segDesc_cons (fam : Bool) (v fuel : Nat) :
    segDesc fam v (fuel + 1) = ⟨fam, v⟩ :: segDesc fam (v - 1) fuel := by
  unfold segDesc
  rw [List.range_succ_eq_map]
  simp only [List.map_cons, List.map_map, Nat.sub_zero]
  congr 1
  apply List.map_congr_left
  intro i hi
  simp only [Function.comp_apply, Nat.succ_eq_add_one]
  congr 1
  omega

theorem scanDesc_eq_find? (fam : Bool) (pred : Addr → Bool) (v fuel : Nat) :
    scanDesc fam pred v fuel = (segDesc fam v fuel).find? pred := by
  induction fuel generalizing v with
  | zero =>
    rw [segDesc_zero]
    cases hp : pred ⟨fam, v⟩ <;> simp [scanDesc, List.find?_cons, hp]
  | succ fuel ih =>
    rw [segDesc_cons, List.find?_cons]
    cases hp : pred ⟨fam, v⟩
    · simp only [scanDesc, hp, Bool.false_eq_true, if_false]
      rw [ih]
    · simp [scanDesc, hp]

theorem segAsc_reverse (fam : Bool) (v fuel : Nat) :
    (segAsc fam v fuel).reverse = segDesc fam (v + fuel) fuel := by
  induction fuel with
  | zero => rfl
  | succ fuel ih =>
    have hsnoc : segAsc fam v (fuel + 1) =
        segAsc fam v fuel ++ [⟨fam, v + (fuel + 1)⟩] := by
      unfold segAsc
      rw [List.range_succ]
      simp
    rw [hsnoc, List.reverse_append]
    simp only [List.reverse_cons, List.reverse_nil, List.nil_append,
      List.cons_append, List.nil_append]
    rw [ih, segDesc_cons]
    have harith : v + (fuel + 1) - 1 = v + fuel := by omega
    rw [harith]

theorem findSome?_congr {α β : Type} {f g : α → Option β} (l : List α)
    (h : ∀ x ∈ l, f x = g x) : l.findSome? f = l.findSome? g := by
  induction l with
  | nil => rfl
  | cons x xs ih =>
    rw [List.findSome?_cons, List.findSome?_cons, h x (by simp),
      ih fun y hy => h y (by simp [hy])]

theorem find?_flatMap {α β : Type} (l : List α) (f : α → List β)
    (p : β → Bool) :
    (l.flatMap f).find? p = l.findSome? fun x => (f x).find? p := by
  induction l with
  | nil => rfl
  | cons x xs ih =>
    rw [List.flatMap_cons, List.find?_append, List.findSome?_cons, ih]
    cases (f x).find? p <;> simp [Option.or]

/-- `FindFreeAddress` is the first-fit search over the pool's addresses in
ascending order (descending when the flag is set). -/
theorem findFreeAddress_eq_find? (pool inUse : IPSet)
    (cfg : Option KubevipLBConfig) (hv : ∀ r ∈ pool, r.isValid = true) :
    FindFreeAddress pool inUse cfg =
      (if descFlag cfg then pool.elemsAsc.reverse else pool.elemsAsc).find?
        (freePred inUse) := by
  unfold FindFreeAddress IPSet.elemsAsc
  cases hdesc : descFlag cfg
  · simp only [Bool.false_eq_true, if_false]
    rw [find?_flatMap]
    apply findSome?_congr
    intro r hr
    exact scanAsc_eq_find? _ _ _ _
  · simp only [if_true]
    rw [List.reverse_flatMap, find?_flatMap]
    apply findSome?_congr
    intro r hr
    rw [scanDesc_eq_find?]
    obtain ⟨hfam, hwf1, hwf2, hle⟩ := isValid_parts (hv r (List.mem_reverse.mp hr))
    rw [Function.comp, ← hfam, segAsc_reverse]
    rw [Nat.add_sub_cancel' hle]

theorem mem_segAsc {fam : Bool} {v fuel : Nat} {a : Addr} :
    a ∈ segAsc fam v fuel ↔ a.is4 = fam ∧ v ≤ a.val ∧ a.val ≤ v + fuel := by
  unfold segAsc
  simp only [List.mem_map, List.mem_range]
  constructor
  · rintro ⟨i, hi, rfl⟩
    refine ⟨rfl, ?_, ?_⟩
    · show v ≤ v + i
      omega
    · show v + i ≤ v + fuel
      omega
  · rintro ⟨hfam, h1, h2⟩
    refine ⟨a.val - v, by omega, ?_⟩
    obtain ⟨i4, val⟩ := a
    simp only at hfam h1 h2 ⊢
    subst hfam
    congr 1
    omega

/-- Membership in the enumeration agrees with `IPSet.Contains`. -/
theorem mem_elemsAsc {pool : IPSet} (hv : ∀ r ∈ pool, r.isValid = true)
    {a : Addr} : a ∈ pool.elemsAsc ↔ pool.containsA a = true := by
  unfold IPSet.elemsAsc IPSet.containsA
  rw [List.mem_flatMap, List.any_eq_true]
  constructor
  · rintro ⟨r, hr, hmem⟩
    rw [mem_segAsc] at hmem
    obtain ⟨hfam, _, _, hle⟩ := isValid_parts (hv r hr)
    obtain ⟨ha1, ha2, ha3⟩ := hmem
    refine ⟨r, hr, ?_⟩
    simp only [IPRange.containsA, Bool.and_eq_true, beq_iff_eq,
      decide_eq_true_eq]
    exact ⟨⟨ha1.symm, ha2⟩, by omega⟩
  · rintro ⟨r, hr, hmem⟩
    simp only [IPRange.containsA, Bool.and_eq_true, beq_iff_eq,
      decide_eq_true_eq] at hmem
    obtain ⟨hfam, _, _, hle⟩ := isValid_parts (hv r hr)
    exact ⟨r, hr, mem_segAsc.mpr ⟨hmem.1.1.symm, hmem.1.2, by omega⟩⟩

/-- The enumeration of a normalized set is strictly ascending in the
`netip.Addr` order. -/
theorem elemsAsc_sorted {pool : IPSet} (h : pool.Normalized) :
    List.Sorted (fun a b : Addr => a.key < b.key) pool.elemsAsc := by
  obtain ⟨hv, hsep⟩ := h
  induction pool with
  | nil => exact List.Pairwise.nil
  | cons r rest ih =>
    obtain ⟨hhead, htail⟩ := List.pairwise_cons.mp hsep
    have hrest : List.Sorted (fun a b : Addr => a.key < b.key)
        (IPSet.elemsAsc rest) :=
      ih (fun x hx => hv x (List.mem_cons_of_mem _ hx)) htail
    show List.Pairwise _ (IPSet.elemsAsc (r :: rest))
    have hflat : IPSet.elemsAsc (r :: rest) =
        segAsc r.lo.is4 r.lo.val (r.hi.val - r.lo.val) ++
          IPSet.elemsAsc rest := by
      simp [IPSet.elemsAsc]
    rw [hflat, List.pairwise_append]
    obtain ⟨hfam, _, _, hle⟩ := isValid_parts (hv r (by simp))
    refine ⟨?_, hrest, ?_⟩
    · unfold segAsc
      refine List.Pairwise.map _ (fun i j hij => ?_) (List.pairwise_lt_range _)
      show Addr.key ⟨r.lo.is4, _⟩ < Addr.key ⟨r.lo.is4, _⟩
      simp only [Addr.key]
      dsimp only
      split <;> omega
    · intro a ha b hb
      rw [mem_segAsc] at ha
      rcases List.mem_flatMap.mp hb with ⟨r2, hr2, hbm⟩
      rw [mem_segAsc] at hbm
      obtain ⟨hfam2, _, _, hle2⟩ := isValid_parts
        (hv r2 (List.mem_cons_of_mem _ hr2))
      have hlt : r.hi.key < r2.lo.key := hhead r2 hr2
      have hak : a.key ≤ r.hi.key := by
        simp only [Addr.key, ha.1, hfam]
        have h1 := ha.2.2
        split <;> omega
      have hbk : r2.lo.key ≤ b.key := by
        simp only [Addr.key, hbm.1, hfam2]
        have h1 := hbm.2.1
        split <;> omega
      omega


/-! ## Claim C2 -/

/-- C2: for every (normalized) pool set and in-use set, `FindFreeAddress`
returns the first address of the pool — traversed in ascending order by
default and in descending order when the `desc` flag is set — that is not
contained in the in-use set and, when IPv4, whose last octet is neither 0
nor 255; an IPv6 address is never excluded by the octet filter, and when
no such address exists the function returns the error (modelled `none`). -/
theorem c2_find_free_address_first_fit (pool inUse : IPSet)
    (cfg : Option KubevipLBConfig) (h : pool.Normalized) :
    FindFreeAddress pool inUse cfg =
        (if descFlag cfg then pool.elemsAsc.reverse else pool.elemsAsc).find?
          (freePred inUse) ∧
      List.Sorted (fun a b : Addr => a.key < b.key) pool.elemsAsc ∧
      (∀ a : Addr, a ∈ pool.elemsAsc ↔ pool.containsA a = true) ∧
      (∀ a : Addr, freePred inUse a = true ↔
        inUse.containsA a = false ∧
          (a.is4 = true → a.lastOctet ≠ 0 ∧ a.lastOctet ≠ 255)) ∧
      (FindFreeAddress pool inUse cfg = none ↔
        ∀ a : Addr, pool.containsA a = true → freePred inUse a = false) := by
  obtain ⟨hv, hsep⟩ := h
  have hchar := findFreeAddress_eq_find? pool inUse cfg hv
  refine ⟨hchar, elemsAsc_sorted ⟨hv, hsep⟩, fun a => mem_elemsAsc hv, ?_, ?_⟩
  · intro a
    unfold freePred isNetworkIDOrBroadcastIP
    cases hin : inUse.containsA a <;> cases h4 : a.is4 <;>
      simp [Addr.lastOctet]
  · rw [hchar]
    rw [List.find?_eq_none]
    constructor
    · intro hnone a hmem
      have hmem2 : a ∈ (if descFlag cfg then pool.elemsAsc.reverse
          else pool.elemsAsc) := by
        split <;> simp [List.mem_reverse, (mem_elemsAsc hv).mpr hmem]
      have := hnone a hmem2
      simpa using this
    · intro hall a hmem
      have hmem2 : a ∈ pool.elemsAsc := by
        rcases (by split at hmem <;>
          simp_all [List.mem_reverse] : a ∈ pool.elemsAsc) with h
        exact h
      simp [hall a ((mem_elemsAsc hv).mp hmem2)]

/-- Witness for C2 at a concrete three-address pool. -/
theorem c2_witness :
    IPSet.Normalized [⟨⟨true, 0xC0A8000A⟩, ⟨true, 0xC0A8000C⟩⟩] ∧
      FindFreeAddress [⟨⟨true, 0xC0A8000A⟩, ⟨true, 0xC0A8000C⟩⟩]
          [⟨⟨true, 0xC0A8000A⟩, ⟨true, 0xC0A8000A⟩⟩] none =
        (if descFlag none then
          (IPSet.elemsAsc [⟨⟨true, 0xC0A8000A⟩, ⟨true, 0xC0A8000C⟩⟩]).reverse
        else
          IPSet.elemsAsc [⟨⟨true, 0xC0A8000A⟩, ⟨true, 0xC0A8000C⟩⟩]).find?
          (freePred [⟨⟨true, 0xC0A8000A⟩, ⟨true, 0xC0A8000A⟩⟩]) :=
  ⟨by decide,
    (c2_find_free_address_first_fit
      [⟨⟨true, 0xC0A8000A⟩, ⟨true, 0xC0A8000C⟩⟩]
      [⟨⟨true, 0xC0A8000A⟩, ⟨true, 0xC0A8000A⟩⟩] none (by decide)).1⟩


/-! ## Claim C6 -/

/-- The `allow-share` resolution at the top of `discoverPool`. -/
def allowShareOf (cm : ConfigData) (ns cmName : Str) : Bool :=
  match getConfig cm ns cmName (str "allow-share") (str "config") with
  | .ok (v, _) => (parseBoolGo v).getD false
  | .error _ => false

/-- C6 counterexample: for a namespace literally named `global`, the pool
is found under the key `cidr-global` (the namespace-scoped key and the
global key coincide textually), yet the global flag is `false` — so the
flag is not `true` exactly when the chosen key is a `-global` key. -/
theorem c6_counterexample :
    discoverPool [(str "cidr-global", str "10.0.0.0/24")] (str "global") [] =
        .ok (str "10.0.0.0/24", false, false) ∧
      str "cidr" ++ '-' :: str "global" = str "cidr-global" ∧
      lookupA [(str "cidr-global", str "10.0.0.0/24")]
        (str "cidr-global") = some (str "10.0.0.0/24") := by
  refine ⟨by decide, by decide, by decide⟩

/-- C6 (amended): `discoverPool` returns the value of the first present
key in the order `cidr-ns`, `cidr-global`, `range-ns`, `range-global`,
with the global flag `true` exactly when the value was found through the
global fallback (the namespace key being absent) — for a namespace named
`global` the namespace key is itself `cidr-global`/`range-global` and the
flag is `false`; when none of the keys is present it returns the
`no address pools could be found` sentinel. -/
theorem c6_discover_pool_order (cm : ConfigData) (ns cmName : Str) :
    discoverPool cm ns cmName =
      match lookupA cm (str "cidr" ++ '-' :: ns) with
      | some v => .ok (v, false, allowShareOf cm ns cmName)
      | none =>
        match lookupA cm (str "cidr-global") with
        | some v => .ok (v, true, allowShareOf cm ns cmName)
        | none =>
          match lookupA cm (str "range" ++ '-' :: ns) with
          | some v => .ok (v, false, allowShareOf cm ns cmName)
          | none =>
            match lookupA cm (str "range-global") with
            | some v => .ok (v, true, allowShareOf cm ns cmName)
            | none => .error (.msg (str "no address pools could be found")) := by
  have hck : str "cidr" ++ '-' :: str "global" = str "cidr-global" := by decide
  have hrk : str "range" ++ '-' :: str "global" = str "range-global" := by decide
  unfold discoverPool allowShareOf getConfig getConfigWithNamespace
  rw [hck, hrk]
  rcases lookupA cm (str "cidr" ++ '-' :: ns) with _ | v1 <;>
    rcases h2 : lookupA cm (str "cidr-global") with _ | v2 <;>
      rcases lookupA cm (str "range" ++ '-' :: ns) with _ | v3 <;>
        rcases lookupA cm (str "range-global") with _ | v4 <;>
          rfl

/-! ## Claim C10 -/

theorem famcGo_none {ns cidr : Str} {inUse : IPSet}
    {cfg : Option KubevipLBConfig} {M : List IpManager}
    (h : ∀ e ∈ M, e.ns ≠ ns) : famcGo ns cidr inUse cfg M = none := by
  induction M with
  | nil => rfl
  | cons e rest ih =>
    unfold famcGo
    rw [if_neg (h e (by simp))]
    rw [ih fun x hx => h x (by simp [hx])]
    rfl

theorem famcGo_hit {ns cidr : Str} {inUse : IPSet}
    {cfg : Option KubevipLBConfig} {M : List IpManager}
    (h : ∀ e ∈ M, e.ns ≠ ns) (rng : Str) (S : IPSet) :
    famcGo ns cidr inUse cfg (M ++ [⟨ns, cidr, rng, S⟩]) =
      some (findFreeResult ns cidr true S inUse cfg,
        M ++ [⟨ns, cidr, rng, S⟩]) := by
  induction M with
  | nil =>
    rw [List.nil_append]
    unfold famcGo
    rw [if_pos rfl, if_neg (by simp)]
  | cons e rest ih =>
    rw [List.cons_append]
    have hstep : famcGo ns cidr inUse cfg
        (e :: (rest ++ [⟨ns, cidr, rng, S⟩])) =
        (famcGo ns cidr inUse cfg (rest ++ [⟨ns, cidr, rng, S⟩])).map
          (fun p => (p.1, e :: p.2)) := by
      conv_lhs => rw [famcGo]
      rw [if_neg (h e (by simp))]
    rw [hstep, ih fun x hx => h x (by simp [hx])]
    rfl

/-- C10: the allocator registry is keyed only on the namespace and the
cidr declaration string.  A first call on a registry with no entry for the
namespace appends an entry holding the pool set built under the
configuration in effect then; a second call with the same namespace and an
identical cidr string reuses that cached pool set even when the
`KubevipLBConfig` differs (for example after `skip-end-ips-in-cidr` was
toggled), so the returned address is drawn from the pool built under the
first call's flags. -/
theorem c10_registry_reuses_stale_pool (ns cidr : Str) (inUse1 inUse2 : IPSet)
    (cfg1 cfg2 : Option KubevipLBConfig) (M0 : List IpManager) (S : IPSet)
    (hfresh : ∀ e ∈ M0, e.ns ≠ ns)
    (hbuild : buildHostsFromCidr cidr cfg1 = .ok S) :
    (FindAvailableHostFromCidr ns cidr inUse1 cfg1 M0).2 =
        M0 ++ [⟨ns, cidr, [], S⟩] ∧
      FindAvailableHostFromCidr ns cidr inUse2 cfg2
          (M0 ++ [⟨ns, cidr, [], S⟩]) =
        (findFreeResult ns cidr true S inUse2 cfg2,
          M0 ++ [⟨ns, cidr, [], S⟩]) := by
  constructor
  · unfold FindAvailableHostFromCidr
    rw [famcGo_none hfresh, hbuild]
  · unfold FindAvailableHostFromCidr
    rw [famcGo_hit hfresh]

/-- Witness for C10: a `/30` pool built without `skip-end-ips-in-cidr`,
then reused by a call with the flag on. -/
theorem c10_witness :
    (∀ e ∈ ([] : List IpManager), e.ns ≠ str "d") ∧
      buildHostsFromCidr (str "192.168.0.200/30") none =
        .ok [⟨⟨true, 0xC0A800C8⟩, ⟨true, 0xC0A800CB⟩⟩] ∧
      (FindAvailableHostFromCidr (str "d") (str "192.168.0.200/30") [] none []).2 =
          [] ++ [⟨str "d", str "192.168.0.200/30", [],
            [⟨⟨true, 0xC0A800C8⟩, ⟨true, 0xC0A800CB⟩⟩]⟩] ∧
      FindAvailableHostFromCidr (str "d") (str "192.168.0.200/30") []
          (some ⟨false, true⟩)
          ([] ++ [⟨str "d", str "192.168.0.200/30", [],
            [⟨⟨true, 0xC0A800C8⟩, ⟨true, 0xC0A800CB⟩⟩]⟩]) =
        (findFreeResult (str "d") (str "192.168.0.200/30") true
          [⟨⟨true, 0xC0A800C8⟩, ⟨true, 0xC0A800CB⟩⟩] [] (some ⟨false, true⟩),
          [] ++ [⟨str "d", str "192.168.0.200/30", [],
            [⟨⟨true, 0xC0A800C8⟩, ⟨true, 0xC0A800CB⟩⟩]⟩]) := by
  have h1 : ∀ e ∈ ([] : List IpManager), e.ns ≠ str "d" := by simp
  have h2 : buildHostsFromCidr (str "192.168.0.200/30") none =
      .ok [⟨⟨true, 0xC0A800C8⟩, ⟨true, 0xC0A800CB⟩⟩] := by decide
  have h := c10_registry_reuses_stale_pool (str "d") (str "192.168.0.200/30")
    [] [] none (some ⟨false, true⟩) []
    [⟨⟨true, 0xC0A800C8⟩, ⟨true, 0xC0A800CB⟩⟩] h1 h2
  exact ⟨h1, h2, h.1, h.2⟩

/-! ## Claim C5 -/

/-- C5: reconciliation is idempotent.  For a service that carries its
allocated addresses — `spec.loadBalancerIP` non-empty, a non-empty
`loadbalancerIPs` annotation, and the implementation label `kube-vip` (as
left behind by a completed `syncLoadBalancer`) — a second
`syncLoadBalancer` performs no store write (the world is unchanged) and
returns the same load-balancer status. -/
theorem c5_sync_idempotent (w : World) (s : Service) (cmName cmNamespace : Str)
    (v : Str) (h1 : s.specLoadBalancerIP ≠ [])
    (h2 : lookupA s.anns lbIPsKey = some v) (h3 : v ≠ [])
    (h4 : lookupA s.labels implKey = some implValue) :
    syncLoadBalancer w s cmName cmNamespace = (.ok s.statusLB, w) := by
  have hlen : ¬v.length = 0 := by
    simpa [List.length_eq_zero] using h3
  unfold syncLoadBalancer checkLegacyLoadBalancerIPAnn
  rw [if_neg h1, h2]
  simp [hlen]

/-- Witness for C5: a fully reconciled service is left untouched. -/
theorem c5_witness :
    (str "10.1.2.3" : Str) ≠ [] ∧
      lookupA [(lbIPsKey, str "10.1.2.3")] lbIPsKey = some (str "10.1.2.3") ∧
      (str "10.1.2.3" : Str) ≠ [] ∧
      lookupA [(implKey, implValue)] implKey = some implValue ∧
      syncLoadBalancer
          ⟨[⟨str "ns", str "svc", [(implKey, implValue)],
            [(lbIPsKey, str "10.1.2.3")], str "10.1.2.3", [80], none, [],
            [str "10.1.2.3"]⟩], [], []⟩
          ⟨str "ns", str "svc", [(implKey, implValue)],
            [(lbIPsKey, str "10.1.2.3")], str "10.1.2.3", [80], none, [],
            [str "10.1.2.3"]⟩ (str "kubevip") (str "kube-system") =
        (.ok [str "10.1.2.3"],
          ⟨[⟨str "ns", str "svc", [(implKey, implValue)],
            [(lbIPsKey, str "10.1.2.3")], str "10.1.2.3", [80], none, [],
            [str "10.1.2.3"]⟩], [], []⟩) := by
  refine ⟨by decide, by decide, by decide, by decide, ?_⟩
  exact c5_sync_idempotent _ _ _ _ (str "10.1.2.3") (by decide) (by decide)
    (by decide) (by decide)

/-! ## Normalization preserves the union and validity -/

instance : IsTotal IPRange rangeLE := ⟨fun a b => Nat.le_total a.lo.key b.lo.key⟩

instance : IsTrans IPRange rangeLE := ⟨fun a b c => Nat.le_trans⟩

theorem any_congr_perm {α : Type} {l1 l2 : List α} (h : l1.Perm l2)
    (f : α → Bool) : l1.any f = l2.any f := by
  cases hb : l2.any f
  · rw [List.any_eq_false] at hb ⊢
    intro x hx
    exact hb x (h.mem_iff.mp hx)
  · rw [List.any_eq_true] at hb ⊢
    obtain ⟨x, hx, hfx⟩ := hb
    exact ⟨x, h.mem_iff.mpr hx, hfx⟩

theorem val_le_of_key_le {a b : Addr} (hf : a.is4 = b.is4)
    (h : a.key ≤ b.key) : a.val ≤ b.val := by
  unfold Addr.key at h
  rw [hf] at h
  cases hb4 : b.is4
  · rw [hb4] at h
    simp at h
    omega
  · rw [hb4] at h
    simp at h
    exact h

/-- The range merged from two adjacent or overlapping ranges covers
exactly their union. -/
theorem merged_contains (cl ch rl rh a : Addr) (hf1 : cl.is4 = ch.is4)
    (hf2 : rl.is4 = cl.is4) (hf3 : rl.is4 = rh.is4)
    (hvc : cl.val ≤ ch.val) (hvr : rl.val ≤ rh.val)
    (hle : cl.val ≤ rl.val) (hadj : rl.val ≤ ch.val + 1) :
    IPRange.containsA ⟨cl, if ch.val < rh.val then rh else ch⟩ a =
      (IPRange.containsA ⟨cl, ch⟩ a || IPRange.containsA ⟨rl, rh⟩ a) := by
  apply Bool.eq_iff_iff.mpr
  simp only [IPRange.containsA, Bool.or_eq_true, Bool.and_eq_true,
    beq_iff_eq, decide_eq_true_eq]
  by_cases hfa : cl.is4 = a.is4
  · by_cases hch : ch.val < rh.val
    · rw [if_pos hch]
      constructor
      · rintro ⟨⟨h1, h2⟩, h3⟩
        by_cases hx : a.val ≤ ch.val
        · exact Or.inl ⟨⟨hfa, h2⟩, hx⟩
        · exact Or.inr ⟨⟨hf2.trans hfa, by omega⟩, h3⟩
      · rintro (⟨⟨h1, h2⟩, h3⟩ | ⟨⟨h1, h2⟩, h3⟩)
        · exact ⟨⟨hfa, h2⟩, by omega⟩
        · exact ⟨⟨hfa, by omega⟩, h3⟩
    · rw [if_neg hch]
      constructor
      · rintro ⟨⟨h1, h2⟩, h3⟩
        exact Or.inl ⟨⟨hfa, h2⟩, h3⟩
      · rintro (⟨⟨h1, h2⟩, h3⟩ | ⟨⟨h1, h2⟩, h3⟩)
        · exact ⟨⟨hfa, h2⟩, h3⟩
        · exact ⟨⟨hfa, by omega⟩, by omega⟩
  · constructor
    · rintro ⟨⟨h1, h2⟩, h3⟩
      exact absurd h1 hfa
    · rintro (⟨⟨h1, h2⟩, h3⟩ | ⟨⟨h1, h2⟩, h3⟩)
      · exact absurd h1 hfa
      · exact absurd (hf2.symm.trans h1) hfa

theorem mergeGo_any (a : Addr) :
    ∀ (l : List IPRange) (cur : IPRange), cur.isValid = true →
      (∀ r ∈ l, r.isValid = true) → l.Sorted rangeLE →
      (∀ r ∈ l, rangeLE cur r) →
      (mergeGo cur l).any (·.containsA a) =
        (cur :: l).any (·.containsA a) := by
  intro l
  induction l with
  | nil => intro cur _ _ _ _; rfl
  | cons r rest ih =>
    intro cur hcv hall hsorted hcle
    obtain ⟨hrrest, hrestsorted⟩ := List.sorted_cons.mp hsorted
    have hrv : r.isValid = true := hall r (List.mem_cons_self _ _)
    have hrestv : ∀ x ∈ rest, x.isValid = true :=
      fun x hx => hall x (List.mem_cons_of_mem _ hx)
    obtain ⟨hcf, hclw, hchw, hcle2⟩ := isValid_parts hcv
    obtain ⟨hrf, hrlw, hrhw, hrle2⟩ := isValid_parts hrv
    simp only [mergeGo]
    by_cases hc : (cur.hi.is4 == r.lo.is4 &&
        decide (cur.hi.val ≠ cur.hi.maxVal) &&
        decide (r.lo.val ≤ cur.hi.val + 1)) = true
    · rw [if_pos hc]
      simp only [Bool.and_eq_true, beq_iff_eq, decide_eq_true_eq] at hc
      obtain ⟨⟨hcf2, hmax⟩, hadj⟩ := hc
      have hfam : r.lo.is4 = cur.lo.is4 := by rw [← hcf2, hcf]
      have hlole : cur.lo.val ≤ r.lo.val :=
        val_le_of_key_le hfam.symm (hcle r (List.mem_cons_self _ _))
      have hmv : (⟨cur.lo, if cur.hi.val < r.hi.val then r.hi
          else cur.hi⟩ : IPRange).isValid = true := by
        unfold IPRange.isValid
        by_cases hch : cur.hi.val < r.hi.val
        · rw [if_pos hch]
          simp only [Bool.and_eq_true, beq_iff_eq, decide_eq_true_eq]
          refine ⟨⟨⟨?_, hclw⟩, hrhw⟩, by omega⟩
          rw [hcf, hcf2, hrf]
        · rw [if_neg hch]
          simp only [Bool.and_eq_true, beq_iff_eq, decide_eq_true_eq]
          exact ⟨⟨⟨hcf, hclw⟩, hchw⟩, hcle2⟩
      rw [ih _ hmv hrestv hrestsorted
        (fun x hx => hcle x (List.mem_cons_of_mem _ hx))]
      simp only [List.any_cons]
      rw [merged_contains cur.lo cur.hi r.lo r.hi a hcf hfam
        (hrf.symm ▸ rfl) hcle2 hrle2 hlole hadj]
      rw [Bool.or_assoc]
    · rw [if_neg hc]
      simp only [List.any_cons]
      rw [ih r hrv hrestv hrestsorted hrrest]
      simp [List.any_cons]

theorem mergeGo_valid :
    ∀ (l : List IPRange) (cur : IPRange), cur.isValid = true →
      (∀ r ∈ l, r.isValid = true) →
      ∀ x ∈ mergeGo cur l, x.isValid = true := by
  intro l
  induction l with
  | nil =>
    intro cur hcv _ x hx
    simp only [mergeGo, List.mem_singleton] at hx
    rw [hx]
    exact hcv
  | cons r rest ih =>
    intro cur hcv hall x hx
    have hrv : r.isValid = true := hall r (List.mem_cons_self _ _)
    have hrestv : ∀ y ∈ rest, y.isValid = true :=
      fun y hy => hall y (List.mem_cons_of_mem _ hy)
    obtain ⟨hcf, hclw, hchw, hcle2⟩ := isValid_parts hcv
    obtain ⟨hrf, hrlw, hrhw, hrle2⟩ := isValid_parts hrv
    simp only [mergeGo] at hx
    by_cases hc : (cur.hi.is4 == r.lo.is4 &&
        decide (cur.hi.val ≠ cur.hi.maxVal) &&
        decide (r.lo.val ≤ cur.hi.val + 1)) = true
    · rw [if_pos hc] at hx
      simp only [Bool.and_eq_true, beq_iff_eq, decide_eq_true_eq] at hc
      obtain ⟨⟨hcf2, hmax⟩, hadj⟩ := hc
      have hmv : (⟨cur.lo, if cur.hi.val < r.hi.val then r.hi
          else cur.hi⟩ : IPRange).isValid = true := by
        unfold IPRange.isValid
        by_cases hch : cur.hi.val < r.hi.val
        · rw [if_pos hch]
          simp only [Bool.and_eq_true, beq_iff_eq, decide_eq_true_eq]
          refine ⟨⟨⟨?_, hclw⟩, hrhw⟩, by omega⟩
          rw [hcf, hcf2, hrf]
        · rw [if_neg hch]
          simp only [Bool.and_eq_true, beq_iff_eq, decide_eq_true_eq]
          exact ⟨⟨⟨hcf, hclw⟩, hchw⟩, hcle2⟩
      exact ih _ hmv hrestv x hx
    · rw [if_neg hc] at hx
      rcases List.mem_cons.mp hx with rfl | hx2
      · exact hcv
      · exact ih r hrv hrestv x hx2

/-- `netipx` normalization does not change the union of the (valid)
input ranges. -/
theorem normalizeRanges_contains (l : List IPRange)
    (hv : ∀ r ∈ l, r.isValid = true) (a : Addr) :
    IPSet.containsA (normalizeRanges l) a = l.any (·.containsA a) := by
  unfold normalizeRanges IPSet.containsA
  have hperm := List.perm_insertionSort rangeLE l
  have hsorted := List.sorted_insertionSort rangeLE l
  have hv2 : ∀ r ∈ l.insertionSort rangeLE, r.isValid = true :=
    fun r hr => hv r (hperm.mem_iff.mp hr)
  rw [← any_congr_perm hperm (·.containsA a)]
  match hss : l.insertionSort rangeLE with
  | [] => rfl
  | c :: rest =>
    rw [hss] at hsorted hv2
    obtain ⟨hcrest, hrestsorted⟩ := List.sorted_cons.mp hsorted
    exact mergeGo_any a rest c (hv2 c (List.mem_cons_self _ _))
      (fun x hx => hv2 x (List.mem_cons_of_mem _ hx)) hrestsorted hcrest

/-- Every range of a normalized (valid-input) set is valid. -/
theorem normalizeRanges_valid (l : List IPRange)
    (hv : ∀ r ∈ l, r.isValid = true) :
    ∀ x ∈ normalizeRanges l, x.isValid = true := by
  unfold normalizeRanges
  have hperm := List.perm_insertionSort rangeLE l
  have hv2 : ∀ r ∈ l.insertionSort rangeLE, r.isValid = true :=
    fun r hr => hv r (hperm.mem_iff.mp hr)
  match hss : l.insertionSort rangeLE with
  | [] => intro x hx; exact absurd hx (List.not_mem_nil x)
  | c :: rest =>
    rw [hss] at hv2
    exact mergeGo_valid rest c (hv2 c (List.mem_cons_self _ _))
      (fun x hx => hv2 x (List.mem_cons_of_mem _ hx))


/-! ## Builder folds -/

theorem addRange_fold_errs :
    ∀ (rs : List IPRange) (b : IPSetBuilder),
      (rs.foldl IPSetBuilder.addRange b).errs = false →
      b.errs = false ∧ ∀ r ∈ rs, r.isValid = true := by
  intro rs
  induction rs with
  | nil => intro b h; exact ⟨h, by simp⟩
  | cons r rest ih =>
    intro b h
    rw [List.foldl_cons] at h
    obtain ⟨hb, hrest⟩ := ih _ h
    have hv : r.isValid = true := by
      by_contra hnv
      have : (b.addRange r).errs = true := by
        unfold IPSetBuilder.addRange
        rw [if_neg hnv]
      rw [this] at hb
      simp at hb
    have hberr : b.errs = false := by
      unfold IPSetBuilder.addRange at hb
      rw [if_pos hv] at hb
      exact hb
    refine ⟨hberr, fun q hq => ?_⟩
    rcases List.mem_cons.mp hq with rfl | h2
    · exact hv
    · exact hrest q h2

theorem addRange_fold_ins :
    ∀ (rs : List IPRange) (b : IPSetBuilder),
      (∀ r ∈ rs, r.isValid = true) →
      (rs.foldl IPSetBuilder.addRange b).ins = b.ins ++ rs := by
  intro rs
  induction rs with
  | nil => intro b _; simp
  | cons r rest ih =>
    intro b hv
    rw [List.foldl_cons,
      ih _ (fun q hq => hv q (List.mem_cons_of_mem _ hq))]
    unfold IPSetBuilder.addRange
    rw [if_pos (hv r (List.mem_cons_self _ _))]
    simp

theorem foldl_addPfx_eq (ps : List Pfx) (b : IPSetBuilder) :
    ps.foldl IPSetBuilder.addPfx b =
      (ps.map pfxRange).foldl IPSetBuilder.addRange b := by
  rw [List.foldl_map]
  rfl

/-- The canonical set a successful `parseCidrs` returns: the normalized
union of the ranges of the declared prefixes, all of them valid. -/
theorem parseCidrs_ok (cidr : Str) (P : IPSet)
    (h : parseCidrs cidr = .ok P) :
    ∃ ps, mapOption parsePfx (splitOnChar ',' cidr) = some ps ∧
      (∀ p ∈ ps, (pfxRange p).isValid = true) ∧
      P = normalizeRanges (ps.map pfxRange) := by
  unfold parseCidrs at h
  rw [if_neg (by simp [splitOnChar_ne_nil])] at h
  match hmo : mapOption parsePfx (splitOnChar ',' cidr) with
  | none => rw [hmo] at h; simp at h
  | some ps =>
    rw [hmo] at h
    dsimp only at h
    rw [foldl_addPfx_eq] at h
    unfold IPSetBuilder.toIPSet at h
    by_cases herr :
        ((ps.map pfxRange).foldl IPSetBuilder.addRange
          IPSetBuilder.empty).errs = true
    · rw [if_pos herr] at h
      exact absurd h (by simp)
    · rw [if_neg herr] at h
      have hv := addRange_fold_errs (ps.map pfxRange) IPSetBuilder.empty
        (by simpa using herr)
      have hv2 : ∀ p ∈ ps, (pfxRange p).isValid = true := by
        intro p hp
        exact hv.2 (pfxRange p) (List.mem_map_of_mem pfxRange hp)
      have hins := addRange_fold_ins (ps.map pfxRange) IPSetBuilder.empty hv.2
      refine ⟨ps, rfl, hv2, ?_⟩
      have h2 := Except.ok.inj h
      rw [hins] at h2
      simpa [IPSetBuilder.empty] using h2.symm

/-! ## The range-to-prefix decomposition tiles the range -/

theorem blockExpGo_le (lo hi : Nat) : ∀ n, blockExpGo lo hi n ≤ n := by
  intro n
  induction n with
  | zero => simp [blockExpGo]
  | succ k ih =>
    simp only [blockExpGo]
    by_cases hc : lo % 2 ^ (k + 1) = 0 ∧ lo + (2 ^ (k + 1) - 1) ≤ hi
    · rw [if_pos hc]
    · rw [if_neg hc]
      omega

theorem blockExpGo_spec (lo hi : Nat) (hle : lo ≤ hi) :
    ∀ n, lo % 2 ^ blockExpGo lo hi n = 0 ∧
      lo + (2 ^ blockExpGo lo hi n - 1) ≤ hi := by
  intro n
  induction n with
  | zero =>
    simp only [blockExpGo, pow_zero]
    omega
  | succ k ih =>
    simp only [blockExpGo]
    by_cases hc : lo % 2 ^ (k + 1) = 0 ∧ lo + (2 ^ (k + 1) - 1) ≤ hi
    · rw [if_pos hc]
      exact hc
    · rw [if_neg hc]
      exact ih

/-- The blocks produced by `rangePfxs` are canonical (aligned, in range)
and cover exactly `[lo, hi]`. -/
theorem rangePfxs_coverage (fam : Bool) (w : Nat)
    (hw : w = (Addr.mk fam 0).width) :
    ∀ (n lo hi : Nat), hi + 1 - lo ≤ n → hi < 2 ^ w →
      (∀ p ∈ rangePfxs fam w lo hi,
          p.addr.is4 = fam ∧ p.bits ≤ w ∧ p.addr.wf ∧
          pfxRange p = ⟨⟨fam, p.addr.val⟩,
            ⟨fam, p.addr.val + (2 ^ (w - p.bits) - 1)⟩⟩ ∧
          lo ≤ p.addr.val ∧ p.addr.val + (2 ^ (w - p.bits) - 1) ≤ hi) ∧
      (∀ (b : Bool) (v : Nat),
        ((rangePfxs fam w lo hi).any
            fun p => (pfxRange p).containsA ⟨b, v⟩) = true ↔
          (b = fam ∧ lo ≤ v ∧ v ≤ hi)) := by
  intro n
  induction n with
  | zero =>
    intro lo hi hm hhi
    have hlt : hi < lo := by omega
    rw [rangePfxs_eq, if_pos hlt]
    refine ⟨by simp, fun b v => ?_⟩
    simp only [List.any_nil]
    constructor
    · intro hf
      exact absurd hf (by simp)
    · rintro ⟨h1, h2, h3⟩
      omega
  | succ n ih =>
    intro lo hi hm hhi
    by_cases hlt : hi < lo
    · rw [rangePfxs_eq, if_pos hlt]
      refine ⟨by simp, fun b v => ?_⟩
      simp only [List.any_nil]
      constructor
      · intro hf
        exact absurd hf (by simp)
      · rintro ⟨h1, h2, h3⟩
        omega
    · have hle : lo ≤ hi := by omega
      obtain ⟨halign, hfit⟩ := blockExpGo_spec lo hi hle w
      have hkle : blockExpGo lo hi w ≤ w := blockExpGo_le lo hi w
      have hpow : 1 ≤ 2 ^ blockExpGo lo hi w := Nat.one_le_two_pow
      have hwidth : (Addr.mk fam lo).width = w := by
        rw [hw]
        rfl
      have hbits : w - (w - blockExpGo lo hi w) = blockExpGo lo hi w := by
        omega
      have hhead : pfxRange ⟨⟨fam, lo⟩, w - blockExpGo lo hi w⟩ =
          ⟨⟨fam, lo⟩, ⟨fam, lo + (2 ^ blockExpGo lo hi w - 1)⟩⟩ := by
        unfold pfxRange
        dsimp only
        rw [hwidth, hbits]
        have hdvd : 2 ^ blockExpGo lo hi w ∣ lo :=
          Nat.dvd_of_mod_eq_zero halign
        rw [Nat.div_mul_cancel hdvd]
      obtain ⟨ihp, ihc⟩ := ih (lo + 2 ^ blockExpGo lo hi w) hi (by omega) hhi
      rw [rangePfxs_eq, if_neg hlt]
      constructor
      · intro p hp
        rcases List.mem_cons.mp hp with rfl | hp2
        · refine ⟨rfl, by dsimp only; omega, ?_, ?_, ?_, ?_⟩
          · show lo < 2 ^ (Addr.mk fam lo).width
            rw [hwidth]
            omega
          · dsimp only
            rw [hbits]
            exact hhead
          · exact Nat.le_refl lo
          · dsimp only
            rw [hbits]
            omega
        · obtain ⟨q1, q2, q3, q4, q5, q6⟩ := ihp p hp2
          exact ⟨q1, q2, q3, q4, by omega, q6⟩
      · intro b v
        simp only [List.any_cons, Bool.or_eq_true]
        rw [ihc b v, hhead]
        simp only [IPRange.containsA, Bool.and_eq_true, beq_iff_eq,
          decide_eq_true_eq]
        constructor
        · rintro (⟨⟨h1, h2⟩, h3⟩ | ⟨h1, h2, h3⟩)
          · exact ⟨h1.symm, h2, by omega⟩
          · exact ⟨h1, by omega, h3⟩
        · rintro ⟨h1, h2, h3⟩
          by_cases hv : v ≤ lo + (2 ^ blockExpGo lo hi w - 1)
          · exact Or.inl ⟨⟨h1.symm, h2⟩, hv⟩
          · exact Or.inr ⟨h1, by omega, h3⟩


/-! ## Prefix decomposition at the set level -/

/-- Every canonical prefix of a valid set is well formed, with its masked
range written out. -/
theorem pfxs_props (S : IPSet) (hv : ∀ r ∈ S, r.isValid = true) :
    ∀ p ∈ S.pfxs, p.addr.wf ∧ p.bits ≤ p.addr.width ∧
      pfxRange p = ⟨⟨p.addr.is4, p.addr.val⟩,
        ⟨p.addr.is4, p.addr.val + (2 ^ (p.addr.width - p.bits) - 1)⟩⟩ ∧
      p.addr.val + (2 ^ (p.addr.width - p.bits) - 1) < 2 ^ p.addr.width := by
  intro p hp
  obtain ⟨r, hr, hpr⟩ := List.mem_flatMap.mp hp
  obtain ⟨hfr, hlw, hhw, hlh⟩ := isValid_parts (hv r hr)
  have hhi : r.hi.val < 2 ^ r.lo.width := by
    have hww : r.hi.width = r.lo.width := by
      unfold Addr.width
      rw [hfr]
    have h2 : r.hi.val < 2 ^ r.hi.width := hhw
    rw [hww] at h2
    exact h2
  obtain ⟨hprops, hcov⟩ := rangePfxs_coverage r.lo.is4 r.lo.width rfl
    (r.hi.val + 1 - r.lo.val) r.lo.val r.hi.val (Nat.le_refl _) hhi
  obtain ⟨q1, q2, q3, q4, q5, q6⟩ := hprops p hpr
  have hww2 : p.addr.width = r.lo.width := by
    unfold Addr.width
    rw [q1]
  refine ⟨q3, by omega, ?_, by rw [hww2]; omega⟩
  rw [q4, q1, hww2]

/-- The canonical prefixes of a valid set cover it exactly. -/
theorem pfxs_contains (S : IPSet) (hv : ∀ r ∈ S, r.isValid = true)
    (a : Addr) :
    (S.pfxs.any fun p => (pfxRange p).containsA a) = S.containsA a := by
  obtain ⟨ab, av⟩ := a
  apply Bool.eq_iff_iff.mpr
  unfold IPSet.pfxs IPSet.containsA
  rw [List.any_eq_true, List.any_eq_true]
  constructor
  · rintro ⟨p, hp, hc⟩
    obtain ⟨r, hr, hpr⟩ := List.mem_flatMap.mp hp
    obtain ⟨hfr, hlw, hhw, hlh⟩ := isValid_parts (hv r hr)
    have hhi : r.hi.val < 2 ^ r.lo.width := by
      have hww : r.hi.width = r.lo.width := by
        unfold Addr.width
        rw [hfr]
      have h2 : r.hi.val < 2 ^ r.hi.width := hhw
      rw [hww] at h2
      exact h2
    obtain ⟨hprops, hcov⟩ := rangePfxs_coverage r.lo.is4 r.lo.width rfl
      (r.hi.val + 1 - r.lo.val) r.lo.val r.hi.val (Nat.le_refl _) hhi
    have hmem := (hcov ab av).mp (by
      rw [List.any_eq_true]
      exact ⟨p, hpr, hc⟩)
    refine ⟨r, hr, ?_⟩
    unfold IPRange.containsA
    simp only [Bool.and_eq_true, beq_iff_eq, decide_eq_true_eq]
    exact ⟨⟨hmem.1.symm, hmem.2.1⟩, hmem.2.2⟩
  · rintro ⟨r, hr, hc⟩
    obtain ⟨hfr, hlw, hhw, hlh⟩ := isValid_parts (hv r hr)
    have hhi : r.hi.val < 2 ^ r.lo.width := by
      have hww : r.hi.width = r.lo.width := by
        unfold Addr.width
        rw [hfr]
      have h2 : r.hi.val < 2 ^ r.hi.width := hhw
      rw [hww] at h2
      exact h2
    obtain ⟨hprops, hcov⟩ := rangePfxs_coverage r.lo.is4 r.lo.width rfl
      (r.hi.val + 1 - r.lo.val) r.lo.val r.hi.val (Nat.le_refl _) hhi
    have hc2 : ab = r.lo.is4 ∧ r.lo.val ≤ av ∧ av ≤ r.hi.val := by
      unfold IPRange.containsA at hc
      simp only [Bool.and_eq_true, beq_iff_eq, decide_eq_true_eq] at hc
      exact ⟨hc.1.1.symm, hc.1.2, hc.2⟩
    have hany := (hcov ab av).mpr hc2
    rw [List.any_eq_true] at hany
    obtain ⟨p, hp, hcp⟩ := hany
    exact ⟨p, List.mem_flatMap.mpr ⟨r, hr, hp⟩, hcp⟩

/-! ## Characterizing `buildHostsFromCidr` -/

theorem buildHostsStep_eq (cfg : Option KubevipLBConfig) (b : IPSetBuilder)
    (p : Pfx) :
    buildHostsStep cfg b p = (hostsKept cfg p).foldl IPSetBuilder.addRange b := by
  unfold buildHostsStep hostsKept
  by_cases h1 : (!p.addr.is4) = true
  · rw [if_pos h1, if_pos h1]
    rfl
  · rw [if_neg h1, if_neg h1]
    by_cases h2 : p.bits = p.addr.width ∧ skipFlag cfg = true
    · rw [if_pos h2, if_pos h2]
      rfl
    · rw [if_neg h2, if_neg h2]
      dsimp only
      by_cases h3 : (pfxRange p).isValid = true
      · rw [if_pos h3, if_pos h3]
        by_cases h4 : p.bits = 31
        · rw [if_pos h4, if_pos h4]
          rfl
        · rw [if_neg h4, if_neg h4]
          by_cases h5 : skipFlag cfg = true
          · rw [if_pos h5, if_pos h5]
            rfl
          · rw [if_neg h5, if_neg h5]
            rfl
      · rw [if_neg h3, if_neg h3]
        rfl

theorem hostsStep_fold_eq (cfg : Option KubevipLBConfig) :
    ∀ (ps : List Pfx) (b : IPSetBuilder),
      ps.foldl (buildHostsStep cfg) b =
        (ps.flatMap (hostsKept cfg)).foldl IPSetBuilder.addRange b := by
  intro ps
  induction ps with
  | nil => intro b; rfl
  | cons p rest ih =>
    intro b
    rw [List.foldl_cons, buildHostsStep_eq, ih, List.flatMap_cons,
      List.foldl_append]

/-- A successful `buildHostsFromCidr` is the normalized union of the
per-prefix kept ranges over the canonical prefixes of the declaration,
and everything in sight is valid. -/
theorem buildHostsFromCidr_ok (cidr : Str) (cfg : Option KubevipLBConfig)
    (H : IPSet) (h : buildHostsFromCidr cidr cfg = .ok H) :
    ∃ P, parseCidrs cidr = .ok P ∧ (∀ r ∈ P, r.isValid = true) ∧
      (∀ p ∈ P.pfxs, ∀ r ∈ hostsKept cfg p, r.isValid = true) ∧
      H = normalizeRanges (P.pfxs.flatMap (hostsKept cfg)) := by
  unfold buildHostsFromCidr at h
  match hpc : parseCidrs cidr with
  | .error e => rw [hpc] at h; simp at h
  | .ok P =>
    rw [hpc] at h
    dsimp only at h
    rw [hostsStep_fold_eq] at h
    unfold IPSetBuilder.toIPSet at h
    by_cases herr : ((P.pfxs.flatMap (hostsKept cfg)).foldl
        IPSetBuilder.addRange IPSetBuilder.empty).errs = true
    · rw [if_pos herr] at h
      exact absurd h (by simp)
    · rw [if_neg herr] at h
      have hv := addRange_fold_errs _ IPSetBuilder.empty (by simpa using herr)
      have hins := addRange_fold_ins _ IPSetBuilder.empty hv.2
      obtain ⟨ps, hmo, hpv, hPn⟩ := parseCidrs_ok cidr P hpc
      have hPvalid : ∀ r ∈ P, r.isValid = true := by
        rw [hPn]
        refine normalizeRanges_valid _ ?_
        intro q hq
        obtain ⟨p, hp, rfl⟩ := List.mem_map.mp hq
        exact hpv p hp
      have hkept : ∀ p ∈ P.pfxs, ∀ r ∈ hostsKept cfg p, r.isValid = true := by
        intro p hp r hr
        exact hv.2 r (List.mem_flatMap.mpr ⟨p, hp, hr⟩)
      refine ⟨P, rfl, hPvalid, hkept, ?_⟩
      have h2 := Except.ok.inj h
      rw [hins] at h2
      simpa [IPSetBuilder.empty] using h2.symm


/-! ## Claim C4 -/

theorem mem_setInsert (l : List Int) (p q : Int) :
    q ∈ setInsert l p ↔ q ∈ l ∨ q = p := by
  unfold setInsert
  by_cases h : l.contains p = true
  · rw [if_pos h]
    have hp : p ∈ l := by simpa using h
    constructor
    · exact fun hq => Or.inl hq
    · rintro (hq | rfl)
      · exact hq
      · exact hp
  · rw [if_neg h]
    simp [List.mem_append]

theorem mem_foldl_setInsert (ports : List Int) :
    ∀ (l : List Int) (q : Int),
      q ∈ ports.foldl setInsert l ↔ q ∈ l ∨ q ∈ ports := by
  induction ports with
  | nil => intro l q; simp
  | cons p rest ih =>
    intro l q
    rw [List.foldl_cons, ih, mem_setInsert]
    constructor
    · rintro ((hq | rfl) | hq)
      · exact Or.inl hq
      · exact Or.inr (List.mem_cons_self _ _)
      · exact Or.inr (List.mem_cons_of_mem _ hq)
    · rintro (hq | hq)
      · exact Or.inl (Or.inl hq)
      · rcases List.mem_cons.mp hq with rfl | hq
        · exact Or.inl (Or.inr rfl)
        · exact Or.inr hq

theorem intersectEmpty_iff (a b : List Int) :
    intersectEmpty a b = true ↔ ∀ p ∈ a, b.contains p = false := by
  unfold intersectEmpty
  simp [List.all_eq_true]

/-- The folded request set observes exactly the requested ports. -/
theorem requested_intersect_iff (ports ps : List Int) :
    intersectEmpty (ports.foldl setInsert []) ps = true ↔
      ∀ port ∈ ports, ps.contains port = false := by
  rw [intersectEmpty_iff]
  constructor
  · intro h port hport
    exact h port ((mem_foldl_setInsert ports [] port).mpr (Or.inr hport))
  · intro h p hp
    rcases (mem_foldl_setInsert ports [] p).mp hp with h0 | hp2
    · exact absurd h0 (List.not_mem_nil p)
    · exact h p hp2

theorem lookupA_cons {α : Type} (ip : Str) (ps : α) (rest : List (Str × α))
    (k : Str) :
    lookupA ((ip, ps) :: rest) k = if ip = k then some ps else lookupA rest k := by
  unfold lookupA
  rw [List.find?_cons]
  by_cases h : ip = k
  · simp [h]
  · simp [h]

theorem dsvGo_mem_keys (sp : List Int) :
    ∀ m : List (Str × List Int), dsvGo sp m ≠ [] →
      dsvGo sp m ∈ m.map Prod.fst := by
  intro m
  induction m with
  | nil => intro h; exact absurd rfl h
  | cons e rest ih =>
    intro h
    obtain ⟨ip, ps⟩ := e
    simp only [dsvGo] at h ⊢
    by_cases h0 : ps.contains 0 = true
    · rw [if_pos h0] at h ⊢
      exact List.mem_cons_of_mem _ (ih h)
    · rw [if_neg h0] at h ⊢
      by_cases hi : intersectEmpty sp ps = true
      · rw [if_pos hi]
        exact List.mem_cons_self _ _
      · rw [if_neg hi] at h ⊢
        exact List.mem_cons_of_mem _ (ih h)

theorem dsvGo_found (sp : List Int) :
    ∀ m : List (Str × List Int), (m.map Prod.fst).Nodup →
      dsvGo sp m ≠ [] →
      ∃ ps, lookupA m (dsvGo sp m) = some ps ∧
        ps.contains 0 = false ∧ intersectEmpty sp ps = true := by
  intro m
  induction m with
  | nil => intro _ h; exact absurd rfl h
  | cons e rest ih =>
    intro hnd h
    obtain ⟨ip, ps⟩ := e
    have hnd2 : (rest.map Prod.fst).Nodup := (List.nodup_cons.mp hnd).2
    have hnotin : ip ∉ rest.map Prod.fst := by
      simpa using (List.nodup_cons.mp hnd).1
    simp only [dsvGo] at h ⊢
    by_cases h0 : ps.contains 0 = true
    · rw [if_pos h0] at h ⊢
      obtain ⟨ps2, hl, hc, hi⟩ := ih hnd2 h
      refine ⟨ps2, ?_, hc, hi⟩
      have hne : ¬ip = dsvGo sp rest := by
        intro he
        rw [he] at hnotin
        exact hnotin (dsvGo_mem_keys sp rest h)
      rw [lookupA_cons, if_neg hne]
      exact hl
    · rw [if_neg h0] at h ⊢
      by_cases hi : intersectEmpty sp ps = true
      · rw [if_pos hi]
        refine ⟨ps, ?_, by simpa using h0, hi⟩
        rw [lookupA_cons, if_pos rfl]
      · rw [if_neg hi] at h ⊢
        obtain ⟨ps2, hl, hc, hi2⟩ := ih hnd2 h
        refine ⟨ps2, ?_, hc, hi2⟩
        have hne : ¬ip = dsvGo sp rest := by
          intro he
          rw [he] at hnotin
          exact hnotin (dsvGo_mem_keys sp rest h)
        rw [lookupA_cons, if_neg hne]
        exact hl

theorem dsvGo_none (sp : List Int) :
    ∀ m : List (Str × List Int),
      (∀ p ∈ m, p.2.contains 0 = true ∨ intersectEmpty sp p.2 = false) →
      dsvGo sp m = [] := by
  intro m
  induction m with
  | nil => intro _; rfl
  | cons e rest ih =>
    intro hall
    obtain ⟨ip, ps⟩ := e
    have hrest := ih fun p hp => hall p (List.mem_cons_of_mem _ hp)
    simp only [dsvGo]
    by_cases h0 : ps.contains 0 = true
    · rw [if_pos h0]
      exact hrest
    · rw [if_neg h0]
      rcases hall (ip, ps) (List.mem_cons_self _ _) with hc | hi
      · exact absurd hc h0
      · rw [if_neg (by simp [hi] : ¬intersectEmpty sp ps = true)]
        exact hrest

/-- C4: whenever `discoverSharedVIPs` returns a non-empty IP, the port map
binds that IP to a port set containing neither the sentinel `0` nor any
port requested by the candidate service; and when every mapped IP carries
the sentinel or overlaps the requested ports, the empty string is
returned.  (The bound port set is read off by map lookup, so the map's
keys are assumed distinct, as Go map keys are.) -/
theorem c4_shared_vip_safety (service : Service) (m : List (Str × List Int))
    (hnd : (m.map Prod.fst).Nodup) :
    (discoverSharedVIPs service m ≠ [] →
      ∃ ps, lookupA m (discoverSharedVIPs service m) = some ps ∧
        ps.contains 0 = false ∧
        ∀ port ∈ service.ports, ps.contains port = false) ∧
    ((∀ p ∈ m, p.2.contains 0 = true ∨
        ∃ port ∈ service.ports, p.2.contains port = true) →
      discoverSharedVIPs service m = []) := by
  constructor
  · intro h
    obtain ⟨ps, hl, hc, hi⟩ :=
      dsvGo_found (service.ports.foldl setInsert []) m hnd h
    exact ⟨ps, hl, hc, (requested_intersect_iff service.ports ps).mp hi⟩
  · intro hall
    apply dsvGo_none
    intro p hp
    rcases hall p hp with h0 | ⟨port, hport, hc⟩
    · exact Or.inl h0
    · right
      rw [Bool.eq_false_iff]
      intro hie
      have := (requested_intersect_iff service.ports p.2).mp hie port hport
      rw [this] at hc
      exact Bool.false_ne_true hc

/-- Witness for C4: a map with one safe IP and one conflicting IP. -/
theorem c4_witness :
    ((([(str "10.0.0.50", ([9] : List Int)),
        (str "10.0.0.60", [80])]).map Prod.fst).Nodup) ∧
    ((discoverSharedVIPs
          ⟨str "ns", str "s", [], [], [], [80], none, [], []⟩
          [(str "10.0.0.50", [9]), (str "10.0.0.60", [80])] ≠ [] →
        ∃ ps, lookupA [(str "10.0.0.50", [9]), (str "10.0.0.60", [80])]
            (discoverSharedVIPs
              ⟨str "ns", str "s", [], [], [], [80], none, [], []⟩
              [(str "10.0.0.50", [9]), (str "10.0.0.60", [80])]) = some ps ∧
          ps.contains 0 = false ∧
          ∀ port ∈ (⟨str "ns", str "s", [], [], [], [80], none, [], []⟩ :
              Service).ports, ps.contains port = false) ∧
      ((∀ p ∈ [(str "10.0.0.50", ([9] : List Int)), (str "10.0.0.60", [80])],
          p.2.contains 0 = true ∨
          ∃ port ∈ (⟨str "ns", str "s", [], [], [], [80], none, [], []⟩ :
              Service).ports, p.2.contains port = true) →
        discoverSharedVIPs
          ⟨str "ns", str "s", [], [], [], [80], none, [], []⟩
          [(str "10.0.0.50", [9]), (str "10.0.0.60", [80])] = [])) :=
  ⟨by decide,
    c4_shared_vip_safety ⟨str "ns", str "s", [], [], [], [80], none, [], []⟩
      [(str "10.0.0.50", [9]), (str "10.0.0.60", [80])] (by decide)⟩

/-! ## Claim C9 -/

theorem perm_eq_of_short {α : Type} (l1 l2 : List α) (h : l1.Perm l2)
    (hl : l1.length ≤ 1) : l1 = l2 := by
  match l1, l2, h with
  | [], l2, h => exact List.Perm.nil_eq h
  | [a], l2, h => exact List.singleton_perm.mp h
  | a :: b :: t, l2, h => simp at hl

/-- The walk of `discoverSharedVIPs` picks the first accepted entry. -/
theorem dsvGo_eq_filter (sp : List Int) :
    ∀ m : List (Str × List Int),
      dsvGo sp m = (((m.filter (qualB sp)).head?).map Prod.fst).getD [] := by
  intro m
  induction m with
  | nil => rfl
  | cons e rest ih =>
    obtain ⟨ip, ps⟩ := e
    simp only [dsvGo]
    by_cases h0 : ps.contains 0 = true
    · have h0m : (0 : Int) ∈ ps := by simpa using h0
      rw [if_pos h0, ih, List.filter_cons,
        if_neg (by simp [qualB, h0m] : ¬qualB sp (ip, ps) = true)]
    · have h0m : (0 : Int) ∉ ps := by simpa using h0
      rw [if_neg h0]
      by_cases hi : intersectEmpty sp ps = true
      · rw [if_pos hi, List.filter_cons,
          if_pos (by simp [qualB, h0m, hi] : qualB sp (ip, ps) = true)]
        rfl
      · rw [if_neg hi, ih, List.filter_cons,
          if_neg (by simp [qualB, h0m, hi] : ¬qualB sp (ip, ps) = true)]

/-- Counterexample to C9 as frozen: the Go `range` over the port map is
randomized, and with two acceptable shared IPs the two presentation
orders of one and the same map make the selection — and the address
written by `discoverVIPs` — differ. -/
theorem c9_counterexample :
    ([(str "10.0.0.50", ([9] : List Int)), (str "10.0.0.60", [9])]).Perm
        [(str "10.0.0.60", [9]), (str "10.0.0.50", [9])] ∧
      discoverSharedVIPs ⟨str "ns", str "s", [], [], [], [80], none, [], []⟩
          [(str "10.0.0.50", [9]), (str "10.0.0.60", [9])] ≠
        discoverSharedVIPs ⟨str "ns", str "s", [], [], [], [80], none, [], []⟩
          [(str "10.0.0.60", [9]), (str "10.0.0.50", [9])] ∧
      discoverVIPs (str "ns") (str "192.168.1.0/24")
          (discoverSharedVIPs ⟨str "ns", str "s", [], [], [], [80], none, [], []⟩
            [(str "10.0.0.50", [9]), (str "10.0.0.60", [9])]) [] none none [] [] ≠
        discoverVIPs (str "ns") (str "192.168.1.0/24")
          (discoverSharedVIPs ⟨str "ns", str "s", [], [], [], [80], none, [], []⟩
            [(str "10.0.0.60", [9]), (str "10.0.0.50", [9])]) [] none none [] [] := by
  refine ⟨?_, by decide, by decide⟩
  decide

/-- C9 (amended): the selection-then-allocation pipeline is a pure
function of the map's contents — independent of the map's presentation
order — provided at most one mapped IP is acceptable for sharing; with
two or more acceptable IPs the Go map iteration order makes the result
order-dependent (see the counterexample). -/
theorem c9_deterministic_when_at_most_one_candidate (ns pool : Str)
    (inUse : IPSet) (cfg : Option KubevipLBConfig)
    (pol : Option IPFamilyPolicy) (fams : List IPFamily)
    (mgr : List IpManager) (service : Service)
    (m1 m2 : List (Str × List Int)) (hperm : m1.Perm m2)
    (hq : (m1.filter (qualB (service.ports.foldl setInsert []))).length ≤ 1) :
    discoverSharedVIPs service m1 = discoverSharedVIPs service m2 ∧
    discoverVIPs ns pool (discoverSharedVIPs service m1) inUse cfg pol
        fams mgr =
      discoverVIPs ns pool (discoverSharedVIPs service m2) inUse cfg pol
        fams mgr := by
  have hfp := hperm.filter (qualB (service.ports.foldl setInsert []))
  have heq := perm_eq_of_short _ _ hfp hq
  have h : discoverSharedVIPs service m1 = discoverSharedVIPs service m2 := by
    unfold discoverSharedVIPs
    rw [dsvGo_eq_filter, dsvGo_eq_filter, heq]
  exact ⟨h, by rw [h]⟩

/-- Witness for C9's amended theorem: a two-entry map with exactly one
acceptable IP, presented in both orders. -/
theorem c9_witness :
    ([(str "10.0.0.50", ([9] : List Int)), (str "10.0.0.60", [80])]).Perm
        [(str "10.0.0.60", [80]), (str "10.0.0.50", [9])] ∧
      (([(str "10.0.0.50", ([9] : List Int)), (str "10.0.0.60", [80])]).filter
        (qualB ((⟨str "ns", str "s", [], [], [], [80], none, [], []⟩ :
          Service).ports.foldl setInsert []))).length ≤ 1 ∧
      (discoverSharedVIPs ⟨str "ns", str "s", [], [], [], [80], none, [], []⟩
          [(str "10.0.0.50", [9]), (str "10.0.0.60", [80])] =
        discoverSharedVIPs ⟨str "ns", str "s", [], [], [], [80], none, [], []⟩
          [(str "10.0.0.60", [80]), (str "10.0.0.50", [9])] ∧
      discoverVIPs (str "ns") (str "192.168.1.0/24")
          (discoverSharedVIPs ⟨str "ns", str "s", [], [], [], [80], none, [], []⟩
            [(str "10.0.0.50", [9]), (str "10.0.0.60", [80])]) [] none none [] [] =
        discoverVIPs (str "ns") (str "192.168.1.0/24")
          (discoverSharedVIPs ⟨str "ns", str "s", [], [], [], [80], none, [], []⟩
            [(str "10.0.0.60", [80]), (str "10.0.0.50", [9])]) [] none none [] []) := by
  refine ⟨by decide, by decide, ?_⟩
  exact c9_deterministic_when_at_most_one_candidate (str "ns")
    (str "192.168.1.0/24") [] none none [] []
    ⟨str "ns", str "s", [], [], [], [80], none, [], []⟩
    [(str "10.0.0.50", [9]), (str "10.0.0.60", [80])]
    [(str "10.0.0.60", [80]), (str "10.0.0.50", [9])] (by decide) (by decide)


/-! ## Claim C8 -/

theorem addRange_errs_mono (b : IPSetBuilder) (r : IPRange)
    (h : b.errs = true) : (b.addRange r).errs = true := by
  unfold IPSetBuilder.addRange
  by_cases hv : r.isValid = true
  · rw [if_pos hv]
    exact h
  · rw [if_neg hv]

theorem buildRangesGo_errs_mono :
    ∀ (l : List Str) (b : IPSetBuilder), b.errs = true →
      ∀ b', buildRangesGo b l = .ok b' → b'.errs = true := by
  intro l
  induction l with
  | nil =>
    intro b h b' hb
    simp only [buildRangesGo] at hb
    cases hb
    exact h
  | cons rng rest ih =>
    intro b h b' hb
    simp only [buildRangesGo] at hb
    match hs : splitOnChar '-' rng with
    | [s1, s2] =>
      rw [hs] at hb
      dsimp only at hb
      match hp1 : parseAddr s1, hp2 : parseAddr s2 with
      | some a1, some a2 =>
        rw [hp1, hp2] at hb
        dsimp only at hb
        exact ih (b.addRange (IPRangeFrom a1 a2))
          (addRange_errs_mono b _ h) b' hb
      | some a1, none => rw [hp1, hp2] at hb; simp at hb
      | none, some a2 => rw [hp1, hp2] at hb; simp at hb
      | none, none => rw [hp1, hp2] at hb; simp at hb
    | [] => rw [hs] at hb; simp at hb
    | [s1] => rw [hs] at hb; simp at hb
    | s1 :: s2 :: s3 :: srest => rw [hs] at hb; simp at hb

theorem buildRangesGo_bad_entry (e sa sb : Str) (a1 a2 : Addr)
    (hsplit : splitOnChar '-' e = [sa, sb])
    (hpa : parseAddr sa = some a1) (hpb : parseAddr sb = some a2)
    (hinv : (IPRangeFrom a1 a2).isValid = false) :
    ∀ (l : List Str) (b : IPSetBuilder), e ∈ l →
      ∀ b', buildRangesGo b l = .ok b' → b'.errs = true := by
  intro l
  induction l with
  | nil =>
    intro b hmem
    exact absurd hmem (List.not_mem_nil e)
  | cons rng rest ih =>
    intro b hmem b' hb
    simp only [buildRangesGo] at hb
    rcases List.mem_cons.mp hmem with rfl | hmem2
    · rw [hsplit] at hb
      dsimp only at hb
      rw [hpa, hpb] at hb
      dsimp only at hb
      have herr : ((b.addRange (IPRangeFrom a1 a2)).errs) = true := by
        unfold IPSetBuilder.addRange
        rw [if_neg (by simp [hinv])]
      exact buildRangesGo_errs_mono rest _ herr b' hb
    · match hs : splitOnChar '-' rng with
      | [s1, s2] =>
        rw [hs] at hb
        dsimp only at hb
        match hp1 : parseAddr s1, hp2 : parseAddr s2 with
        | some c1, some c2 =>
          rw [hp1, hp2] at hb
          dsimp only at hb
          exact ih (b.addRange (IPRangeFrom c1 c2)) hmem2 b' hb
        | some c1, none => rw [hp1, hp2] at hb; simp at hb
        | none, some c2 => rw [hp1, hp2] at hb; simp at hb
        | none, none => rw [hp1, hp2] at hb; simp at hb
      | [] => rw [hs] at hb; simp at hb
      | [s1] => rw [hs] at hb; simp at hb
      | s1 :: s2 :: s3 :: srest => rw [hs] at hb; simp at hb

/-- C8: an `A-B` entry of the range declaration whose start exceeds its
end, or whose endpoints lie in different IP families, makes
`buildAddressesFromRange` return an error — the entry is never silently
dropped or partially admitted.  (Such an entry is an invalid
`netipx.IPRange`; the builder records it and `IPSet()` reports it.) -/
theorem c8_bad_range_entry_errors (ipRangeString e sa sb : Str)
    (a1 a2 : Addr) (hmem : e ∈ splitOnChar ',' ipRangeString)
    (hsplit : splitOnChar '-' e = [sa, sb])
    (hpa : parseAddr sa = some a1) (hpb : parseAddr sb = some a2)
    (hbad : a1.is4 ≠ a2.is4 ∨ a2.val < a1.val) :
    ∃ err, buildAddressesFromRange ipRangeString = .error err := by
  have hinv : (IPRangeFrom a1 a2).isValid = false := by
    unfold IPRangeFrom IPRange.isValid
    rcases hbad with hf | hlt
    · have : (a1.is4 == a2.is4) = false := by
        simpa using hf
      simp [this]
    · have : ¬a1.val ≤ a2.val := by omega
      simp [this]
  unfold buildAddressesFromRange
  rw [if_neg (by simp [splitOnChar_ne_nil])]
  match hg : buildRangesGo IPSetBuilder.empty (splitOnChar ',' ipRangeString) with
  | .error err => exact ⟨err, rfl⟩
  | .ok b =>
    have herr := buildRangesGo_bad_entry e sa sb a1 a2 hsplit hpa hpb hinv
      (splitOnChar ',' ipRangeString) IPSetBuilder.empty hmem b hg
    refine ⟨.msg (str "set builder saw invalid input"), ?_⟩
    unfold IPSetBuilder.toIPSet
    dsimp only
    rw [if_pos herr]

/-- Witness for C8: the mis-ordered single range
`192.168.0.12-192.168.0.10`. -/
theorem c8_witness :
    str "192.168.0.12-192.168.0.10" ∈
        splitOnChar ',' (str "192.168.0.12-192.168.0.10") ∧
      splitOnChar '-' (str "192.168.0.12-192.168.0.10") =
        [str "192.168.0.12", str "192.168.0.10"] ∧
      parseAddr (str "192.168.0.12") = some ⟨true, 0xC0A8000C⟩ ∧
      parseAddr (str "192.168.0.10") = some ⟨true, 0xC0A8000A⟩ ∧
      (Addr.mk true 0xC0A8000A).val < (Addr.mk true 0xC0A8000C).val ∧
      ∃ err, buildAddressesFromRange (str "192.168.0.12-192.168.0.10") =
        .error err := by
  refine ⟨by decide, by decide, by decide, by decide, by decide, ?_⟩
  exact c8_bad_range_entry_errors (str "192.168.0.12-192.168.0.10")
    (str "192.168.0.12-192.168.0.10") (str "192.168.0.12")
    (str "192.168.0.10") ⟨true, 0xC0A8000C⟩ ⟨true, 0xC0A8000A⟩
    (by decide) (by decide) (by decide) (by decide) (Or.inr (by decide))


/-! ## Claim C7 -/

/-- With the skip flag on, what `buildHostsFromCidr` keeps of one
canonical prefix: IPv6 whole, a `/32` as its single address, a `/31`
whole, and any wider IPv4 prefix minus its network and broadcast ends. -/
theorem hostsKept_v6 (cfg : Option KubevipLBConfig) (pv pbits : Nat) :
    hostsKept cfg ⟨⟨false, pv⟩, pbits⟩ = [pfxRange ⟨⟨false, pv⟩, pbits⟩] := rfl

theorem hostsKept_v4 (cfg : Option KubevipLBConfig) (pv pbits : Nat) :
    hostsKept cfg ⟨⟨true, pv⟩, pbits⟩ =
      (if pbits = 32 ∧ skipFlag cfg = true then
        [IPRangeFrom ⟨true, pv⟩ ⟨true, pv⟩]
      else if (pfxRange ⟨⟨true, pv⟩, pbits⟩).isValid = true then
        if pbits = 31 then
          [IPRangeFrom (pfxRange ⟨⟨true, pv⟩, pbits⟩).lo
            (pfxRange ⟨⟨true, pv⟩, pbits⟩).hi]
        else if skipFlag cfg = true then
          [IPRangeFrom
            ⟨(pfxRange ⟨⟨true, pv⟩, pbits⟩).lo.is4,
              (pfxRange ⟨⟨true, pv⟩, pbits⟩).lo.val + 1⟩
            ⟨(pfxRange ⟨⟨true, pv⟩, pbits⟩).hi.is4,
              (pfxRange ⟨⟨true, pv⟩, pbits⟩).hi.val - 1⟩]
        else
          [IPRangeFrom (pfxRange ⟨⟨true, pv⟩, pbits⟩).lo
            (pfxRange ⟨⟨true, pv⟩, pbits⟩).hi]
      else []) := rfl

/-- With the skip flag on, what `buildHostsFromCidr` keeps of one
canonical prefix: IPv6 whole, a `/32` as its single address, a `/31`
whole, and any wider IPv4 prefix minus its network and broadcast ends. -/
theorem hostsKept_skip_iff (cfg : Option KubevipLBConfig)
    (hskip : skipFlag cfg = true) (p : Pfx) (a : Addr) (hwfp : p.addr.wf)
    (hbits : p.bits ≤ p.addr.width)
    (hpfx : pfxRange p = ⟨⟨p.addr.is4, p.addr.val⟩,
      ⟨p.addr.is4, p.addr.val + (2 ^ (p.addr.width - p.bits) - 1)⟩⟩)
    (hhiwf : p.addr.val + (2 ^ (p.addr.width - p.bits) - 1) <
      2 ^ p.addr.width) :
    (∃ r ∈ hostsKept cfg p, r.containsA a = true) ↔
      (if p.addr.is4 = false then (pfxRange p).containsA a = true
       else if p.bits = p.addr.width then a = p.addr
       else if p.bits = 31 then (pfxRange p).containsA a = true
       else (pfxRange p).containsA a = true ∧
         a ≠ (pfxRange p).lo ∧ a ≠ (pfxRange p).hi) := by
  obtain ⟨⟨pb, pv⟩, pbits⟩ := p
  obtain ⟨ab, av⟩ := a
  cases pb
  · rw [hostsKept_v6]
    simp
  · have hw32 : (Addr.mk true pv).width = 32 := rfl
    rw [hw32] at hbits hpfx hhiwf
    dsimp only at hbits hpfx hhiwf ⊢
    rw [hostsKept_v4, hw32]
    have hwf32 : pv < 2 ^ 32 := by
      have h2 : pv < 2 ^ (Addr.mk true pv).width := hwfp
      rw [hw32] at h2
      exact h2
    rw [if_neg (by simp : ¬(true = false))]
    by_cases hfull : pbits = 32
    · rw [if_pos ⟨hfull, hskip⟩, if_pos hfull]
      simp only [List.mem_singleton, exists_eq_left]
      unfold IPRangeFrom IPRange.containsA
      simp only [Bool.and_eq_true, beq_iff_eq, decide_eq_true_eq,
        Addr.mk.injEq]
      constructor
      · rintro ⟨⟨h1, h2⟩, h3⟩
        exact ⟨h1.symm, by omega⟩
      · rintro ⟨h1, h2⟩
        exact ⟨⟨h1.symm, by omega⟩, by omega⟩
    · rw [if_neg (fun hc => hfull hc.1), if_neg hfull]
      have hvalid : (pfxRange ⟨⟨true, pv⟩, pbits⟩).isValid = true := by
        rw [hpfx]
        unfold IPRange.isValid
        simp only [Bool.and_eq_true, beq_iff_eq, decide_eq_true_eq]
        refine ⟨⟨⟨trivial, ?_⟩, ?_⟩, by omega⟩
        · show pv < 2 ^ (Addr.mk true pv).width
          rw [hw32]
          exact hwf32
        · show pv + (2 ^ (32 - pbits) - 1) <
            2 ^ (Addr.mk true (pv + (2 ^ (32 - pbits) - 1))).width
          rw [show (Addr.mk true (pv + (2 ^ (32 - pbits) - 1))).width = 32
            from rfl]
          exact hhiwf
      rw [if_pos hvalid]
      by_cases h31 : pbits = 31
      · rw [if_pos h31, if_pos h31]
        simp only [List.mem_singleton, exists_eq_left]
        exact Iff.rfl
      · rw [if_neg h31, if_neg h31, if_pos hskip]
        have hD : 4 ≤ 2 ^ (32 - pbits) := by
          have h2 : 2 ≤ 32 - pbits := by omega
          calc (4 : Nat) = 2 ^ 2 := by norm_num
          _ ≤ 2 ^ (32 - pbits) := Nat.pow_le_pow_right (by norm_num) h2
        rw [hpfx]
        simp only [List.mem_singleton, exists_eq_left]
        unfold IPRangeFrom IPRange.containsA
        simp only [Bool.and_eq_true, beq_iff_eq, decide_eq_true_eq,
          ne_eq, Addr.mk.injEq, not_and]
        constructor
        · rintro ⟨⟨h1, h2⟩, h3⟩
          exact ⟨⟨⟨h1, by omega⟩, by omega⟩,
            fun hab => by omega, fun hab => by omega⟩
        · rintro ⟨⟨⟨h1, h2⟩, h3⟩, hne1, hne2⟩
          have hd1 : av ≠ pv := fun hv => hne1 h1.symm hv
          have hd2 : av ≠ pv + (2 ^ (32 - pbits) - 1) :=
            fun hv => hne2 h1.symm hv
          exact ⟨⟨h1, by omega⟩, by omega⟩

/-- Counterexample to C7 as frozen: with `192.168.0.200/30` and
`192.168.0.200/29` both declared and the skip flag on, the two prefixes
are canonicalized into the single `/29` before the end-skip, so
`192.168.0.203` — the broadcast address of the declared `/30`, whose
length is neither 31 nor 32 — is kept. -/
theorem c7_counterexample :
    splitOnChar ',' (str "192.168.0.200/30,192.168.0.200/29") =
        [str "192.168.0.200/30", str "192.168.0.200/29"] ∧
      parsePfx (str "192.168.0.200/30") = some ⟨⟨true, 0xC0A800C8⟩, 30⟩ ∧
      (pfxRange ⟨⟨true, 0xC0A800C8⟩, 30⟩).hi = ⟨true, 0xC0A800CB⟩ ∧
      (30 ≠ 31 ∧ 30 ≠ 32) ∧
      buildHostsFromCidr (str "192.168.0.200/30,192.168.0.200/29")
          (some ⟨false, true⟩) =
        .ok [⟨⟨true, 0xC0A800C9⟩, ⟨true, 0xC0A800CE⟩⟩] ∧
      IPSet.containsA [⟨⟨true, 0xC0A800C9⟩, ⟨true, 0xC0A800CE⟩⟩]
        ⟨true, 0xC0A800CB⟩ = true := by
  refine ⟨by decide, by decide, by decide, by decide, by decide, by decide⟩

/-- C7 (amended): with `skip-end-ips-in-cidr` set, the per-prefix rule —
IPv6 kept whole, `/32` kept as its single host, `/31` kept whole, any
wider IPv4 prefix kept minus exactly its network and broadcast address —
holds for the prefixes of the *canonicalized* declaration (the netipx
builder merges the declared prefixes first), not for each declared
prefix as frozen (see the counterexample). -/
theorem c7_skip_trims_canonical_prefixes (cidr : Str)
    (cfg : Option KubevipLBConfig) (hskip : skipFlag cfg = true)
    (P H : IPSet) (hp : parseCidrs cidr = .ok P)
    (hh : buildHostsFromCidr cidr cfg = .ok H) (a : Addr) :
    H.containsA a = true ↔
      ∃ p ∈ P.pfxs,
        (if p.addr.is4 = false then (pfxRange p).containsA a = true
         else if p.bits = p.addr.width then a = p.addr
         else if p.bits = 31 then (pfxRange p).containsA a = true
         else (pfxRange p).containsA a = true ∧
           a ≠ (pfxRange p).lo ∧ a ≠ (pfxRange p).hi) := by
  obtain ⟨P2, hp2, hPv, hkv, hHn⟩ := buildHostsFromCidr_ok cidr cfg H hh
  rw [hp] at hp2
  obtain rfl : P = P2 := Except.ok.inj hp2
  have hflatv : ∀ r ∈ P.pfxs.flatMap (hostsKept cfg), r.isValid = true := by
    intro r hr
    obtain ⟨p, hp3, hr2⟩ := List.mem_flatMap.mp hr
    exact hkv p hp3 r hr2
  rw [hHn, normalizeRanges_contains _ hflatv a, List.any_eq_true]
  have hbr : ∀ p ∈ P.pfxs,
      (∃ r ∈ hostsKept cfg p, r.containsA a = true) ↔
        (if p.addr.is4 = false then (pfxRange p).containsA a = true
         else if p.bits = p.addr.width then a = p.addr
         else if p.bits = 31 then (pfxRange p).containsA a = true
         else (pfxRange p).containsA a = true ∧
           a ≠ (pfxRange p).lo ∧ a ≠ (pfxRange p).hi) := by
    intro p hpmem
    obtain ⟨hwfp, hbits, hpfx, hhiwf⟩ := pfxs_props P hPv p hpmem
    exact hostsKept_skip_iff cfg hskip p a hwfp hbits hpfx hhiwf
  constructor
  · rintro ⟨r, hr, hcr⟩
    obtain ⟨p, hpmem, hrk⟩ := List.mem_flatMap.mp hr
    exact ⟨p, hpmem, (hbr p hpmem).mp ⟨r, hrk, hcr⟩⟩
  · rintro ⟨p, hpmem, hcond⟩
    obtain ⟨r, hrk, hcr⟩ := (hbr p hpmem).mpr hcond
    exact ⟨r, List.mem_flatMap.mpr ⟨p, hpmem, hrk⟩, hcr⟩


/-- Witness for C7's amended theorem: a `/30` plus an IPv6 `/127`, skip
flag on, checked at the first kept host `10.0.0.1`. -/
theorem c7_witness :
    skipFlag (some ⟨false, true⟩) = true ∧
      parseCidrs (str "10.0.0.0/30,2001:db8::/127") = .ok [⟨⟨true, 167772160⟩, ⟨true, 167772163⟩⟩, ⟨⟨false, 42540766411282592856903984951653826560⟩, ⟨false, 42540766411282592856903984951653826561⟩⟩] ∧
      buildHostsFromCidr (str "10.0.0.0/30,2001:db8::/127")
          (some ⟨false, true⟩) = .ok [⟨⟨true, 167772161⟩, ⟨true, 167772162⟩⟩, ⟨⟨false, 42540766411282592856903984951653826560⟩, ⟨false, 42540766411282592856903984951653826561⟩⟩] ∧
      (IPSet.containsA [⟨⟨true, 167772161⟩, ⟨true, 167772162⟩⟩, ⟨⟨false, 42540766411282592856903984951653826560⟩, ⟨false, 42540766411282592856903984951653826561⟩⟩] ⟨true, 167772161⟩ = true ↔
        ∃ p ∈ IPSet.pfxs [⟨⟨true, 167772160⟩, ⟨true, 167772163⟩⟩, ⟨⟨false, 42540766411282592856903984951653826560⟩, ⟨false, 42540766411282592856903984951653826561⟩⟩],
          (if p.addr.is4 = false then
            (pfxRange p).containsA ⟨true, 167772161⟩ = true
           else if p.bits = p.addr.width then
            (⟨true, 167772161⟩ : Addr) = p.addr
           else if p.bits = 31 then
            (pfxRange p).containsA ⟨true, 167772161⟩ = true
           else (pfxRange p).containsA ⟨true, 167772161⟩ = true ∧
             (⟨true, 167772161⟩ : Addr) ≠ (pfxRange p).lo ∧
             (⟨true, 167772161⟩ : Addr) ≠ (pfxRange p).hi)) := by
  refine ⟨by decide, by decide, by decide, ?_⟩
  exact c7_skip_trims_canonical_prefixes (str "10.0.0.0/30,2001:db8::/127")
    (some ⟨false, true⟩) (by decide) [⟨⟨true, 167772160⟩, ⟨true, 167772163⟩⟩, ⟨⟨false, 42540766411282592856903984951653826560⟩, ⟨false, 42540766411282592856903984951653826561⟩⟩] [⟨⟨true, 167772161⟩, ⟨true, 167772162⟩⟩, ⟨⟨false, 42540766411282592856903984951653826560⟩, ⟨false, 42540766411282592856903984951653826561⟩⟩] (by decide) (by decide)
    ⟨true, 167772161⟩


/-! ## Claim C3 -/

/-- A pool walk that returns without a pool error has appended exactly
one VIP to the list. -/
theorem discoverFromPool_ok_none (ns pool pref ipv4Pool : Str)
    (inUse : IPSet) (cfg : Option KubevipLBConfig) (vl : List Str)
    (mgr : List IpManager) (vl2 : List Str) (mgr2 : List IpManager)
    (hpool : pool.length ≠ 0)
    (h : discoverFromPool ns pool pref ipv4Pool inUse cfg vl mgr =
      (.ok (none, vl2), mgr2)) :
    ∃ v, vl2 = vl ++ [v] := by
  unfold discoverFromPool at h
  rw [if_neg hpool] at h
  by_cases hpref : pool = ipv4Pool ∧ pref.length > 0
  · rw [if_pos hpref] at h
    have h1 := Except.ok.inj (congrArg Prod.fst h)
    exact ⟨pref, (congrArg Prod.snd h1).symm⟩
  · rw [if_neg hpref] at h
    match hda : discoverAddress ns pool inUse cfg mgr with
    | (.ok vip, mgrx) =>
      rw [hda] at h
      dsimp only at h
      have h1 := Except.ok.inj (congrArg Prod.fst h)
      exact ⟨vip, (congrArg Prod.snd h1).symm⟩
    | (.error (.outOfIPs a b c), mgrx) =>
      rw [hda] at h
      dsimp only at h
      have h1 := Except.ok.inj (congrArg Prod.fst h)
      have h2 := congrArg Prod.fst h1
      simp at h2
    | (.error (.msg m), mgrx) =>
      rw [hda] at h
      dsimp only at h
      have h1 := congrArg Prod.fst h
      simp at h1

/-- C3 (amended): the `RequireDualStack` contract — both pools declared
and one successful allocation from each, the two VIPs joined by a comma
in the order primary (`ipFamilies[0]`) then secondary — holds of
`discoverVIPsDualStack`, which `discoverVIPs` reaches only when the pool
is not the DHCP sentinel `0.0.0.0/32` (for the sentinel, `discoverVIPs`
returns `0.0.0.0` before any dual-stack check: see the counterexample). -/
theorem c3_require_dual_stack (ns ipv4Pool ipv6Pool pref : Str)
    (inUse : IPSet) (cfg : Option KubevipLBConfig) (fams : List IPFamily)
    (mgr : List IpManager) :
    ((ipv4Pool.length = 0 ∨ ipv6Pool.length = 0) →
      discoverVIPsDualStack ns ipv4Pool ipv6Pool pref inUse cfg
          .RequireDualStack fams mgr =
        (.error (.msg (str "service requires dual-stack, but the configuration does not have both IPv4 and IPv6 pools listed for the namespace")), mgr)) ∧
    (ipv4Pool.length ≠ 0 → ipv6Pool.length ≠ 0 →
      ∀ ep vips1 mgr1 es vips2 mgr2,
        discoverFromPool ns
            (if fams.head? = some .v6 then ipv6Pool else ipv4Pool) pref
            ipv4Pool inUse cfg [] mgr = (.ok (ep, vips1), mgr1) →
        discoverFromPool ns
            (if fams.head? = some .v6 then ipv4Pool else ipv6Pool) pref
            ipv4Pool inUse cfg vips1 mgr1 = (.ok (es, vips2), mgr2) →
        discoverVIPsDualStack ns ipv4Pool ipv6Pool pref inUse cfg
            .RequireDualStack fams mgr =
          (if ep.isSome ∨ es.isSome then
            (.error (.msg (str "could not allocate required IP addresses for RequireDualStack service")), mgr2)
          else (.ok (interpose ',' vips2), mgr2)) ∧
        (ep = none → es = none →
          ∃ v1 v2, vips1 = [v1] ∧ vips2 = [v1, v2] ∧
            interpose ',' vips2 = v1 ++ ',' :: v2)) := by
  constructor
  · intro hlen
    unfold discoverVIPsDualStack
    rw [if_pos ⟨rfl, hlen⟩]
  · intro h4 h6 ep vips1 mgr1 es vips2 mgr2 hprim hsec
    have hplen : (if fams.head? = some .v6 then ipv6Pool
        else ipv4Pool).length > 0 := by
      split
      · exact Nat.pos_of_ne_zero h6
      · exact Nat.pos_of_ne_zero h4
    have hslen : (if fams.head? = some .v6 then ipv4Pool
        else ipv6Pool).length > 0 := by
      split
      · exact Nat.pos_of_ne_zero h4
      · exact Nat.pos_of_ne_zero h6
    constructor
    · unfold discoverVIPsDualStack
      rw [if_neg (fun hc => by
        rcases hc.2 with h | h
        · exact h4 h
        · exact h6 h)]
      dsimp only
      rw [if_pos hplen, hprim]
      dsimp only
      rw [if_pos hslen, hsec]
      dsimp only
      rfl
    · intro hep hes
      subst hep
      subst hes
      obtain ⟨v1, hv1⟩ := discoverFromPool_ok_none ns _ pref ipv4Pool inUse
        cfg [] mgr vips1 mgr1 (by omega) hprim
      obtain ⟨v2, hv2⟩ := discoverFromPool_ok_none ns _ pref ipv4Pool inUse
        cfg vips1 mgr1 vips2 mgr2 (by omega) hsec
      rw [List.nil_append] at hv1
      subst hv1
      subst hv2
      exact ⟨v1, v2, rfl, rfl, rfl⟩


/-- Counterexample to C3 as frozen: the DHCP sentinel pool `0.0.0.0/32`
has no IPv6 side at all, yet a `RequireDualStack` service gets the single
address `0.0.0.0` — no error and no comma-joined pair — because
`discoverVIPs` short-circuits on the sentinel before any dual-stack
check. -/
theorem c3_counterexample :
    SplitCIDRsByIPFamily (str "0.0.0.0/32") = .ok (str "0.0.0.0/32", []) ∧
      discoverVIPs (str "ns") (str "0.0.0.0/32") [] [] none
        (some .RequireDualStack) [] [] = (.ok (str "0.0.0.0"), []) ∧
      splitOnChar ',' (str "0.0.0.0") = [str "0.0.0.0"] := by
  refine ⟨by decide, by decide, by decide⟩

/-- Witness for C3's amended theorem: a `/30` IPv4 pool and a `/127`
IPv6 pool, allocated in the default order. -/
theorem c3_witness :
    ((str "10.0.0.0/30").length ≠ 0 ∧ (str "2001:db8::/127").length ≠ 0) ∧
    discoverFromPool (str "ns") (str "10.0.0.0/30") [] (str "10.0.0.0/30")
        [] none [] [] = (.ok (none, [str "10.0.0.1"]), [⟨str "ns", str "10.0.0.0/30", [], [⟨⟨true, 167772160⟩, ⟨true, 167772163⟩⟩]⟩]) ∧
    discoverFromPool (str "ns") (str "2001:db8::/127") []
        (str "10.0.0.0/30") [] none [str "10.0.0.1"] [⟨str "ns", str "10.0.0.0/30", [], [⟨⟨true, 167772160⟩, ⟨true, 167772163⟩⟩]⟩] =
      (.ok (none, [str "10.0.0.1", str "2001:db8::"]), [⟨str "ns", str "2001:db8::/127", [], [⟨⟨false, 42540766411282592856903984951653826560⟩, ⟨false, 42540766411282592856903984951653826561⟩⟩]⟩]) ∧
    discoverVIPsDualStack (str "ns") (str "10.0.0.0/30")
        (str "2001:db8::/127") [] [] none .RequireDualStack [] [] =
      (if (none : Option GoErr).isSome ∨ (none : Option GoErr).isSome then
        (.error (.msg (str "could not allocate required IP addresses for RequireDualStack service")), [⟨str "ns", str "2001:db8::/127", [], [⟨⟨false, 42540766411282592856903984951653826560⟩, ⟨false, 42540766411282592856903984951653826561⟩⟩]⟩])
      else (.ok (interpose ',' [str "10.0.0.1", str "2001:db8::"]), [⟨str "ns", str "2001:db8::/127", [], [⟨⟨false, 42540766411282592856903984951653826560⟩, ⟨false, 42540766411282592856903984951653826561⟩⟩]⟩])) ∧
    ∃ v1 v2, [str "10.0.0.1"] = [v1] ∧
      [str "10.0.0.1", str "2001:db8::"] = [v1, v2] ∧
      interpose ',' [str "10.0.0.1", str "2001:db8::"] = v1 ++ ',' :: v2 := by
  have h := (c3_require_dual_stack (str "ns") (str "10.0.0.0/30")
      (str "2001:db8::/127") [] [] none [] []).2 (by decide) (by decide)
    none [str "10.0.0.1"] [⟨str "ns", str "10.0.0.0/30", [], [⟨⟨true, 167772160⟩, ⟨true, 167772163⟩⟩]⟩]
    none [str "10.0.0.1", str "2001:db8::"] [⟨str "ns", str "2001:db8::/127", [], [⟨⟨false, 42540766411282592856903984951653826560⟩, ⟨false, 42540766411282592856903984951653826561⟩⟩]⟩]
    (by decide) (by decide)
  exact ⟨⟨by decide, by decide⟩, by decide, by decide, h.1, h.2 rfl rfl⟩


/-! ## Claim C1: the allocation membership chain -/

theorem parseBits_natToChars (n : Nat) : parseBits (natToChars n) = some n := by
  unfold parseBits
  rw [if_neg (natToChars_ne_nil n)]
  by_cases h0 : n = 0
  · subst h0
    rw [if_neg (by decide)]
    decide
  · rw [if_neg (fun hc => natToChars_head_ne_zero h0 '0' hc.1 rfl)]
    exact decValue_natToChars n

theorem natToChars_no_slash (n : Nat) : '/' ∉ natToChars n := by
  intro hc
  have h := natToChars_digits n _ hc
  exact absurd h (by decide)

theorem natToChars_no_comma (n : Nat) : ',' ∉ natToChars n := by
  intro hc
  have h := natToChars_digits n _ hc
  exact absurd h (by decide)

/-- Parsing inverts prefix rendering. -/
theorem parsePfx_render (p : Pfx) (hwf : p.addr.wf)
    (hbits : p.bits ≤ p.addr.width) : parsePfx p.render = some p := by
  unfold parsePfx Pfx.render
  rw [splitOnChar_append_cons '/' _ _ addrRender_sep_free.2.1,
    splitOnChar_no_sep '/' _ (natToChars_no_slash p.bits)]
  dsimp only
  rw [parseAddr_render hwf, parseBits_natToChars]
  dsimp only
  rw [if_pos hbits]

theorem pfxRender_no_comma (p : Pfx) : ',' ∉ p.render := by
  unfold Pfx.render
  intro hc
  rcases List.mem_append.mp hc with h | h
  · exact addrRender_sep_free.1 h
  · rcases List.mem_cons.mp h with h2 | h2
    · exact absurd h2 (by decide)
    · exact natToChars_no_comma p.bits h2

theorem pfxRender_has_slash (p : Pfx) : containsChar p.render '/' = true := by
  rw [containsChar_iff]
  unfold Pfx.render
  exact List.mem_append.mpr (Or.inr (List.mem_cons_self _ _))

theorem mem_interpose_of_mem {c x : Char} {p : Str} :
    ∀ {ps : List Str}, p ∈ ps → x ∈ p → x ∈ interpose c ps := by
  intro ps
  induction ps with
  | nil => intro h; exact absurd h (List.not_mem_nil p)
  | cons q qs ih =>
    intro hp hx
    cases qs with
    | nil =>
      rcases List.mem_cons.mp hp with rfl | h2
      · exact hx
      · exact absurd h2 (List.not_mem_nil p)
    | cons q2 qs2 =>
      simp only [interpose]
      rcases List.mem_cons.mp hp with rfl | h2
      · exact List.mem_append.mpr (Or.inl hx)
      · exact List.mem_append.mpr
          (Or.inr (List.mem_cons_of_mem _ (ih h2 hx)))

theorem addRange_fold_errs_eq :
    ∀ (rs : List IPRange) (b : IPSetBuilder),
      (∀ r ∈ rs, r.isValid = true) →
      (rs.foldl IPSetBuilder.addRange b).errs = b.errs := by
  intro rs
  induction rs with
  | nil => intro b _; rfl
  | cons r rest ih =>
    intro b hv
    rw [List.foldl_cons,
      ih _ (fun q hq => hv q (List.mem_cons_of_mem _ hq))]
    unfold IPSetBuilder.addRange
    rw [if_pos (hv r (List.mem_cons_self _ _))]

/-- A well-formed canonical prefix has a valid masked range. -/
theorem canonical_pfxRange_valid (p : Pfx) (hwf : p.addr.wf)
    (hpfx : pfxRange p = ⟨⟨p.addr.is4, p.addr.val⟩,
      ⟨p.addr.is4, p.addr.val + (2 ^ (p.addr.width - p.bits) - 1)⟩⟩)
    (hhiwf : p.addr.val + (2 ^ (p.addr.width - p.bits) - 1) <
      2 ^ p.addr.width) : (pfxRange p).isValid = true := by
  rw [hpfx]
  unfold IPRange.isValid
  simp only [Bool.and_eq_true, beq_iff_eq, decide_eq_true_eq]
  refine ⟨⟨⟨trivial, ?_⟩, ?_⟩, by omega⟩
  · exact hwf
  · exact hhiwf

/-- Re-parsing a comma-joined rendering of canonical prefixes rebuilds
exactly their normalized union. -/
theorem parseCidrs_of_renders (pfl : List Pfx) (hne : pfl ≠ [])
    (hwfb : ∀ p ∈ pfl, p.addr.wf ∧ p.bits ≤ p.addr.width)
    (hval : ∀ p ∈ pfl, (pfxRange p).isValid = true) :
    parseCidrs (interpose ',' (pfl.map Pfx.render)) =
      .ok (normalizeRanges (pfl.map pfxRange)) := by
  unfold parseCidrs
  rw [splitOnChar_interpose ',' _ (by simp [hne]) (by
    intro q hq
    obtain ⟨p, hp, rfl⟩ := List.mem_map.mp hq
    exact pfxRender_no_comma p)]
  rw [if_neg (by simp [hne])]
  rw [mapOption_map_roundtrip (fun p hp =>
    parsePfx_render p (hwfb p hp).1 (hwfb p hp).2)]
  dsimp only
  rw [foldl_addPfx_eq]
  unfold IPSetBuilder.toIPSet
  rw [if_neg (by
    rw [addRange_fold_errs_eq _ _ (by
      intro q hq
      obtain ⟨p, hp, rfl⟩ := List.mem_map.mp hq
      exact hval p hp)]
    simp [IPSetBuilder.empty])]
  rw [addRange_fold_ins _ _ (by
    intro q hq
    obtain ⟨p, hp, rfl⟩ := List.mem_map.mp hq
    exact hval p hp)]
  simp [IPSetBuilder.empty]

/-- Whatever the ascending scan returns lies in its window. -/
theorem scanAsc_bounds (fam : Bool) (pred : Addr → Bool) :
    ∀ (fuel v : Nat) (a : Addr), scanAsc fam pred v fuel = some a →
      a.is4 = fam ∧ v ≤ a.val ∧ a.val ≤ v + fuel := by
  intro fuel
  induction fuel with
  | zero =>
    intro v a h
    simp only [scanAsc] at h
    split at h
    · cases h
      exact ⟨rfl, Nat.le_refl v, by dsimp only; omega⟩
    · cases h
  | succ fuel ih =>
    intro v a h
    simp only [scanAsc] at h
    split at h
    · cases h
      exact ⟨rfl, Nat.le_refl v, by dsimp only; omega⟩
    · obtain ⟨h1, h2, h3⟩ := ih (v + 1) a h
      exact ⟨h1, by omega, by omega⟩

/-- Whatever the descending scan returns lies in its window. -/
theorem scanDesc_bounds (fam : Bool) (pred : Addr → Bool) :
    ∀ (fuel v : Nat) (a : Addr), scanDesc fam pred v fuel = some a →
      a.is4 = fam ∧ v - fuel ≤ a.val ∧ a.val ≤ v := by
  intro fuel
  induction fuel with
  | zero =>
    intro v a h
    simp only [scanDesc] at h
    split at h
    · cases h
      exact ⟨rfl, by dsimp only; omega, Nat.le_refl v⟩
    · cases h
  | succ fuel ih =>
    intro v a h
    simp only [scanDesc] at h
    split at h
    · cases h
      exact ⟨rfl, by dsimp only; omega, Nat.le_refl v⟩
    · obtain ⟨h1, h2, h3⟩ := ih (v - 1) a h
      exact ⟨h1, by omega, by omega⟩

/-- A found free address is a member of the pool set. -/
theorem findFreeAddress_mem (pool inUse : IPSet)
    (cfg : Option KubevipLBConfig) (addr : Addr)
    (hv : ∀ r ∈ pool, r.isValid = true)
    (h : FindFreeAddress pool inUse cfg = some addr) :
    pool.containsA addr = true := by
  unfold FindFreeAddress at h
  unfold IPSet.containsA
  rw [List.any_eq_true]
  split at h
  · obtain ⟨r, hr, hscan⟩ := List.exists_of_findSome?_eq_some h
    have hrp : r ∈ pool := List.mem_reverse.mp hr
    obtain ⟨hfr, hlw, hhw, hlh⟩ := isValid_parts (hv r hrp)
    obtain ⟨h1, h2, h3⟩ := scanDesc_bounds _ _ _ _ _ hscan
    refine ⟨r, hrp, ?_⟩
    unfold IPRange.containsA
    simp only [Bool.and_eq_true, beq_iff_eq, decide_eq_true_eq]
    exact ⟨⟨by rw [hfr, h1], by omega⟩, h3⟩
  · obtain ⟨r, hr, hscan⟩ := List.exists_of_findSome?_eq_some h
    obtain ⟨hfr, hlw, hhw, hlh⟩ := isValid_parts (hv r hr)
    obtain ⟨h1, h2, h3⟩ := scanAsc_bounds _ _ _ _ _ hscan
    refine ⟨r, hr, ?_⟩
    unfold IPRange.containsA
    simp only [Bool.and_eq_true, beq_iff_eq, decide_eq_true_eq]
    exact ⟨⟨h1.symm, h2⟩, by omega⟩

theorem findFreeResult_ok (ns pool : Str) (isCidr : Bool)
    (poolSet inUse : IPSet) (cfg : Option KubevipLBConfig) (s : Str)
    (h : findFreeResult ns pool isCidr poolSet inUse cfg = .ok s) :
    ∃ addr, FindFreeAddress poolSet inUse cfg = some addr ∧
      s = addr.render := by
  unfold findFreeResult at h
  match hf : FindFreeAddress poolSet inUse cfg with
  | some addr =>
    rw [hf] at h
    exact ⟨addr, rfl, (Except.ok.inj h).symm⟩
  | none =>
    rw [hf] at h
    exact absurd h (by simp)

/-- Each kept range of a prefix sits inside the prefix's masked range. -/
theorem hostsKept_subset (cfg : Option KubevipLBConfig) (p : Pfx)
    (r : IPRange) (a : Addr)
    (hpfx : pfxRange p = ⟨⟨p.addr.is4, p.addr.val⟩,
      ⟨p.addr.is4, p.addr.val + (2 ^ (p.addr.width - p.bits) - 1)⟩⟩)
    (hr : r ∈ hostsKept cfg p) (hc : r.containsA a = true) :
    (pfxRange p).containsA a = true := by
  obtain ⟨⟨pb, pv⟩, pbits⟩ := p
  obtain ⟨ab, av⟩ := a
  dsimp only at hpfx ⊢
  cases pb
  · rw [hostsKept_v6] at hr
    simp only [List.mem_singleton] at hr
    subst hr
    exact hc
  · rw [hostsKept_v4] at hr
    by_cases h2 : pbits = 32 ∧ skipFlag cfg = true
    · rw [if_pos h2] at hr
      simp only [List.mem_singleton] at hr
      subst hr
      unfold IPRangeFrom IPRange.containsA at hc
      simp only [Bool.and_eq_true, beq_iff_eq, decide_eq_true_eq] at hc
      rw [hpfx]
      unfold IPRange.containsA
      simp only [Bool.and_eq_true, beq_iff_eq, decide_eq_true_eq]
      exact ⟨⟨hc.1.1, hc.1.2⟩, by omega⟩
    · rw [if_neg h2] at hr
      by_cases h3 : (pfxRange ⟨⟨true, pv⟩, pbits⟩).isValid = true
      · rw [if_pos h3] at hr
        by_cases h31 : pbits = 31
        · rw [if_pos h31] at hr
          simp only [List.mem_singleton] at hr
          subst hr
          exact hc
        · rw [if_neg h31] at hr
          by_cases h5 : skipFlag cfg = true
          · rw [if_pos h5] at hr
            simp only [List.mem_singleton] at hr
            subst hr
            rw [hpfx] at hc ⊢
            unfold IPRangeFrom IPRange.containsA at hc
            simp only [Bool.and_eq_true, beq_iff_eq,
              decide_eq_true_eq] at hc
            unfold IPRange.containsA
            simp only [Bool.and_eq_true, beq_iff_eq, decide_eq_true_eq]
            exact ⟨⟨hc.1.1, by omega⟩, by omega⟩
          · rw [if_neg h5] at hr
            simp only [List.mem_singleton] at hr
            subst hr
            exact hc
      · rw [if_neg h3] at hr
        exact absurd hr (List.not_mem_nil r)

/-- Everything a successful `buildHostsFromCidr` keeps lies in the set
declared by the cidr string, and the host set is valid. -/
theorem buildHosts_subset (cidr : Str) (cfg0 : Option KubevipLBConfig)
    (H : IPSet) (h : buildHostsFromCidr cidr cfg0 = .ok H) :
    (∀ r ∈ H, r.isValid = true) ∧
      ∃ P, parseCidrs cidr = .ok P ∧
        ∀ a, H.containsA a = true → P.containsA a = true := by
  obtain ⟨P, hpc, hPv, hkv, hHn⟩ := buildHostsFromCidr_ok cidr cfg0 H h
  have hflatv : ∀ r ∈ P.pfxs.flatMap (hostsKept cfg0), r.isValid = true := by
    intro r hr
    obtain ⟨p, hp3, hr2⟩ := List.mem_flatMap.mp hr
    exact hkv p hp3 r hr2
  constructor
  · rw [hHn]
    exact normalizeRanges_valid _ hflatv
  · refine ⟨P, hpc, ?_⟩
    intro a ha
    rw [hHn, normalizeRanges_contains _ hflatv a, List.any_eq_true] at ha
    obtain ⟨r, hr, hcr⟩ := ha
    obtain ⟨p, hp, hrk⟩ := List.mem_flatMap.mp hr
    obtain ⟨hwfp, hbitsp, hpfxp, hhiwfp⟩ := pfxs_props P hPv p hp
    have hblock := hostsKept_subset cfg0 p r a hpfxp hrk hcr
    rw [← pfxs_contains P hPv a, List.any_eq_true]
    exact ⟨p, hp, hblock⟩


theorem parseCidrs_valid (pool : Str) (P : IPSet)
    (h : parseCidrs pool = .ok P) : ∀ r ∈ P, r.isValid = true := by
  obtain ⟨ps, hmo, hpv, hPn⟩ := parseCidrs_ok pool P h
  rw [hPn]
  refine normalizeRanges_valid _ ?_
  intro q hq
  obtain ⟨p, hp, rfl⟩ := List.mem_map.mp hq
  exact hpv p hp

/-- Coherence of the allocator registry on its cidr side: every entry
with a recorded cidr string carries a pool that `buildHostsFromCidr`
built from that cidr (under some flag settings — C10 shows the flags are
not part of the key). -/
def CidrCoherent (mgr : List IpManager) : Prop :=
  ∀ e ∈ mgr, e.cidr ≠ [] →
    ∃ cfg0, buildHostsFromCidr e.cidr cfg0 = .ok e.poolIPSet

/-- Coherence of the allocator registry on its range side: every entry
with a recorded range string carries the pool
`buildAddressesFromRange` builds from it. -/
def RangeCoherent (mgr : List IpManager) : Prop :=
  ∀ e ∈ mgr, e.ipRange ≠ [] →
    buildAddressesFromRange e.ipRange = .ok e.poolIPSet

/-- The address set a pool declaration describes, dispatched the way
`discoverVIPs` and `discoverAddress` dispatch it: prefixes when the
string has a slash, `from-to` ranges otherwise. -/
def declaredPoolSet (pool : Str) : Except GoErr IPSet :=
  if containsChar pool '/' then parseCidrs pool
  else buildAddressesFromRange pool

/-- The namespace walk of the cidr allocator only hands out rendered
members of the declared pool, provided every cached pool was built from
its recorded cidr. -/
theorem famcGo_mem (ns cidr : Str) (inUse : IPSet)
    (cfg : Option KubevipLBConfig) (hcne : cidr ≠ []) :
    ∀ (mgr : List IpManager) (s : Str) (mgr' : List IpManager),
      CidrCoherent mgr →
      famcGo ns cidr inUse cfg mgr = some (.ok s, mgr') →
      ∃ addr P, parseCidrs cidr = .ok P ∧ P.containsA addr = true ∧
        s = addr.render := by
  intro mgr
  induction mgr with
  | nil =>
    intro s mgr' _ h
    simp [famcGo] at h
  | cons e rest ih =>
    intro s mgr' hco h
    simp only [famcGo] at h
    by_cases hns : e.ns = ns
    · rw [if_pos hns] at h
      by_cases hcd : e.cidr ≠ cidr
      · rw [if_pos hcd] at h
        match hb : buildHostsFromCidr cidr cfg with
        | .error err =>
          rw [hb] at h
          dsimp only at h
          have h1 := congrArg Prod.fst (Option.some.inj h)
          simp at h1
        | .ok pool =>
          rw [hb] at h
          dsimp only at h
          have h1 : findFreeResult ns cidr true pool inUse cfg = .ok s :=
            congrArg Prod.fst (Option.some.inj h)
          obtain ⟨addr, hf, hrend⟩ := findFreeResult_ok _ _ _ _ _ _ _ h1
          obtain ⟨hvalid, P, hpc, hsub⟩ := buildHosts_subset cidr cfg pool hb
          exact ⟨addr, P, hpc,
            hsub addr (findFreeAddress_mem pool inUse cfg addr hvalid hf),
            hrend⟩
      · rw [if_neg hcd] at h
        have hcd2 : e.cidr = cidr := not_not.mp hcd
        obtain ⟨cfg0, hb⟩ := hco e (List.mem_cons_self _ _)
          (by rw [hcd2]; exact hcne)
        rw [hcd2] at hb
        have h1 : findFreeResult ns cidr true e.poolIPSet inUse cfg =
            .ok s := congrArg Prod.fst (Option.some.inj h)
        obtain ⟨addr, hf, hrend⟩ := findFreeResult_ok _ _ _ _ _ _ _ h1
        obtain ⟨hvalid, P, hpc, hsub⟩ :=
          buildHosts_subset cidr cfg0 e.poolIPSet hb
        exact ⟨addr, P, hpc,
          hsub addr
            (findFreeAddress_mem e.poolIPSet inUse cfg addr hvalid hf),
          hrend⟩
    · rw [if_neg hns] at h
      match hrec : famcGo ns cidr inUse cfg rest with
      | none =>
        rw [hrec] at h
        simp at h
      | some (res, l) =>
        rw [hrec] at h
        dsimp only [Option.map] at h
        have h2 := Option.some.inj h
        rw [Prod.mk.injEq] at h2
        exact ih s l (fun x hx => hco x (List.mem_cons_of_mem _ hx))
          (by rw [hrec, h2.1])

theorem fahc_mem (ns cidr : Str) (inUse : IPSet)
    (cfg : Option KubevipLBConfig) (mgr mgr' : List IpManager) (s : Str)
    (hcne : cidr ≠ []) (hco : CidrCoherent mgr)
    (h : FindAvailableHostFromCidr ns cidr inUse cfg mgr = (.ok s, mgr')) :
    ∃ addr P, parseCidrs cidr = .ok P ∧ P.containsA addr = true ∧
      s = addr.render := by
  unfold FindAvailableHostFromCidr at h
  match hrec : famcGo ns cidr inUse cfg mgr with
  | some res =>
    rw [hrec] at h
    dsimp only at h
    exact famcGo_mem ns cidr inUse cfg hcne mgr s mgr' hco (by rw [hrec, h])
  | none =>
    rw [hrec] at h
    dsimp only at h
    match hb : buildHostsFromCidr cidr cfg with
    | .error e2 =>
      rw [hb] at h
      dsimp only at h
      have h1 := congrArg Prod.fst h
      simp at h1
    | .ok pool =>
      rw [hb] at h
      dsimp only at h
      have h1 : findFreeResult ns cidr true pool inUse cfg = .ok s :=
        congrArg Prod.fst h
      obtain ⟨addr, hf, hrend⟩ := findFreeResult_ok _ _ _ _ _ _ _ h1
      obtain ⟨hvalid, P, hpc, hsub⟩ := buildHosts_subset cidr cfg pool hb
      exact ⟨addr, P, hpc,
        hsub addr (findFreeAddress_mem pool inUse cfg addr hvalid hf),
        hrend⟩

theorem discoverAddress_mem (ns subpool : Str) (inUse : IPSet)
    (cfg : Option KubevipLBConfig) (mgr mgr' : List IpManager) (s : Str)
    (hco : CidrCoherent mgr)
    (hslash : containsChar subpool '/' = true)
    (h : discoverAddress ns subpool inUse cfg mgr = (.ok s, mgr')) :
    ∃ addr P, parseCidrs subpool = .ok P ∧ P.containsA addr = true ∧
      s = addr.render := by
  unfold discoverAddress at h
  by_cases hsent : subpool = str "0.0.0.0/32"
  · rw [if_pos hsent] at h
    have h1 : str "0.0.0.0" = s := Except.ok.inj (congrArg Prod.fst h)
    subst hsent
    exact ⟨⟨true, 0⟩, [⟨⟨true, 0⟩, ⟨true, 0⟩⟩], by decide, by decide,
      by rw [← h1]; decide⟩
  · rw [if_neg hsent, if_pos hslash] at h
    have hcne : subpool ≠ [] := by
      intro he
      rw [he] at hslash
      simp [containsChar] at hslash
    exact fahc_mem ns subpool inUse cfg mgr mgr' s hcne hco h

theorem interpose_renders_has_slash (fl : List Pfx)
    (hne : fl ≠ []) :
    containsChar (interpose ',' (fl.map Pfx.render)) '/' = true := by
  match fl, hne with
  | p :: fs, _ =>
    rw [containsChar_iff]
    exact mem_interpose_of_mem
      (List.mem_map_of_mem Pfx.render (List.mem_cons_self p fs))
      (containsChar_iff.mp (pfxRender_has_slash p))

theorem parseCidrs_bucket (P : IPSet) (hv : ∀ r ∈ P, r.isValid = true)
    (pred : Pfx → Bool) (hne : P.pfxs.filter pred ≠ []) :
    parseCidrs (interpose ',' ((P.pfxs.filter pred).map Pfx.render)) =
      .ok (normalizeRanges ((P.pfxs.filter pred).map pfxRange)) := by
  refine parseCidrs_of_renders _ hne ?_ ?_
  · intro p hp
    obtain ⟨hw, hb, hpf, hhi⟩ :=
      pfxs_props P hv p (List.mem_of_mem_filter hp)
    exact ⟨hw, hb⟩
  · intro p hp
    obtain ⟨hw, hb, hpf, hhi⟩ :=
      pfxs_props P hv p (List.mem_of_mem_filter hp)
    exact canonical_pfxRange_valid p hw hpf hhi

theorem filtered_renders_member (P : IPSet)
    (hv : ∀ r ∈ P, r.isValid = true) (pred : Pfx → Bool) (a : Addr)
    (h : IPSet.containsA
      (normalizeRanges ((P.pfxs.filter pred).map pfxRange)) a = true) :
    P.containsA a = true := by
  have hvv : ∀ q ∈ (P.pfxs.filter pred).map pfxRange, q.isValid = true := by
    intro q hq
    obtain ⟨p, hp, rfl⟩ := List.mem_map.mp hq
    obtain ⟨hw, hb, hpf, hhi⟩ :=
      pfxs_props P hv p (List.mem_of_mem_filter hp)
    exact canonical_pfxRange_valid p hw hpf hhi
  rw [normalizeRanges_contains _ hvv a, List.any_eq_true] at h
  obtain ⟨q, hq, hcq⟩ := h
  obtain ⟨p, hp, rfl⟩ := List.mem_map.mp hq
  rw [← pfxs_contains P hv a, List.any_eq_true]
  exact ⟨p, List.mem_of_mem_filter hp, hcq⟩

/-- Allocating from a re-rendered family bucket only returns rendered
members of the canonical pool. -/
theorem bucket_alloc_mem (ns : Str) (inUse : IPSet)
    (cfg : Option KubevipLBConfig) (mgr mgr' : List IpManager) (vips : Str)
    (P : IPSet) (hv : ∀ r ∈ P, r.isValid = true)
    (hco : CidrCoherent mgr) (pred : Pfx → Bool)
    (hne : interpose ',' ((P.pfxs.filter pred).map Pfx.render) ≠ [])
    (h : discoverAddress ns
        (interpose ',' ((P.pfxs.filter pred).map Pfx.render)) inUse cfg
        mgr = (.ok vips, mgr')) :
    ∃ addr, P.containsA addr = true ∧ vips = addr.render := by
  have hfl : P.pfxs.filter pred ≠ [] := by
    intro hl
    rw [hl] at hne
    exact hne rfl
  obtain ⟨addr, P4, hpc4, hmem4, hrend⟩ := discoverAddress_mem ns _ inUse
    cfg mgr mgr' vips hco (interpose_renders_has_slash _ hfl) h
  rw [parseCidrs_bucket P hv pred hfl] at hpc4
  obtain rfl := Except.ok.inj hpc4
  exact ⟨addr, filtered_renders_member P hv pred addr hmem4, hrend⟩


/-- The single-stack allocation either returns the preferred shared VIP
verbatim or a rendered member of the canonical pool. -/
theorem singleStack_mem (ns pref : Str) (inUse : IPSet)
    (cfg : Option KubevipLBConfig) (fams : List IPFamily)
    (mgr mgr' : List IpManager) (vips : Str) (P : IPSet)
    (hv : ∀ r ∈ P, r.isValid = true) (hco : CidrCoherent mgr)
    (h : discoverVIPsSingleStack ns
        (interpose ',' ((P.pfxs.filter (·.addr.is4)).map Pfx.render))
        (interpose ',' ((P.pfxs.filter (!·.addr.is4)).map Pfx.render))
        pref inUse cfg fams mgr = (.ok vips, mgr')) :
    vips = pref ∨ ∃ addr, P.containsA addr = true ∧ vips = addr.render := by
  unfold discoverVIPsSingleStack at h
  dsimp only at h
  generalize hip : (if fams = [] then
      (if interpose ',' ((P.pfxs.filter (·.addr.is4)).map Pfx.render) = []
        then interpose ',' ((P.pfxs.filter (!·.addr.is4)).map Pfx.render)
        else interpose ',' ((P.pfxs.filter (·.addr.is4)).map Pfx.render))
    else if fams.head? = some .v6 then
      interpose ',' ((P.pfxs.filter (!·.addr.is4)).map Pfx.render)
    else interpose ',' ((P.pfxs.filter (·.addr.is4)).map Pfx.render)) =
      ipPool at h
  have hcase :
      ipPool = interpose ',' ((P.pfxs.filter (·.addr.is4)).map Pfx.render) ∨
      ipPool =
        interpose ',' ((P.pfxs.filter (!·.addr.is4)).map Pfx.render) := by
    rw [← hip]
    split
    · split
      · exact Or.inr rfl
      · exact Or.inl rfl
    · split
      · exact Or.inr rfl
      · exact Or.inl rfl
  by_cases hnil : ipPool = []
  · rw [if_pos hnil] at h
    have h1 := congrArg Prod.fst h
    simp at h1
  · rw [if_neg hnil] at h
    by_cases hpref : ipPool =
        interpose ',' ((P.pfxs.filter (·.addr.is4)).map Pfx.render) ∧
        pref.length > 0
    · rw [if_pos hpref] at h
      left
      exact (Except.ok.inj (congrArg Prod.fst h)).symm
    · rw [if_neg hpref] at h
      right
      rcases hcase with hc | hc
      · subst hc
        exact bucket_alloc_mem ns inUse cfg mgr mgr' vips P hv hco
          (·.addr.is4) hnil h
      · subst hc
        exact bucket_alloc_mem ns inUse cfg mgr mgr' vips P hv hco
          (!·.addr.is4) hnil h

/-! ## Coherence is preserved by the cidr allocator -/

theorem famcGo_cidr_coherent (ns cidr : Str) (inUse : IPSet)
    (cfg : Option KubevipLBConfig) :
    ∀ (mgr : List IpManager) (res : Except GoErr Str)
      (mgr' : List IpManager), CidrCoherent mgr →
      famcGo ns cidr inUse cfg mgr = some (res, mgr') →
      CidrCoherent mgr' := by
  intro mgr
  induction mgr with
  | nil =>
    intro res mgr' _ h
    simp [famcGo] at h
  | cons e rest ih =>
    intro res mgr' hco h
    have hcoe := hco e (List.mem_cons_self _ _)
    have hcorest : CidrCoherent rest :=
      fun x hx => hco x (List.mem_cons_of_mem _ hx)
    simp only [famcGo] at h
    by_cases hns : e.ns = ns
    · rw [if_pos hns] at h
      by_cases hcd : e.cidr ≠ cidr
      · rw [if_pos hcd] at h
        match hb : buildHostsFromCidr cidr cfg with
        | .error err =>
          rw [hb] at h
          dsimp only at h
          have h2 := Option.some.inj h
          rw [Prod.mk.injEq] at h2
          rw [← h2.2]
          exact hco
        | .ok pool =>
          rw [hb] at h
          dsimp only at h
          have h2 := Option.some.inj h
          rw [Prod.mk.injEq] at h2
          rw [← h2.2]
          intro x hx
          rcases List.mem_cons.mp hx with rfl | hx2
          · intro _
            exact ⟨cfg, hb⟩
          · exact hcorest x hx2
      · rw [if_neg hcd] at h
        have h2 := Option.some.inj h
        rw [Prod.mk.injEq] at h2
        rw [← h2.2]
        exact hco
    · rw [if_neg hns] at h
      match hrec : famcGo ns cidr inUse cfg rest with
      | none =>
        rw [hrec] at h
        simp at h
      | some (res2, l) =>
        rw [hrec] at h
        dsimp only [Option.map] at h
        have h2 := Option.some.inj h
        rw [Prod.mk.injEq] at h2
        rw [← h2.2]
        intro x hx
        rcases List.mem_cons.mp hx with rfl | hx2
        · exact hcoe
        · exact ih res2 l hcorest hrec x hx2

theorem fahc_cidr_coherent (ns cidr : Str) (inUse : IPSet)
    (cfg : Option KubevipLBConfig) (mgr : List IpManager)
    (res : Except GoErr Str) (mgr' : List IpManager)
    (hco : CidrCoherent mgr)
    (h : FindAvailableHostFromCidr ns cidr inUse cfg mgr = (res, mgr')) :
    CidrCoherent mgr' := by
  unfold FindAvailableHostFromCidr at h
  match hrec : famcGo ns cidr inUse cfg mgr with
  | some r2 =>
    rw [hrec] at h
    dsimp only at h
    exact famcGo_cidr_coherent ns cidr inUse cfg mgr res mgr' hco
      (by rw [hrec, h])
  | none =>
    rw [hrec] at h
    dsimp only at h
    match hb : buildHostsFromCidr cidr cfg with
    | .error e2 =>
      rw [hb] at h
      dsimp only at h
      rw [Prod.mk.injEq] at h
      rw [← h.2]
      exact hco
    | .ok pool =>
      rw [hb] at h
      dsimp only at h
      rw [Prod.mk.injEq] at h
      rw [← h.2]
      intro x hx
      rcases List.mem_append.mp hx with hx2 | hx2
      · exact hco x hx2
      · rcases List.mem_singleton.mp hx2 with rfl
        intro _
        exact ⟨cfg, hb⟩

theorem discoverAddressCidr_coherent (ns subpool : Str) (inUse : IPSet)
    (cfg : Option KubevipLBConfig) (mgr : List IpManager)
    (res : Except GoErr Str) (mgr' : List IpManager)
    (hco : CidrCoherent mgr) (hslash : containsChar subpool '/' = true)
    (h : discoverAddress ns subpool inUse cfg mgr = (res, mgr')) :
    CidrCoherent mgr' := by
  unfold discoverAddress at h
  by_cases hsent : subpool = str "0.0.0.0/32"
  · rw [if_pos hsent] at h
    rw [Prod.mk.injEq] at h
    rw [← h.2]
    exact hco
  · rw [if_neg hsent, if_pos hslash] at h
    exact fahc_cidr_coherent ns subpool inUse cfg mgr res mgr' hco h

/-! ## The range side of the allocator -/

theorem rangeRender_no_comma (r : IPRange) : ',' ∉ r.render := by
  unfold IPRange.render
  intro hc
  rcases List.mem_append.mp hc with h | h
  · exact addrRender_sep_free.1 h
  · rcases List.mem_cons.mp h with h2 | h2
    · exact absurd h2 (by decide)
    · exact addrRender_sep_free.1 h2

theorem rangeRender_no_slash (r : IPRange) : '/' ∉ r.render := by
  unfold IPRange.render
  intro hc
  rcases List.mem_append.mp hc with h | h
  · exact addrRender_sep_free.2.1 h
  · rcases List.mem_cons.mp h with h2 | h2
    · exact absurd h2 (by decide)
    · exact addrRender_sep_free.2.1 h2

theorem interpose_rangeRenders_no_slash (fl : List IPRange) :
    containsChar (interpose ',' (fl.map IPRange.render)) '/' = false := by
  rw [Bool.eq_false_iff]
  intro hc
  have h2 := containsChar_iff.mp hc
  rcases mem_interpose h2 with ⟨p, hp, hcp⟩ | h3
  · obtain ⟨r, hr, rfl⟩ := List.mem_map.mp hp
    exact rangeRender_no_slash r hcp
  · exact absurd h3 (by decide)

theorem buildRangesGo_ins_valid :
    ∀ (l : List Str) (b b2 : IPSetBuilder),
      buildRangesGo b l = .ok b2 →
      ∀ r ∈ b2.ins, r ∈ b.ins ∨ r.isValid = true := by
  intro l
  induction l with
  | nil =>
    intro b b2 h r hr
    simp only [buildRangesGo] at h
    obtain rfl := Except.ok.inj h
    exact Or.inl hr
  | cons rng rest ih =>
    intro b b2 h r hr
    simp only [buildRangesGo] at h
    match hs : splitOnChar '-' rng with
    | [s1, s2] =>
      rw [hs] at h
      dsimp only at h
      match hp1 : parseAddr s1, hp2 : parseAddr s2 with
      | some a1, some a2 =>
        rw [hp1, hp2] at h
        dsimp only at h
        rcases ih (b.addRange (IPRangeFrom a1 a2)) b2 h r hr with hin | hval
        · unfold IPSetBuilder.addRange at hin
          by_cases hv : (IPRangeFrom a1 a2).isValid = true
          · rw [if_pos hv] at hin
            rcases List.mem_append.mp hin with h1 | h1
            · exact Or.inl h1
            · rcases List.mem_singleton.mp h1 with rfl
              exact Or.inr hv
          · rw [if_neg hv] at hin
            exact Or.inl hin
        · exact Or.inr hval
      | some a1, none => rw [hp1, hp2] at h; simp at h
      | none, some a2 => rw [hp1, hp2] at h; simp at h
      | none, none => rw [hp1, hp2] at h; simp at h
    | [] => rw [hs] at h; simp at h
    | [s1] => rw [hs] at h; simp at h
    | s1 :: s2 :: s3 :: srest => rw [hs] at h; simp at h

theorem buildAddressesFromRange_valid (pool : Str) (S : IPSet)
    (h : buildAddressesFromRange pool = .ok S) :
    ∀ r ∈ S, r.isValid = true := by
  unfold buildAddressesFromRange at h
  rw [if_neg (by simp [splitOnChar_ne_nil])] at h
  match hg : buildRangesGo IPSetBuilder.empty (splitOnChar ',' pool) with
  | .error e => rw [hg] at h; simp at h
  | .ok b =>
    rw [hg] at h
    dsimp only at h
    unfold IPSetBuilder.toIPSet at h
    by_cases herr : b.errs = true
    · rw [if_pos herr] at h
      simp at h
    · rw [if_neg herr] at h
      obtain rfl := Except.ok.inj h
      refine normalizeRanges_valid _ ?_
      intro r hr
      rcases buildRangesGo_ins_valid _ _ _ hg r hr with hin | hv
      · exact absurd hin (List.not_mem_nil r)
      · exact hv

theorem buildRangesGo_renders :
    ∀ (fl : List IPRange) (b : IPSetBuilder),
      (∀ r ∈ fl, r.isValid = true) →
      buildRangesGo b (fl.map IPRange.render) = .ok ⟨b.ins ++ fl, b.errs⟩ := by
  intro fl
  induction fl with
  | nil =>
    intro b _
    rw [List.map_nil, List.append_nil]
    rfl
  | cons r fs ih =>
    intro b hv
    have hrv := hv r (List.mem_cons_self _ _)
    obtain ⟨hf, hlw, hhw, hle⟩ := isValid_parts hrv
    simp only [List.map_cons, buildRangesGo]
    rw [show IPRange.render r = r.lo.render ++ '-' :: r.hi.render from rfl]
    rw [splitOnChar_append_cons '-' _ _ addrRender_sep_free.2.2,
      splitOnChar_no_sep '-' _ addrRender_sep_free.2.2]
    dsimp only
    rw [parseAddr_render hlw, parseAddr_render hhw]
    dsimp only
    have hstep : b.addRange (IPRangeFrom r.lo r.hi) = ⟨b.ins ++ [r], b.errs⟩ := by
      unfold IPSetBuilder.addRange
      rw [if_pos (show (IPRangeFrom r.lo r.hi).isValid = true from hrv)]
      rfl
    rw [hstep, ih _ (fun x hx => hv x (List.mem_cons_of_mem _ hx)),
      List.append_assoc]
    rfl

theorem buildAddressesFromRange_of_renders (fl : List IPRange)
    (hne : fl ≠ []) (hv : ∀ r ∈ fl, r.isValid = true) :
    buildAddressesFromRange (interpose ',' (fl.map IPRange.render)) =
      .ok (normalizeRanges fl) := by
  unfold buildAddressesFromRange
  rw [splitOnChar_interpose ',' _ (by simp [hne]) (by
    intro q hq
    obtain ⟨r, hr, rfl⟩ := List.mem_map.mp hq
    exact rangeRender_no_comma r)]
  rw [if_neg (by simp [hne])]
  rw [buildRangesGo_renders fl IPSetBuilder.empty hv]
  rfl

theorem filtered_ranges_member (S : IPSet)
    (hv : ∀ r ∈ S, r.isValid = true) (pred : IPRange → Bool) (a : Addr)
    (h : IPSet.containsA (normalizeRanges (S.filter pred)) a = true) :
    S.containsA a = true := by
  have hfv : ∀ r ∈ S.filter pred, r.isValid = true :=
    fun r hr => hv r (List.mem_of_mem_filter hr)
  rw [normalizeRanges_contains _ hfv a, List.any_eq_true] at h
  obtain ⟨r, hr, hcr⟩ := h
  unfold IPSet.containsA
  rw [List.any_eq_true]
  exact ⟨r, List.mem_of_mem_filter hr, hcr⟩


/-- The namespace walk of the range allocator only hands out rendered
members of the set the range declaration describes. -/
theorem famrGo_mem (ns ipRange : Str) (inUse : IPSet)
    (cfg : Option KubevipLBConfig) (hrne : ipRange ≠ []) :
    ∀ (mgr : List IpManager) (s : Str) (mgr' : List IpManager),
      RangeCoherent mgr →
      famrGo ns ipRange inUse cfg mgr = some (.ok s, mgr') →
      ∃ addr S4, buildAddressesFromRange ipRange = .ok S4 ∧
        S4.containsA addr = true ∧ s = addr.render := by
  intro mgr
  induction mgr with
  | nil =>
    intro s mgr' _ h
    simp [famrGo] at h
  | cons e rest ih =>
    intro s mgr' hco h
    simp only [famrGo] at h
    by_cases hns : e.ns = ns
    · rw [if_pos hns] at h
      by_cases hcd : e.ipRange ≠ ipRange
      · rw [if_pos hcd] at h
        match hb : buildAddressesFromRange ipRange with
        | .error err =>
          rw [hb] at h
          dsimp only at h
          have h1 := congrArg Prod.fst (Option.some.inj h)
          simp at h1
        | .ok pool =>
          rw [hb] at h
          dsimp only at h
          have h1 : findFreeResult ns ipRange false pool inUse cfg = .ok s :=
            congrArg Prod.fst (Option.some.inj h)
          obtain ⟨addr, hf, hrend⟩ := findFreeResult_ok _ _ _ _ _ _ _ h1
          exact ⟨addr, pool, rfl,
            findFreeAddress_mem pool inUse cfg addr
              (buildAddressesFromRange_valid ipRange pool hb) hf, hrend⟩
      · rw [if_neg hcd] at h
        have hcd2 : e.ipRange = ipRange := not_not.mp hcd
        have hb := hco e (List.mem_cons_self _ _) (by rw [hcd2]; exact hrne)
        rw [hcd2] at hb
        have h1 : findFreeResult ns ipRange false e.poolIPSet inUse cfg =
            .ok s := congrArg Prod.fst (Option.some.inj h)
        obtain ⟨addr, hf, hrend⟩ := findFreeResult_ok _ _ _ _ _ _ _ h1
        exact ⟨addr, e.poolIPSet, hb,
          findFreeAddress_mem e.poolIPSet inUse cfg addr
            (buildAddressesFromRange_valid ipRange e.poolIPSet hb) hf,
          hrend⟩
    · rw [if_neg hns] at h
      match hrec : famrGo ns ipRange inUse cfg rest with
      | none =>
        rw [hrec] at h
        simp at h
      | some (res, l) =>
        rw [hrec] at h
        dsimp only [Option.map] at h
        have h2 := Option.some.inj h
        rw [Prod.mk.injEq] at h2
        exact ih s l (fun x hx hx2 => hco x (List.mem_cons_of_mem _ hx) hx2)
          (by rw [hrec, h2.1])

theorem fahr_mem (ns ipRange : Str) (inUse : IPSet)
    (cfg : Option KubevipLBConfig) (mgr mgr' : List IpManager) (s : Str)
    (hrne : ipRange ≠ []) (hco : RangeCoherent mgr)
    (h : FindAvailableHostFromRange ns ipRange inUse cfg mgr =
      (.ok s, mgr')) :
    ∃ addr S4, buildAddressesFromRange ipRange = .ok S4 ∧
      S4.containsA addr = true ∧ s = addr.render := by
  unfold FindAvailableHostFromRange at h
  match hrec : famrGo ns ipRange inUse cfg mgr with
  | some res =>
    rw [hrec] at h
    dsimp only at h
    exact famrGo_mem ns ipRange inUse cfg hrne mgr s mgr' hco
      (by rw [hrec, h])
  | none =>
    rw [hrec] at h
    dsimp only at h
    match hb : buildAddressesFromRange ipRange with
    | .error e2 =>
      rw [hb] at h
      dsimp only at h
      have h1 := congrArg Prod.fst h
      simp at h1
    | .ok pool =>
      rw [hb] at h
      dsimp only at h
      have h1 : findFreeResult ns ipRange false pool inUse cfg = .ok s :=
        congrArg Prod.fst h
      obtain ⟨addr, hf, hrend⟩ := findFreeResult_ok _ _ _ _ _ _ _ h1
      exact ⟨addr, pool, rfl,
        findFreeAddress_mem pool inUse cfg addr
          (buildAddressesFromRange_valid ipRange pool hb) hf, hrend⟩

theorem famrGo_range_coherent (ns ipRange : Str) (inUse : IPSet)
    (cfg : Option KubevipLBConfig) :
    ∀ (mgr : List IpManager) (res : Except GoErr Str)
      (mgr' : List IpManager), RangeCoherent mgr →
      famrGo ns ipRange inUse cfg mgr = some (res, mgr') →
      RangeCoherent mgr' := by
  intro mgr
  induction mgr with
  | nil =>
    intro res mgr' _ h
    simp [famrGo] at h
  | cons e rest ih =>
    intro res mgr' hco h
    have hcoe := hco e (List.mem_cons_self _ _)
    have hcorest : RangeCoherent rest :=
      fun x hx => hco x (List.mem_cons_of_mem _ hx)
    simp only [famrGo] at h
    by_cases hns : e.ns = ns
    · rw [if_pos hns] at h
      by_cases hcd : e.ipRange ≠ ipRange
      · rw [if_pos hcd] at h
        match hb : buildAddressesFromRange ipRange with
        | .error err =>
          rw [hb] at h
          dsimp only at h
          have h2 := Option.some.inj h
          rw [Prod.mk.injEq] at h2
          rw [← h2.2]
          exact hco
        | .ok pool =>
          rw [hb] at h
          dsimp only at h
          have h2 := Option.some.inj h
          rw [Prod.mk.injEq] at h2
          rw [← h2.2]
          intro x hx
          rcases List.mem_cons.mp hx with rfl | hx2
          · intro _
            exact hb
          · exact hcorest x hx2
      · rw [if_neg hcd] at h
        have h2 := Option.some.inj h
        rw [Prod.mk.injEq] at h2
        rw [← h2.2]
        exact hco
    · rw [if_neg hns] at h
      match hrec : famrGo ns ipRange inUse cfg rest with
      | none =>
        rw [hrec] at h
        simp at h
      | some (res2, l) =>
        rw [hrec] at h
        dsimp only [Option.map] at h
        have h2 := Option.some.inj h
        rw [Prod.mk.injEq] at h2
        rw [← h2.2]
        intro x hx
        rcases List.mem_cons.mp hx with rfl | hx2
        · exact hcoe
        · exact ih res2 l hcorest hrec x hx2

theorem fahr_range_coherent (ns ipRange : Str) (inUse : IPSet)
    (cfg : Option KubevipLBConfig) (mgr : List IpManager)
    (res : Except GoErr Str) (mgr' : List IpManager)
    (hco : RangeCoherent mgr)
    (h : FindAvailableHostFromRange ns ipRange inUse cfg mgr =
      (res, mgr')) : RangeCoherent mgr' := by
  unfold FindAvailableHostFromRange at h
  match hrec : famrGo ns ipRange inUse cfg mgr with
  | some r2 =>
    rw [hrec] at h
    dsimp only at h
    exact famrGo_range_coherent ns ipRange inUse cfg mgr res mgr' hco
      (by rw [hrec, h])
  | none =>
    rw [hrec] at h
    dsimp only at h
    match hb : buildAddressesFromRange ipRange with
    | .error e2 =>
      rw [hb] at h
      dsimp only at h
      rw [Prod.mk.injEq] at h
      rw [← h.2]
      exact hco
    | .ok pool =>
      rw [hb] at h
      dsimp only at h
      rw [Prod.mk.injEq] at h
      rw [← h.2]
      intro x hx
      rcases List.mem_append.mp hx with hx2 | hx2
      · exact hco x hx2
      · rcases List.mem_singleton.mp hx2 with rfl
        intro _
        exact hb

theorem discoverAddressRange_mem (ns subpool : Str) (inUse : IPSet)
    (cfg : Option KubevipLBConfig) (mgr mgr' : List IpManager) (s : Str)
    (hco : RangeCoherent mgr) (hnsl : containsChar subpool '/' = false)
    (hne : subpool ≠ [])
    (h : discoverAddress ns subpool inUse cfg mgr = (.ok s, mgr')) :
    ∃ addr S4, buildAddressesFromRange subpool = .ok S4 ∧
      S4.containsA addr = true ∧ s = addr.render := by
  unfold discoverAddress at h
  have hsent : ¬subpool = str "0.0.0.0/32" := by
    intro he
    rw [he] at hnsl
    exact absurd hnsl (by decide)
  rw [if_neg hsent, if_neg (by simp [hnsl])] at h
  exact fahr_mem ns subpool inUse cfg mgr mgr' s hne hco h

theorem discoverAddressRange_coherent (ns subpool : Str) (inUse : IPSet)
    (cfg : Option KubevipLBConfig) (mgr : List IpManager)
    (res : Except GoErr Str) (mgr' : List IpManager)
    (hco : RangeCoherent mgr) (hnsl : containsChar subpool '/' = false)
    (h : discoverAddress ns subpool inUse cfg mgr = (res, mgr')) :
    RangeCoherent mgr' := by
  unfold discoverAddress at h
  have hsent : ¬subpool = str "0.0.0.0/32" := by
    intro he
    rw [he] at hnsl
    exact absurd hnsl (by decide)
  rw [if_neg hsent, if_neg (by simp [hnsl])] at h
  exact fahr_range_coherent ns subpool inUse cfg mgr res mgr' hco h

/-- Allocating from a re-rendered family bucket of a range pool only
returns rendered members of the pool set. -/
theorem bucket_alloc_mem_range (ns : Str) (inUse : IPSet)
    (cfg : Option KubevipLBConfig) (mgr mgr' : List IpManager) (vips : Str)
    (S : IPSet) (hv : ∀ r ∈ S, r.isValid = true) (hco : RangeCoherent mgr)
    (pred : IPRange → Bool)
    (hne : interpose ',' ((S.filter pred).map IPRange.render) ≠ [])
    (h : discoverAddress ns
        (interpose ',' ((S.filter pred).map IPRange.render)) inUse cfg
        mgr = (.ok vips, mgr')) :
    ∃ addr, S.containsA addr = true ∧ vips = addr.render := by
  have hfl : S.filter pred ≠ [] := by
    intro hl
    rw [hl] at hne
    exact hne rfl
  obtain ⟨addr, S4, hb4, hm4, hrend⟩ := discoverAddressRange_mem ns _
    inUse cfg mgr mgr' vips hco (interpose_rangeRenders_no_slash _) hne h
  rw [buildAddressesFromRange_of_renders _ hfl
    (fun r hr => hv r (List.mem_of_mem_filter hr))] at hb4
  obtain rfl := Except.ok.inj hb4
  exact ⟨addr, filtered_ranges_member S hv pred addr hm4, hrend⟩

/-- The single-stack allocation over the range buckets either returns
the preferred shared VIP verbatim or a rendered member of the pool. -/
theorem singleStackRange_mem (ns pref : Str) (inUse : IPSet)
    (cfg : Option KubevipLBConfig) (fams : List IPFamily)
    (mgr mgr' : List IpManager) (vips : Str) (S : IPSet)
    (hv : ∀ r ∈ S, r.isValid = true) (hco : RangeCoherent mgr)
    (h : discoverVIPsSingleStack ns
        (interpose ',' ((S.filter (·.lo.is4)).map IPRange.render))
        (interpose ',' ((S.filter (!·.lo.is4)).map IPRange.render))
        pref inUse cfg fams mgr = (.ok vips, mgr')) :
    vips = pref ∨ ∃ addr, S.containsA addr = true ∧ vips = addr.render := by
  unfold discoverVIPsSingleStack at h
  dsimp only at h
  generalize hip : (if fams = [] then
      (if interpose ',' ((S.filter (·.lo.is4)).map IPRange.render) = []
        then interpose ',' ((S.filter (!·.lo.is4)).map IPRange.render)
        else interpose ',' ((S.filter (·.lo.is4)).map IPRange.render))
    else if fams.head? = some .v6 then
      interpose ',' ((S.filter (!·.lo.is4)).map IPRange.render)
    else interpose ',' ((S.filter (·.lo.is4)).map IPRange.render)) =
      ipPool at h
  have hcase :
      ipPool = interpose ',' ((S.filter (·.lo.is4)).map IPRange.render) ∨
      ipPool =
        interpose ',' ((S.filter (!·.lo.is4)).map IPRange.render) := by
    rw [← hip]
    split
    · split
      · exact Or.inr rfl
      · exact Or.inl rfl
    · split
      · exact Or.inr rfl
      · exact Or.inl rfl
  by_cases hnil : ipPool = []
  · rw [if_pos hnil] at h
    have h1 := congrArg Prod.fst h
    simp at h1
  · rw [if_neg hnil] at h
    by_cases hpref : ipPool =
        interpose ',' ((S.filter (·.lo.is4)).map IPRange.render) ∧
        pref.length > 0
    · rw [if_pos hpref] at h
      left
      exact (Except.ok.inj (congrArg Prod.fst h)).symm
    · rw [if_neg hpref] at h
      right
      rcases hcase with hc | hc
      · subst hc
        exact bucket_alloc_mem_range ns inUse cfg mgr mgr' vips S hv hco
          (·.lo.is4) hnil h
      · subst hc
        exact bucket_alloc_mem_range ns inUse cfg mgr mgr' vips S hv hco
          (!·.lo.is4) hnil h


/-- One pool walk over a cidr bucket: every VIP it appends is the
preferred VIP or a rendered pool member, and cidr coherence survives. -/
theorem dfpBucketCidr (ns pref : Str) (inUse : IPSet)
    (cfg : Option KubevipLBConfig) (vl : List Str) (mgr : List IpManager)
    (P : IPSet) (hv : ∀ r ∈ P, r.isValid = true) (hco : CidrCoherent mgr)
    (pred : Pfx → Bool) (ipv4Pool : Str) (ep : Option GoErr)
    (vl2 : List Str) (mgr2 : List IpManager)
    (h : discoverFromPool ns
        (interpose ',' ((P.pfxs.filter pred).map Pfx.render)) pref
        ipv4Pool inUse cfg vl mgr = (.ok (ep, vl2), mgr2)) :
    (∀ v ∈ vl2, v ∈ vl ∨ v = pref ∨
      ∃ addr, P.containsA addr = true ∧ v = addr.render) ∧
    CidrCoherent mgr2 := by
  unfold discoverFromPool at h
  by_cases hlen :
      (interpose ',' ((P.pfxs.filter pred).map Pfx.render)).length = 0
  · rw [if_pos hlen] at h
    rw [Prod.mk.injEq] at h
    have h3 := Except.ok.inj h.1
    rw [Prod.mk.injEq] at h3
    have h4 := h.2
    constructor
    · intro v hvv
      rw [← h3.2] at hvv
      exact Or.inl hvv
    · rw [← h4]
      exact hco
  · rw [if_neg hlen] at h
    have hne : interpose ',' ((P.pfxs.filter pred).map Pfx.render) ≠ [] := by
      intro he
      rw [he] at hlen
      simp at hlen
    have hfl : P.pfxs.filter pred ≠ [] := by
      intro hl
      rw [hl] at hne
      exact hne rfl
    by_cases hpref :
        interpose ',' ((P.pfxs.filter pred).map Pfx.render) = ipv4Pool ∧
        pref.length > 0
    · rw [if_pos hpref] at h
      rw [Prod.mk.injEq] at h
      have h3 := Except.ok.inj h.1
      rw [Prod.mk.injEq] at h3
      have h4 := h.2
      constructor
      · intro v hvv
        rw [← h3.2] at hvv
        rcases List.mem_append.mp hvv with h5 | h5
        · exact Or.inl h5
        · rcases List.mem_singleton.mp h5 with rfl
          exact Or.inr (Or.inl rfl)
      · rw [← h4]
        exact hco
    · rw [if_neg hpref] at h
      match hda : discoverAddress ns
          (interpose ',' ((P.pfxs.filter pred).map Pfx.render)) inUse cfg
          mgr with
      | (.ok vip, mgrx) =>
        rw [hda] at h
        dsimp only at h
        rw [Prod.mk.injEq] at h
        have h3 := Except.ok.inj h.1
        rw [Prod.mk.injEq] at h3
        have h4 := h.2
        obtain ⟨addr, hmem, hrend⟩ :=
          bucket_alloc_mem ns inUse cfg mgr mgrx vip P hv hco pred hne hda
        constructor
        · intro v hvv
          rw [← h3.2] at hvv
          rcases List.mem_append.mp hvv with h5 | h5
          · exact Or.inl h5
          · rcases List.mem_singleton.mp h5 with rfl
            exact Or.inr (Or.inr ⟨addr, hmem, hrend⟩)
        · rw [← h4]
          exact discoverAddressCidr_coherent ns _ inUse cfg mgr (.ok vip)
            mgrx hco (interpose_renders_has_slash _ hfl) hda
      | (.error (.outOfIPs a b c), mgrx) =>
        rw [hda] at h
        dsimp only at h
        rw [Prod.mk.injEq] at h
        have h3 := Except.ok.inj h.1
        rw [Prod.mk.injEq] at h3
        have h4 := h.2
        constructor
        · intro v hvv
          rw [← h3.2] at hvv
          exact Or.inl hvv
        · rw [← h4]
          exact discoverAddressCidr_coherent ns _ inUse cfg mgr
            (.error (.outOfIPs a b c)) mgrx hco
            (interpose_renders_has_slash _ hfl) hda
      | (.error (.msg m), mgrx) =>
        rw [hda] at h
        dsimp only at h
        have h3 := congrArg Prod.fst h
        simp at h3

theorem dfpEitherBucketCidr (ns pref : Str) (inUse : IPSet)
    (cfg : Option KubevipLBConfig) (vl : List Str) (mgr : List IpManager)
    (P : IPSet) (hv : ∀ r ∈ P, r.isValid = true) (hco : CidrCoherent mgr)
    (b : Str)
    (hb : b = interpose ',' ((P.pfxs.filter (·.addr.is4)).map Pfx.render) ∨
      b = interpose ',' ((P.pfxs.filter (!·.addr.is4)).map Pfx.render))
    (ep : Option GoErr) (vl2 : List Str) (mgr2 : List IpManager)
    (h : discoverFromPool ns b pref
        (interpose ',' ((P.pfxs.filter (·.addr.is4)).map Pfx.render))
        inUse cfg vl mgr = (.ok (ep, vl2), mgr2)) :
    (∀ v ∈ vl2, v ∈ vl ∨ v = pref ∨
      ∃ addr, P.containsA addr = true ∧ v = addr.render) ∧
    CidrCoherent mgr2 := by
  rcases hb with rfl | rfl
  · exact dfpBucketCidr ns pref inUse cfg vl mgr P hv hco (·.addr.is4) _
      ep vl2 mgr2 h
  · exact dfpBucketCidr ns pref inUse cfg vl mgr P hv hco (!·.addr.is4) _
      ep vl2 mgr2 h

/-- The policy ending of `discoverVIPsDualStack`: a successful result is
the comma-join of the collected VIPs. -/
theorem dualEndgame (polDS : IPFamilyPolicy) (ep es : Option GoErr)
    (vl2 : List Str) (m2 : List IpManager) (vips : Str)
    (mgr' : List IpManager)
    (h : (if polDS = .PreferDualStack then
        (if ep.isSome ∧ es.isSome then
          (Except.error (GoErr.msg (str "could not allocate any IP address for PreferDualStack service")), m2)
        else (.ok (interpose ',' vl2), m2))
      else if polDS = .RequireDualStack then
        (if ep.isSome ∨ es.isSome then
          (Except.error (GoErr.msg (str "could not allocate required IP addresses for RequireDualStack service")), m2)
        else (.ok (interpose ',' vl2), m2))
      else (.ok (interpose ',' vl2), m2)) = (.ok vips, mgr')) :
    vips = interpose ',' vl2 := by
  by_cases hpp : polDS = .PreferDualStack
  · rw [if_pos hpp] at h
    by_cases herr : ep.isSome ∧ es.isSome
    · rw [if_pos herr] at h
      have h2 := congrArg Prod.fst h
      simp at h2
    · rw [if_neg herr] at h
      exact (Except.ok.inj (congrArg Prod.fst h)).symm
  · rw [if_neg hpp] at h
    by_cases hrr : polDS = .RequireDualStack
    · rw [if_pos hrr] at h
      by_cases herr : ep.isSome ∨ es.isSome
      · rw [if_pos herr] at h
        have h2 := congrArg Prod.fst h
        simp at h2
      · rw [if_neg herr] at h
        exact (Except.ok.inj (congrArg Prod.fst h)).symm
    · rw [if_neg hrr] at h
      exact (Except.ok.inj (congrArg Prod.fst h)).symm

/-- The dual-stack allocation over the cidr buckets: every part of the
comma-joined result is the preferred VIP or a rendered pool member. -/
theorem dualStackCidr_mem (ns pref : Str) (inUse : IPSet)
    (cfg : Option KubevipLBConfig) (polDS : IPFamilyPolicy)
    (fams : List IPFamily) (mgr mgr' : List IpManager) (vips : Str)
    (P : IPSet) (hv : ∀ r ∈ P, r.isValid = true) (hco : CidrCoherent mgr)
    (h : discoverVIPsDualStack ns
        (interpose ',' ((P.pfxs.filter (·.addr.is4)).map Pfx.render))
        (interpose ',' ((P.pfxs.filter (!·.addr.is4)).map Pfx.render))
        pref inUse cfg polDS fams mgr = (.ok vips, mgr')) :
    ∃ parts, vips = interpose ',' parts ∧
      ∀ v ∈ parts, v = pref ∨
        ∃ addr, P.containsA addr = true ∧ v = addr.render := by
  unfold discoverVIPsDualStack at h
  by_cases hreq : polDS = .RequireDualStack ∧
      ((interpose ',' ((P.pfxs.filter (·.addr.is4)).map Pfx.render)).length = 0 ∨
       (interpose ',' ((P.pfxs.filter (!·.addr.is4)).map Pfx.render)).length = 0)
  · rw [if_pos hreq] at h
    have h2 := congrArg Prod.fst h
    simp at h2
  · rw [if_neg hreq] at h
    dsimp only at h
    generalize hP1 : (if fams.head? = some IPFamily.v6 then
        interpose ',' ((P.pfxs.filter (!·.addr.is4)).map Pfx.render)
      else
        interpose ',' ((P.pfxs.filter (·.addr.is4)).map Pfx.render)) =
      primary at h
    generalize hP2 : (if fams.head? = some IPFamily.v6 then
        interpose ',' ((P.pfxs.filter (·.addr.is4)).map Pfx.render)
      else
        interpose ',' ((P.pfxs.filter (!·.addr.is4)).map Pfx.render)) =
      secondary at h
    have hbp : primary =
        interpose ',' ((P.pfxs.filter (·.addr.is4)).map Pfx.render) ∨
        primary =
          interpose ',' ((P.pfxs.filter (!·.addr.is4)).map Pfx.render) := by
      rw [← hP1]
      split
      · exact Or.inr rfl
      · exact Or.inl rfl
    have hbs : secondary =
        interpose ',' ((P.pfxs.filter (·.addr.is4)).map Pfx.render) ∨
        secondary =
          interpose ',' ((P.pfxs.filter (!·.addr.is4)).map Pfx.render) := by
      rw [← hP2]
      split
      · exact Or.inl rfl
      · exact Or.inr rfl
    by_cases hp1 : primary.length > 0
    · rw [if_pos hp1] at h
      match h1 : discoverFromPool ns primary pref
          (interpose ',' ((P.pfxs.filter (·.addr.is4)).map Pfx.render))
          inUse cfg [] mgr with
      | (.error e, m1) =>
        rw [h1] at h
        dsimp only at h
        have h2 := congrArg Prod.fst h
        simp at h2
      | (.ok (ep, vl1), m1) =>
        rw [h1] at h
        dsimp only at h
        obtain ⟨hm1, hc1⟩ := dfpEitherBucketCidr ns pref inUse cfg [] mgr
          P hv hco primary hbp ep vl1 m1 h1
        by_cases hp2 : secondary.length > 0
        · rw [if_pos hp2] at h
          match h2 : discoverFromPool ns secondary pref
              (interpose ',' ((P.pfxs.filter (·.addr.is4)).map Pfx.render))
              inUse cfg vl1 m1 with
          | (.error e, m2) =>
            rw [h2] at h
            dsimp only at h
            have h3 := congrArg Prod.fst h
            simp at h3
          | (.ok (es, vl2), m2) =>
            rw [h2] at h
            dsimp only at h
            obtain ⟨hm2, hc2⟩ := dfpEitherBucketCidr ns pref inUse cfg vl1
              m1 P hv hc1 secondary hbs es vl2 m2 h2
            refine ⟨vl2, dualEndgame polDS ep es vl2 m2 vips mgr' h, ?_⟩
            intro v hvv
            rcases hm2 v hvv with h5 | h5 | h5
            · rcases hm1 v h5 with h6 | h6 | h6
              · exact absurd h6 (List.not_mem_nil v)
              · exact Or.inl h6
              · exact Or.inr h6
            · exact Or.inl h5
            · exact Or.inr h5
        · rw [if_neg hp2] at h
          dsimp only at h
          refine ⟨vl1, dualEndgame polDS ep none vl1 m1 vips mgr' h, ?_⟩
          intro v hvv
          rcases hm1 v hvv with h6 | h6 | h6
          · exact absurd h6 (List.not_mem_nil v)
          · exact Or.inl h6
          · exact Or.inr h6
    · rw [if_neg hp1] at h
      dsimp only at h
      by_cases hp2 : secondary.length > 0
      · rw [if_pos hp2] at h
        match h2 : discoverFromPool ns secondary pref
            (interpose ',' ((P.pfxs.filter (·.addr.is4)).map Pfx.render))
            inUse cfg [] mgr with
        | (.error e, m2) =>
          rw [h2] at h
          dsimp only at h
          have h3 := congrArg Prod.fst h
          simp at h3
        | (.ok (es, vl2), m2) =>
          rw [h2] at h
          dsimp only at h
          obtain ⟨hm2, hc2⟩ := dfpEitherBucketCidr ns pref inUse cfg []
            mgr P hv hco secondary hbs es vl2 m2 h2
          refine ⟨vl2, dualEndgame polDS none es vl2 m2 vips mgr' h, ?_⟩
          intro v hvv
          rcases hm2 v hvv with h5 | h5 | h5
          · exact absurd h5 (List.not_mem_nil v)
          · exact Or.inl h5
          · exact Or.inr h5
      · rw [if_neg hp2] at h
        dsimp only at h
        refine ⟨[], dualEndgame polDS none none [] mgr vips mgr' h, ?_⟩
        intro v hvv
        exact absurd hvv (List.not_mem_nil v)


/-- One pool walk over a range bucket: every VIP it appends is the
preferred VIP or a rendered pool member, and range coherence survives. -/
theorem dfpBucketRange (ns pref : Str) (inUse : IPSet)
    (cfg : Option KubevipLBConfig) (vl : List Str) (mgr : List IpManager)
    (S : IPSet) (hv : ∀ r ∈ S, r.isValid = true) (hco : RangeCoherent mgr)
    (pred : IPRange → Bool) (ipv4Pool : Str) (ep : Option GoErr)
    (vl2 : List Str) (mgr2 : List IpManager)
    (h : discoverFromPool ns
        (interpose ',' ((S.filter pred).map IPRange.render)) pref
        ipv4Pool inUse cfg vl mgr = (.ok (ep, vl2), mgr2)) :
    (∀ v ∈ vl2, v ∈ vl ∨ v = pref ∨
      ∃ addr, S.containsA addr = true ∧ v = addr.render) ∧
    RangeCoherent mgr2 := by
  unfold discoverFromPool at h
  by_cases hlen :
      (interpose ',' ((S.filter pred).map IPRange.render)).length = 0
  · rw [if_pos hlen] at h
    rw [Prod.mk.injEq] at h
    have h3 := Except.ok.inj h.1
    rw [Prod.mk.injEq] at h3
    have h4 := h.2
    constructor
    · intro v hvv
      rw [← h3.2] at hvv
      exact Or.inl hvv
    · rw [← h4]
      exact hco
  · rw [if_neg hlen] at h
    have hne : interpose ',' ((S.filter pred).map IPRange.render) ≠ [] := by
      intro he
      rw [he] at hlen
      simp at hlen
    have hfl : S.filter pred ≠ [] := by
      intro hl
      rw [hl] at hne
      exact hne rfl
    by_cases hpref :
        interpose ',' ((S.filter pred).map IPRange.render) = ipv4Pool ∧
        pref.length > 0
    · rw [if_pos hpref] at h
      rw [Prod.mk.injEq] at h
      have h3 := Except.ok.inj h.1
      rw [Prod.mk.injEq] at h3
      have h4 := h.2
      constructor
      · intro v hvv
        rw [← h3.2] at hvv
        rcases List.mem_append.mp hvv with h5 | h5
        · exact Or.inl h5
        · rcases List.mem_singleton.mp h5 with rfl
          exact Or.inr (Or.inl rfl)
      · rw [← h4]
        exact hco
    · rw [if_neg hpref] at h
      match hda : discoverAddress ns
          (interpose ',' ((S.filter pred).map IPRange.render)) inUse cfg
          mgr with
      | (.ok vip, mgrx) =>
        rw [hda] at h
        dsimp only at h
        rw [Prod.mk.injEq] at h
        have h3 := Except.ok.inj h.1
        rw [Prod.mk.injEq] at h3
        have h4 := h.2
        obtain ⟨addr, hmem, hrend⟩ :=
          bucket_alloc_mem_range ns inUse cfg mgr mgrx vip S hv hco pred hne hda
        constructor
        · intro v hvv
          rw [← h3.2] at hvv
          rcases List.mem_append.mp hvv with h5 | h5
          · exact Or.inl h5
          · rcases List.mem_singleton.mp h5 with rfl
            exact Or.inr (Or.inr ⟨addr, hmem, hrend⟩)
        · rw [← h4]
          exact discoverAddressRange_coherent ns _ inUse cfg mgr (.ok vip)
            mgrx hco (interpose_rangeRenders_no_slash _) hda
      | (.error (.outOfIPs a b c), mgrx) =>
        rw [hda] at h
        dsimp only at h
        rw [Prod.mk.injEq] at h
        have h3 := Except.ok.inj h.1
        rw [Prod.mk.injEq] at h3
        have h4 := h.2
        constructor
        · intro v hvv
          rw [← h3.2] at hvv
          exact Or.inl hvv
        · rw [← h4]
          exact discoverAddressRange_coherent ns _ inUse cfg mgr
            (.error (.outOfIPs a b c)) mgrx hco
            (interpose_rangeRenders_no_slash _) hda
      | (.error (.msg m), mgrx) =>
        rw [hda] at h
        dsimp only at h
        have h3 := congrArg Prod.fst h
        simp at h3

theorem dfpEitherBucketRange (ns pref : Str) (inUse : IPSet)
    (cfg : Option KubevipLBConfig) (vl : List Str) (mgr : List IpManager)
    (S : IPSet) (hv : ∀ r ∈ S, r.isValid = true) (hco : RangeCoherent mgr)
    (b : Str)
    (hb : b = interpose ',' ((S.filter (·.lo.is4)).map IPRange.render) ∨
      b = interpose ',' ((S.filter (!·.lo.is4)).map IPRange.render))
    (ep : Option GoErr) (vl2 : List Str) (mgr2 : List IpManager)
    (h : discoverFromPool ns b pref
        (interpose ',' ((S.filter (·.lo.is4)).map IPRange.render))
        inUse cfg vl mgr = (.ok (ep, vl2), mgr2)) :
    (∀ v ∈ vl2, v ∈ vl ∨ v = pref ∨
      ∃ addr, S.containsA addr = true ∧ v = addr.render) ∧
    RangeCoherent mgr2 := by
  rcases hb with rfl | rfl
  · exact dfpBucketRange ns pref inUse cfg vl mgr S hv hco (·.lo.is4) _
      ep vl2 mgr2 h
  · exact dfpBucketRange ns pref inUse cfg vl mgr S hv hco (!·.lo.is4) _
      ep vl2 mgr2 h

/-- The dual-stack allocation over the range buckets: every part of the
comma-joined result is the preferred VIP or a rendered pool member. -/
theorem dualStackRange_mem (ns pref : Str) (inUse : IPSet)
    (cfg : Option KubevipLBConfig) (polDS : IPFamilyPolicy)
    (fams : List IPFamily) (mgr mgr' : List IpManager) (vips : Str)
    (S : IPSet) (hv : ∀ r ∈ S, r.isValid = true) (hco : RangeCoherent mgr)
    (h : discoverVIPsDualStack ns
        (interpose ',' ((S.filter (·.lo.is4)).map IPRange.render))
        (interpose ',' ((S.filter (!·.lo.is4)).map IPRange.render))
        pref inUse cfg polDS fams mgr = (.ok vips, mgr')) :
    ∃ parts, vips = interpose ',' parts ∧
      ∀ v ∈ parts, v = pref ∨
        ∃ addr, S.containsA addr = true ∧ v = addr.render := by
  unfold discoverVIPsDualStack at h
  by_cases hreq : polDS = .RequireDualStack ∧
      ((interpose ',' ((S.filter (·.lo.is4)).map IPRange.render)).length = 0 ∨
       (interpose ',' ((S.filter (!·.lo.is4)).map IPRange.render)).length = 0)
  · rw [if_pos hreq] at h
    have h2 := congrArg Prod.fst h
    simp at h2
  · rw [if_neg hreq] at h
    dsimp only at h
    generalize hP1 : (if fams.head? = some IPFamily.v6 then
        interpose ',' ((S.filter (!·.lo.is4)).map IPRange.render)
      else
        interpose ',' ((S.filter (·.lo.is4)).map IPRange.render)) =
      primary at h
    generalize hP2 : (if fams.head? = some IPFamily.v6 then
        interpose ',' ((S.filter (·.lo.is4)).map IPRange.render)
      else
        interpose ',' ((S.filter (!·.lo.is4)).map IPRange.render)) =
      secondary at h
    have hbp : primary =
        interpose ',' ((S.filter (·.lo.is4)).map IPRange.render) ∨
        primary =
          interpose ',' ((S.filter (!·.lo.is4)).map IPRange.render) := by
      rw [← hP1]
      split
      · exact Or.inr rfl
      · exact Or.inl rfl
    have hbs : secondary =
        interpose ',' ((S.filter (·.lo.is4)).map IPRange.render) ∨
        secondary =
          interpose ',' ((S.filter (!·.lo.is4)).map IPRange.render) := by
      rw [← hP2]
      split
      · exact Or.inl rfl
      · exact Or.inr rfl
    by_cases hp1 : primary.length > 0
    · rw [if_pos hp1] at h
      match h1 : discoverFromPool ns primary pref
          (interpose ',' ((S.filter (·.lo.is4)).map IPRange.render))
          inUse cfg [] mgr with
      | (.error e, m1) =>
        rw [h1] at h
        dsimp only at h
        have h2 := congrArg Prod.fst h
        simp at h2
      | (.ok (ep, vl1), m1) =>
        rw [h1] at h
        dsimp only at h
        obtain ⟨hm1, hc1⟩ := dfpEitherBucketRange ns pref inUse cfg [] mgr
          S hv hco primary hbp ep vl1 m1 h1
        by_cases hp2 : secondary.length > 0
        · rw [if_pos hp2] at h
          match h2 : discoverFromPool ns secondary pref
              (interpose ',' ((S.filter (·.lo.is4)).map IPRange.render))
              inUse cfg vl1 m1 with
          | (.error e, m2) =>
            rw [h2] at h
            dsimp only at h
            have h3 := congrArg Prod.fst h
            simp at h3
          | (.ok (es, vl2), m2) =>
            rw [h2] at h
            dsimp only at h
            obtain ⟨hm2, hc2⟩ := dfpEitherBucketRange ns pref inUse cfg vl1
              m1 S hv hc1 secondary hbs es vl2 m2 h2
            refine ⟨vl2, dualEndgame polDS ep es vl2 m2 vips mgr' h, ?_⟩
            intro v hvv
            rcases hm2 v hvv with h5 | h5 | h5
            · rcases hm1 v h5 with h6 | h6 | h6
              · exact absurd h6 (List.not_mem_nil v)
              · exact Or.inl h6
              · exact Or.inr h6
            · exact Or.inl h5
            · exact Or.inr h5
        · rw [if_neg hp2] at h
          dsimp only at h
          refine ⟨vl1, dualEndgame polDS ep none vl1 m1 vips mgr' h, ?_⟩
          intro v hvv
          rcases hm1 v hvv with h6 | h6 | h6
          · exact absurd h6 (List.not_mem_nil v)
          · exact Or.inl h6
          · exact Or.inr h6
    · rw [if_neg hp1] at h
      dsimp only at h
      by_cases hp2 : secondary.length > 0
      · rw [if_pos hp2] at h
        match h2 : discoverFromPool ns secondary pref
            (interpose ',' ((S.filter (·.lo.is4)).map IPRange.render))
            inUse cfg [] mgr with
        | (.error e, m2) =>
          rw [h2] at h
          dsimp only at h
          have h3 := congrArg Prod.fst h
          simp at h3
        | (.ok (es, vl2), m2) =>
          rw [h2] at h
          dsimp only at h
          obtain ⟨hm2, hc2⟩ := dfpEitherBucketRange ns pref inUse cfg []
            mgr S hv hco secondary hbs es vl2 m2 h2
          refine ⟨vl2, dualEndgame polDS none es vl2 m2 vips mgr' h, ?_⟩
          intro v hvv
          rcases hm2 v hvv with h5 | h5 | h5
          · exact absurd h5 (List.not_mem_nil v)
          · exact Or.inl h5
          · exact Or.inr h5
      · rw [if_neg hp2] at h
        dsimp only at h
        refine ⟨[], dualEndgame polDS none none [] mgr vips mgr' h, ?_⟩
        intro v hvv
        exact absurd hvv (List.not_mem_nil v)


/-- C1 (amended): for every successful `discoverVIPs` run — any pool
declaration (CIDR or range), any IP-family policy — assuming every
cached allocator pool was built from its recorded declaration string,
the returned comma-joined VIP string decomposes into parts each of which
is either the preferred IPv4 shared VIP returned verbatim (which need
not lie in the pool: see the counterexample) or the rendering of an
address of the set the pool declaration describes. -/
theorem c1_vips_in_declared_pool_or_preferred (ns pool pref : Str)
    (inUse : IPSet) (cfg : Option KubevipLBConfig)
    (pol : Option IPFamilyPolicy) (fams : List IPFamily)
    (mgr mgr' : List IpManager) (vips : Str)
    (hco4 : CidrCoherent mgr) (hcoR : RangeCoherent mgr)
    (h : discoverVIPs ns pool pref inUse cfg pol fams mgr =
      (.ok vips, mgr')) :
    ∃ S parts, declaredPoolSet pool = .ok S ∧ vips = interpose ',' parts ∧
      ∀ v ∈ parts, v = pref ∨
        ∃ addr, S.containsA addr = true ∧ v = addr.render := by
  unfold discoverVIPs at h
  by_cases hsent : pool = str "0.0.0.0/32"
  · subst hsent
    rw [if_pos rfl] at h
    have h1 : str "0.0.0.0" = vips := Except.ok.inj (congrArg Prod.fst h)
    refine ⟨[⟨⟨true, 0⟩, ⟨true, 0⟩⟩], [vips], by decide, rfl, ?_⟩
    intro v hvv
    rcases List.mem_singleton.mp hvv with rfl
    right
    exact ⟨⟨true, 0⟩, by decide, by rw [← h1]; decide⟩
  · rw [if_neg hsent] at h
    by_cases hlen : pool.length = 0
    · rw [if_pos hlen] at h
      have h2 := congrArg Prod.fst h
      simp at h2
    · rw [if_neg hlen] at h
      by_cases hsl : containsChar pool '/' = true
      · rw [if_pos hsl] at h
        unfold SplitCIDRsByIPFamily at h
        match hP : parseCidrs pool with
        | .error e2 =>
          rw [hP] at h
          dsimp only at h
          have h2 := congrArg Prod.fst h
          simp at h2
        | .ok P =>
          rw [hP] at h
          dsimp only at h
          have hv := parseCidrs_valid pool P hP
          have hS : declaredPoolSet pool = .ok P := by
            unfold declaredPoolSet
            rw [if_pos hsl]
            exact hP
          rcases pol with _ | p
          · dsimp only at h
            rcases singleStack_mem ns pref inUse cfg fams mgr mgr' vips P
                hv hco4 h with h1 | ⟨addr, hmem, hrend⟩
            · refine ⟨P, [vips], hS, rfl, ?_⟩
              intro v hvv
              rcases List.mem_singleton.mp hvv with rfl
              exact Or.inl h1
            · refine ⟨P, [vips], hS, rfl, ?_⟩
              intro v hvv
              rcases List.mem_singleton.mp hvv with rfl
              exact Or.inr ⟨addr, hmem, hrend⟩
          · rcases p with _ | _ | _
            · dsimp only at h
              rcases singleStack_mem ns pref inUse cfg fams mgr mgr' vips
                  P hv hco4 h with h1 | ⟨addr, hmem, hrend⟩
              · refine ⟨P, [vips], hS, rfl, ?_⟩
                intro v hvv
                rcases List.mem_singleton.mp hvv with rfl
                exact Or.inl h1
              · refine ⟨P, [vips], hS, rfl, ?_⟩
                intro v hvv
                rcases List.mem_singleton.mp hvv with rfl
                exact Or.inr ⟨addr, hmem, hrend⟩
            · dsimp only at h
              obtain ⟨parts, hpp, hmm⟩ := dualStackCidr_mem ns pref inUse
                cfg .PreferDualStack fams mgr mgr' vips P hv hco4 h
              exact ⟨P, parts, hS, hpp, hmm⟩
            · dsimp only at h
              obtain ⟨parts, hpp, hmm⟩ := dualStackCidr_mem ns pref inUse
                cfg .RequireDualStack fams mgr mgr' vips P hv hco4 h
              exact ⟨P, parts, hS, hpp, hmm⟩
      · rw [if_neg hsl] at h
        unfold SplitRangesByIPFamily at h
        match hB : buildAddressesFromRange pool with
        | .error e2 =>
          rw [hB] at h
          dsimp only at h
          have h2 := congrArg Prod.fst h
          simp at h2
        | .ok S =>
          rw [hB] at h
          dsimp only at h
          have hv := buildAddressesFromRange_valid pool S hB
          have hS : declaredPoolSet pool = .ok S := by
            unfold declaredPoolSet
            rw [if_neg hsl]
            exact hB
          rcases pol with _ | p
          · dsimp only at h
            rcases singleStackRange_mem ns pref inUse cfg fams mgr mgr'
                vips S hv hcoR h with h1 | ⟨addr, hmem, hrend⟩
            · refine ⟨S, [vips], hS, rfl, ?_⟩
              intro v hvv
              rcases List.mem_singleton.mp hvv with rfl
              exact Or.inl h1
            · refine ⟨S, [vips], hS, rfl, ?_⟩
              intro v hvv
              rcases List.mem_singleton.mp hvv with rfl
              exact Or.inr ⟨addr, hmem, hrend⟩
          · rcases p with _ | _ | _
            · dsimp only at h
              rcases singleStackRange_mem ns pref inUse cfg fams mgr mgr'
                  vips S hv hcoR h with h1 | ⟨addr, hmem, hrend⟩
              · refine ⟨S, [vips], hS, rfl, ?_⟩
                intro v hvv
                rcases List.mem_singleton.mp hvv with rfl
                exact Or.inl h1
              · refine ⟨S, [vips], hS, rfl, ?_⟩
                intro v hvv
                rcases List.mem_singleton.mp hvv with rfl
                exact Or.inr ⟨addr, hmem, hrend⟩
            · dsimp only at h
              obtain ⟨parts, hpp, hmm⟩ := dualStackRange_mem ns pref inUse
                cfg .PreferDualStack fams mgr mgr' vips S hv hcoR h
              exact ⟨S, parts, hS, hpp, hmm⟩
            · dsimp only at h
              obtain ⟨parts, hpp, hmm⟩ := dualStackRange_mem ns pref inUse
                cfg .RequireDualStack fams mgr mgr' vips S hv hcoR h
              exact ⟨S, parts, hS, hpp, hmm⟩


/-- Counterexample to C1 as frozen: a full reconciliation writes the
shared VIP `10.0.0.50` — taken verbatim from another implemented
service's annotation — into the candidate's `loadbalancerIPs`
annotation, although the pool declared for the namespace is
`192.168.1.0/24` and `10.0.0.50` is not in it. -/
theorem c1_counterexample :
    (syncLoadBalancer
        ⟨[⟨str "default", str "a", [(implKey, implValue)],
        [(lbIPsKey, str "10.0.0.50")], [], [9], none, [], []⟩,
      ⟨str "default", str "b", [], [], [], [80], none, [], []⟩],
     [(str "kubevip", str "kube-system",
        [(str "cidr-default", str "192.168.1.0/24"),
         (str "allow-share-default", str "true")])], []⟩
        ⟨str "default", str "b", [], [], [], [80], none, [], []⟩ (str "kubevip") (str "kube-system")).1 = .ok [] ∧
      (getService (syncLoadBalancer
          ⟨[⟨str "default", str "a", [(implKey, implValue)],
        [(lbIPsKey, str "10.0.0.50")], [], [9], none, [], []⟩,
      ⟨str "default", str "b", [], [], [], [80], none, [], []⟩],
     [(str "kubevip", str "kube-system",
        [(str "cidr-default", str "192.168.1.0/24"),
         (str "allow-share-default", str "true")])], []⟩
          ⟨str "default", str "b", [], [], [], [80], none, [], []⟩ (str "kubevip") (str "kube-system")).2
          (str "default") (str "b")).map
        (fun s => lookupA s.anns lbIPsKey) =
        some (some (str "10.0.0.50")) ∧
      parseAddr (str "10.0.0.50") = some ⟨true, 167772210⟩ ∧
      parseCidrs (str "192.168.1.0/24") =
        .ok [⟨⟨true, 3232235776⟩, ⟨true, 3232236031⟩⟩] ∧
      IPSet.containsA [⟨⟨true, 3232235776⟩, ⟨true, 3232236031⟩⟩]
        ⟨true, 167772210⟩ = false := by
  refine ⟨by decide, by decide, by decide, by decide, by decide⟩

/-- Witness for C1's amended theorem: a dual-stack `RequireDualStack`
allocation from a range declaration returns `10.0.0.5,2001:db8::5`, both
parts rendered members of the declared pool set. -/
theorem c1_witness :
    CidrCoherent [] ∧ RangeCoherent [] ∧
      discoverVIPs (str "ns") (str "10.0.0.5-10.0.0.9,2001:db8::5-2001:db8::9")
          [] [] none (some .RequireDualStack) [] [] =
        (.ok (str "10.0.0.5,2001:db8::5"), [⟨str "ns", [], str "2001:db8::5-2001:db8::9",
      [⟨⟨false, 42540766411282592856903984951653826565⟩,
        ⟨false, 42540766411282592856903984951653826569⟩⟩]⟩]) ∧
      ∃ S parts,
        declaredPoolSet (str "10.0.0.5-10.0.0.9,2001:db8::5-2001:db8::9") = .ok S ∧
        str "10.0.0.5,2001:db8::5" = interpose ',' parts ∧
        ∀ v ∈ parts, v = ([] : Str) ∨
          ∃ addr, S.containsA addr = true ∧ v = addr.render := by
  refine ⟨fun e he => absurd he (List.not_mem_nil e),
    fun e he => absurd he (List.not_mem_nil e), by decide, ?_⟩
  exact c1_vips_in_declared_pool_or_preferred (str "ns")
    (str "10.0.0.5-10.0.0.9,2001:db8::5-2001:db8::9") [] [] none
    (some .RequireDualStack) [] []
    [⟨str "ns", [], str "2001:db8::5-2001:db8::9",
      [⟨⟨false, 42540766411282592856903984951653826565⟩,
        ⟨false, 42540766411282592856903984951653826569⟩⟩]⟩]
    (str "10.0.0.5,2001:db8::5")
    (fun e he => absurd he (List.not_mem_nil e))
    (fun e he => absurd he (List.not_mem_nil e)) (by decide)


end KubeVip
